import Mathlib

/-!
# go_lru: recency list (`BASELRU`) and two-queue cache (`TwoQueueCache`)

A shallow embedding of `base_lru.go` and `2q.go`, followed by the adaptive
replacement cache and the LRU policy, whose files `arc.go` and `lru.go` are not
among the sources and which are modelled from sections 4.4 and 4.2 of the
specification on top of the embedded `BASELRU`.

* The Go heap is explicit: a `*list.Element` is an address (`Nat`), the store
  `heap` gives the `entry` an element carries, `evictList` is the chain of
  element addresses from front to back and `items` is the Go map from key to
  element address.
* `interface{}` values are an arbitrary inhabited type `V`; Go's `nil` is
  `default`.
* `time.Now().UnixNano()` is an explicit argument `now` of every operation
  that may read the clock.
* `int64` arithmetic that may overflow is wrapped with `wrap64`.
* The eviction callback is recorded: `onEvict` says whether a callback is
  configured, `fired` is the sequence of `(key, value)` pairs it received.
-/

namespace GoLru

/-! ## Constants and entries (`base_lru.go`) -/

/-- Duration sentinel `NoExpiration time.Duration = -1`. -/
def NoExpiration : Int := -1

/-- Duration sentinel `DefaultExpiration time.Duration = 0`. -/
def DefaultExpiration : Int := 0

/-- Two's complement reading of an integer as an `int64`. -/
def wrap64 (x : Int) : Int := (x + 2 ^ 63) % 2 ^ 64 - 2 ^ 63

/-- Record `entry` held by an element of the eviction list. -/
structure entry (V : Type) where
  key : String
  value : V
  Expiration : Int
deriving DecidableEq, Repr

/-- Method `entry.Expired`, at clock reading `now`. -/
def entry.Expired {V : Type} (item : entry V) (now : Int) : Bool :=
  if item.Expiration = 0 then false else decide (now > item.Expiration)

/-- Go map `map[string]*list.Element`. -/
abbrev Index := AList (fun _ : String => Nat)

/-- Struct `BASELRU`, together with the part of the heap it points into. -/
structure BASELRU (V : Type) where
  size : Int
  evictList : List Nat
  items : Index
  heap : Nat → entry V
  onEvict : Bool
  defaultExpiration : Int
  fired : List (String × V)

namespace BASELRU

variable {V : Type} [Inhabited V]

/-- An address that no element of the list and no binding of the index uses:
the address handed out by the next allocation of a list element. -/
def alloc (c : BASELRU V) : Nat :=
  (c.evictList ++ c.items.entries.map (fun s => s.2)).foldr max 0 + 1

/-- The struct literal built by `NewBaseLRU`: an empty list (`list.New()`) and
an empty index (`make(map[string]*list.Element)`). -/
def fresh (size : Int) (onEvict : Bool) (defaultExpiration : Int) : BASELRU V :=
  { size := size
    evictList := []
    items := ∅
    heap := fun _ => ⟨"", default, 0⟩
    onEvict := onEvict
    defaultExpiration := defaultExpiration
    fired := [] }

/-- Function `NewBaseLRU`. -/
def NewBaseLRU (size : Int) (onEvict : Bool) (defaultExpiration : Int) :
    Except String (BASELRU V) :=
  if size ≤ 0 then
    .error "Must provide a positive size"
  else
    .ok (fresh size onEvict defaultExpiration)

/-- Method `Purge`: the callback runs for every binding of the index (in the
order the map is ranged over), the index is emptied and the list reset. -/
def Purge (c : BASELRU V) : BASELRU V :=
  { c with
    fired := c.fired ++
      (if c.onEvict then c.items.entries.map (fun s => (s.1, (c.heap s.2).value)) else [])
    items := ∅
    evictList := [] }

/-- Method `removeElement`: `evictList.Remove(e)`, `delete(items, key)`, then
the callback. -/
def removeElement (c : BASELRU V) (e : Nat) : BASELRU V :=
  let kv := c.heap e
  { c with
    evictList := c.evictList.erase e
    items := c.items.erase kv.key
    fired := if c.onEvict then c.fired ++ [(kv.key, kv.value)] else c.fired }

/-- Method `removeOldest`. -/
def removeOldest (c : BASELRU V) : BASELRU V :=
  match c.evictList.getLast? with
  | some ent => c.removeElement ent
  | none => c

/-- List operation `MoveToFront` of `container/list`: nothing happens when the
element is not in the list. -/
def moveToFront (l : List Nat) (e : Nat) : List Nat :=
  if e ∈ l then e :: l.erase e else l

/-- Method `AddWithTimeout`. -/
def AddWithTimeout (c : BASELRU V) (key : String) (value : V) (timeout : Int) :
    BASELRU V × Bool :=
  match c.items.lookup key with
  | some ent =>
    ({ c with
       evictList := moveToFront c.evictList ent
       heap := Function.update c.heap ent { c.heap ent with value := value } }, false)
  | none =>
    let e := c.alloc
    let c1 : BASELRU V :=
      { c with
        heap := Function.update c.heap e ⟨key, value, timeout⟩
        evictList := e :: c.evictList
        items := c.items.insert key e }
    let evict := decide ((c1.evictList.length : Int) > c1.size)
    if evict then (c1.removeOldest, evict) else (c1, evict)

/-- Method `AddWithExpire`, at clock reading `now`. -/
def AddWithExpire (c : BASELRU V) (key : String) (value : V) (d : Int) (now : Int) :
    BASELRU V × Bool :=
  let d := if d = DefaultExpiration then c.defaultExpiration else d
  let e : Int := if d > 0 then wrap64 (now + d) else 0
  c.AddWithTimeout key value e

/-- Method `Add`. -/
def Add (c : BASELRU V) (key : String) (value : V) (now : Int) : BASELRU V × Bool :=
  c.AddWithExpire key value NoExpiration now

/-- Method `Get`, at clock reading `now`: the result is `(value, ok)`. -/
def Get (c : BASELRU V) (key : String) (now : Int) : BASELRU V × (V × Bool) :=
  match c.items.lookup key with
  | none => (c, (default, false))
  | some ent =>
    let item := c.heap ent
    if item.Expiration > 0 ∧ now > item.Expiration then
      (c, (default, false))
    else
      ({ c with evictList := moveToFront c.evictList ent }, (item.value, true))

/-- Method `Contains`, at clock reading `now`. -/
def Contains (c : BASELRU V) (key : String) (now : Int) : Bool :=
  match c.items.lookup key with
  | some item => if (c.heap item).Expired now then false else true
  | none => false

/-- Method `Peek`. -/
def Peek (c : BASELRU V) (key : String) : V × Bool :=
  match c.items.lookup key with
  | some ent => ((c.heap ent).value, true)
  | none => (default, false)

/-- Method `PeekWithExpire`. -/
def PeekWithExpire (c : BASELRU V) (key : String) : V × Bool × Int :=
  match c.items.lookup key with
  | some ent => ((c.heap ent).value, true, (c.heap ent).Expiration)
  | none => (default, false, 0)

/-- Method `Remove`. -/
def Remove (c : BASELRU V) (key : String) : BASELRU V × Bool :=
  match c.items.lookup key with
  | some ent => (c.removeElement ent, true)
  | none => (c, false)

/-- Method `RemoveOldest`. -/
def RemoveOldest (c : BASELRU V) : BASELRU V × (String × V × Bool) :=
  match c.evictList.getLast? with
  | some ent => (c.removeElement ent, ((c.heap ent).key, (c.heap ent).value, true))
  | none => (c, ("", default, false))

/-- Method `GetOldest`. -/
def GetOldest (c : BASELRU V) : String × V × Bool :=
  match c.evictList.getLast? with
  | some ent => ((c.heap ent).key, (c.heap ent).value, true)
  | none => ("", default, false)

/-- Method `Keys`: a slice of `len(items)` slots is filled from the back of
the list towards the front; `none` is the index-out-of-range panic of a write
past the last slot. -/
def Keys (c : BASELRU V) : Option (List String) :=
  let n := c.items.entries.length
  let ks := c.evictList.reverse.map (fun e => (c.heap e).key)
  if ks.length ≤ n then some (ks ++ List.replicate (n - ks.length) "") else none

/-- Method `Len`. -/
def Len (c : BASELRU V) : Nat := c.evictList.length

/-! ### Views used to state properties -/

/-- Entries of the eviction list, front (most recent) to back (oldest). -/
def entries (c : BASELRU V) : List (entry V) := c.evictList.map c.heap

/-- Keys of the eviction list, front (most recent) to back (oldest). -/
def keyList (c : BASELRU V) : List String := c.entries.map (fun x => x.key)

/-- List and index agree: no key occurs twice in the eviction list and the
index binds exactly the keys of the list entries, each to its own element. -/
structure Linked (c : BASELRU V) : Prop where
  keys_nodup : c.keyList.Nodup
  index : ∀ k e, c.items.lookup k = some e ↔ e ∈ c.evictList ∧ (c.heap e).key = k

/-- Well-formedness: list and index agree and the length does not exceed the
capacity. -/
structure WellFormed (c : BASELRU V) extends Linked c : Prop where
  len_le : (c.Len : Int) ≤ c.size

/-- Public operations of a `BASELRU`. -/
inductive Op (V : Type) where
  | Add (key : String) (value : V)
  | AddWithExpire (key : String) (value : V) (d : Int)
  | AddWithTimeout (key : String) (value : V) (timeout : Int)
  | Get (key : String)
  | Peek (key : String)
  | PeekWithExpire (key : String)
  | Contains (key : String)
  | Remove (key : String)
  | RemoveOldest
  | GetOldest
  | Keys
  | Len
  | Purge

/-- The operations that only read: `Peek`, `PeekWithExpire`, `Contains`,
`GetOldest`, `Keys`, `Len`. -/
def Op.readOnly : Op V → Bool
  | .Peek _ => true
  | .PeekWithExpire _ => true
  | .Contains _ => true
  | .GetOldest => true
  | .Keys => true
  | .Len => true
  | _ => false

/-- State after one public operation performed at clock reading `now`. -/
def step (c : BASELRU V) (now : Int) : Op V → BASELRU V
  | .Add key value => (c.Add key value now).1
  | .AddWithExpire key value d => (c.AddWithExpire key value d now).1
  | .AddWithTimeout key value timeout => (c.AddWithTimeout key value timeout).1
  | .Get key => (c.Get key now).1
  | .Peek _ => c
  | .PeekWithExpire _ => c
  | .Contains _ => c
  | .Remove key => (c.Remove key).1
  | .RemoveOldest => c.RemoveOldest.1
  | .GetOldest => c
  | .Keys => c
  | .Len => c
  | .Purge => c.Purge

/-- State after a sequence of public operations, each with its clock reading. -/
def run (c : BASELRU V) : List (Int × Op V) → BASELRU V
  | [] => c
  | (now, op) :: rest => (c.step now op).run rest

/-- State of `AddWithTimeout` on an absent key after `PushFront` and the index
assignment, before the capacity check. -/
def pushed (c : BASELRU V) (key : String) (value : V) (timeout : Int) : BASELRU V :=
  { c with
    heap := Function.update c.heap c.alloc ⟨key, value, timeout⟩
    evictList := c.alloc :: c.evictList
    items := c.items.insert key c.alloc }

/-- A cache of capacity 2 holding `"a"` (older) and `"b"` (newer), used to
instantiate statements at a concrete state. -/
def sample : BASELRU Nat :=
  (fresh 2 false NoExpiration).run [(0, .Add "a" 1), (0, .Add "b" 2)]

end BASELRU

/-! ## The two-queue cache (`2q.go`)

A `TwoQueueCache` operation holds the cache lock from start to end; the
embedding gives it one clock reading `now`, used by every `BASELRU` call made
inside the operation. -/

/-- Struct `TwoQueueCache` (the lock is left out: operations are atomic). -/
structure TwoQueueCache (V : Type) where
  size : Int
  recentSize : Int
  recent : BASELRU V
  frequent : BASELRU V
  recentEvict : BASELRU V

namespace TwoQueueCache

variable {V : Type} [Inhabited V]

/-- Method `Get`, at clock reading `now`. -/
def Get (c : TwoQueueCache V) (key : String) (now : Int) : TwoQueueCache V × (V × Bool) :=
  let r := c.frequent.Get key now
  if r.2.2 then
    ({ c with frequent := r.1 }, r.2)
  else
    let c := { c with frequent := r.1 }
    let p := c.recent.PeekWithExpire key
    if p.2.1 then
      let c := { c with recent := (c.recent.Remove key).1 }
      ({ c with frequent := (c.frequent.AddWithTimeout key p.1 p.2.2).1 }, (p.1, p.2.1))
    else
      (c, (default, false))

/-- Method `ensureSpace`. -/
def ensureSpace (c : TwoQueueCache V) (recentEvict : Bool) (now : Int) : TwoQueueCache V :=
  let recentLen : Int := c.recent.Len
  let freqLen : Int := c.frequent.Len
  if recentLen + freqLen < c.size then
    c
  else if recentLen > 0 ∧
      (recentLen > c.recentSize ∨ (recentLen = c.recentSize ∧ recentEvict = false)) then
    let r := c.recent.RemoveOldest
    let c := { c with recent := r.1 }
    { c with recentEvict := (c.recentEvict.Add r.2.1 default now).1 }
  else
    { c with frequent := c.frequent.RemoveOldest.1 }

/-- Method `AddWithExpire`, at clock reading `now`. -/
def AddWithExpire (c : TwoQueueCache V) (key : String) (value : V) (d : Int) (now : Int) :
    TwoQueueCache V :=
  if c.frequent.Contains key now then
    { c with frequent := (c.frequent.AddWithExpire key value d now).1 }
  else if c.recent.Contains key now then
    let c := { c with recent := (c.recent.Remove key).1 }
    { c with frequent := (c.frequent.AddWithExpire key value d now).1 }
  else if c.recentEvict.Contains key now then
    let c := c.ensureSpace true now
    let c := { c with recentEvict := (c.recentEvict.Remove key).1 }
    { c with frequent := (c.frequent.AddWithExpire key value d now).1 }
  else
    let c := c.ensureSpace false now
    { c with recent := (c.recent.AddWithExpire key value d now).1 }

/-- Method `Add`. -/
def Add (c : TwoQueueCache V) (key : String) (value : V) (now : Int) : TwoQueueCache V :=
  c.AddWithExpire key value NoExpiration now

/-- Method `Len`. -/
def Len (c : TwoQueueCache V) : Nat := c.recent.Len + c.frequent.Len

/-- Method `Keys`: `append(frequent.Keys(), recent.Keys()...)`. -/
def Keys (c : TwoQueueCache V) : Option (List String) :=
  match c.frequent.Keys with
  | none => none
  | some k1 =>
    match c.recent.Keys with
    | none => none
    | some k2 => some (k1 ++ k2)

/-- Method `Remove`. -/
def Remove (c : TwoQueueCache V) (key : String) : TwoQueueCache V :=
  let f := c.frequent.Remove key
  if f.2 then
    { c with frequent := f.1 }
  else
    let c := { c with frequent := f.1 }
    let r := c.recent.Remove key
    if r.2 then
      { c with recent := r.1 }
    else
      let c := { c with recent := r.1 }
      { c with recentEvict := (c.recentEvict.Remove key).1 }

/-- Method `Purge`. -/
def Purge (c : TwoQueueCache V) : TwoQueueCache V :=
  { c with
    recent := c.recent.Purge
    frequent := c.frequent.Purge
    recentEvict := c.recentEvict.Purge }

/-- Method `Contains`, at clock reading `now`. -/
def Contains (c : TwoQueueCache V) (key : String) (now : Int) : Bool :=
  c.frequent.Contains key now || c.recent.Contains key now

/-- Method `Peek`. -/
def Peek (c : TwoQueueCache V) (key : String) : V × Bool :=
  let r := c.frequent.Peek key
  if r.2 then r else c.recent.Peek key

/-- Public operations of a `TwoQueueCache`. -/
inductive Op (V : Type) where
  | Add (key : String) (value : V)
  | AddWithExpire (key : String) (value : V) (d : Int)
  | Get (key : String)
  | Remove (key : String)
  | Purge
  | Peek (key : String)
  | Contains (key : String)
  | Len
  | Keys

/-- The operations that only read: `Peek`, `Contains`, `Len`, `Keys`. -/
def Op.readOnly : Op V → Bool
  | .Peek _ => true
  | .Contains _ => true
  | .Len => true
  | .Keys => true
  | _ => false

/-- State after one public operation performed at clock reading `now`. -/
def step (c : TwoQueueCache V) (now : Int) : Op V → TwoQueueCache V
  | .Add key value => c.Add key value now
  | .AddWithExpire key value d => c.AddWithExpire key value d now
  | .Get key => (c.Get key now).1
  | .Remove key => c.Remove key
  | .Purge => c.Purge
  | .Peek _ => c
  | .Contains _ => c
  | .Len => c
  | .Keys => c

/-- State after a sequence of public operations, each with its clock reading. -/
def run (c : TwoQueueCache V) : List (Int × Op V) → TwoQueueCache V
  | [] => c
  | (now, op) :: rest => (c.step now op).run rest

end TwoQueueCache

/-! ## Definitions used to state the properties -/

namespace BASELRU

variable {V : Type} [Inhabited V]

/-- The operation sequence that adds the pairs `(key, value)` of a list with
`Add`, one after the other, each at its own clock reading. -/
def addOps (adds : List (Int × String × V)) : List (Int × Op V) :=
  adds.map (fun a => (a.1, Op.Add a.2.1 a.2.2))

/-- Three additions `"a"`, `"b"`, `"c"` at clock readings 0, 1, 2. -/
def sampleAdds : List (Int × String × Nat) := [(0, "a", 1), (1, "b", 2), (2, "c", 3)]

/-- Entry stored by `Add` for a pair `(key, value)`. -/
def addedEntry (a : Int × String × V) : entry V := ⟨a.2.1, a.2.2, 0⟩

/-- Effective duration of `AddWithExpire`: the argument `d`, or the configured
default when `d` is `DefaultExpiration`. -/
def effectiveDuration (c : BASELRU V) (d : Int) : Int :=
  if d = DefaultExpiration then c.defaultExpiration else d

/-- A cache whose only entry was stored by `AddWithTimeout` with the negative
timestamp `-5`. -/
def negativeDeadline : BASELRU Nat :=
  ((fresh 1 false NoExpiration).AddWithTimeout "a" 1 (-5)).1

/-- A cache whose only entry was stored at clock reading `1` by `AddWithExpire`
with the largest duration, `math.MaxInt64` nanoseconds. -/
def overflowDeadline : BASELRU Nat :=
  ((fresh 1 false NoExpiration).AddWithExpire "a" 1 (2 ^ 63 - 1) 1).1

end BASELRU

namespace TwoQueueCache

variable {V : Type} [Inhabited V]

/-- The cache `New2Q(2, NoExpiration)` builds: `recentSize = int(2 * 0.25) = 0`,
ghost capacity `int(2 * 0.5) = 1`. -/
def sample : TwoQueueCache Nat :=
  { size := 2
    recentSize := 0
    recent := BASELRU.fresh 2 false NoExpiration
    frequent := BASELRU.fresh 2 false NoExpiration
    recentEvict := BASELRU.fresh 1 false NoExpiration }

/-- The sample cache after `"a"` was added with a 10 ns lifetime at clock 0 and
promoted to `frequent` by a `Get` at clock 1. -/
def sampleFrequent : TwoQueueCache Nat :=
  ((sample.AddWithExpire "a" 1 10 0).Get "a" 1).1

end TwoQueueCache

namespace BASELRU

variable {V : Type} [Inhabited V]

/-- What a public operation hands back to its caller. -/
inductive Ret (V : Type) where
  | flag (b : Bool)
  | value (v : V) (ok : Bool)
  | valueExpire (v : V) (ok : Bool) (ts : Int)
  | oldest (key : String) (v : V) (ok : Bool)
  | keys (ks : Option (List String))
  | len (n : Nat)
  | nothing

/-- Result of one public operation performed at clock reading `now`. -/
def ret (c : BASELRU V) (now : Int) : Op V → Ret V
  | .Add key value => .flag (c.Add key value now).2
  | .AddWithExpire key value d => .flag (c.AddWithExpire key value d now).2
  | .AddWithTimeout key value timeout => .flag (c.AddWithTimeout key value timeout).2
  | .Get key => .value (c.Get key now).2.1 (c.Get key now).2.2
  | .Peek key => .value (c.Peek key).1 (c.Peek key).2
  | .PeekWithExpire key =>
    .valueExpire (c.PeekWithExpire key).1 (c.PeekWithExpire key).2.1 (c.PeekWithExpire key).2.2
  | .Contains key => .flag (c.Contains key now)
  | .Remove key => .flag (c.Remove key).2
  | .RemoveOldest => .oldest c.RemoveOldest.2.1 c.RemoveOldest.2.2.1 c.RemoveOldest.2.2.2
  | .GetOldest => .oldest c.GetOldest.1 c.GetOldest.2.1 c.GetOldest.2.2
  | .Keys => .keys c.Keys
  | .Len => .len c.Len
  | .Purge => .nothing

/-- Results of a sequence of public operations, in order. -/
def rets (c : BASELRU V) : List (Int × Op V) → List (Ret V)
  | [] => []
  | (now, op) :: rest => c.ret now op :: (c.step now op).rets rest

/-- Two caches with the same fields whose heaps agree on every element that the
list or the index refers to: they differ at most in unreachable heap cells and
in the record of callbacks already made. -/
structure SameCache (c₁ c₂ : BASELRU V) : Prop where
  size : c₁.size = c₂.size
  evictList : c₁.evictList = c₂.evictList
  items : c₁.items = c₂.items
  onEvict : c₁.onEvict = c₂.onEvict
  defaultExpiration : c₁.defaultExpiration = c₂.defaultExpiration
  heap : ∀ e, (e ∈ c₁.evictList ∨ ∃ k, c₁.items.lookup k = some e) → c₁.heap e = c₂.heap e

/-- Same callback suffix: both records grew by the same pairs. -/
def SameFired (a a' b b' : BASELRU V) : Prop :=
  ∃ new, a'.fired = a.fired ++ new ∧ b'.fired = b.fired ++ new

/-- The pairs `(key, value)` of the entries of `c` whose key is no longer in
`c'`, in list order. -/
def evictedBy (c c' : BASELRU V) : List (String × V) :=
  (c.entries.filter (fun x => decide (x.key ∉ c'.keyList))).map (fun x => (x.key, x.value))

/-- A cache of capacity 2 with a callback, holding `"a"` (older) and `"b"`. -/
def sampleCallback : BASELRU Nat :=
  (fresh 2 true NoExpiration).run [(0, .Add "a" 1), (0, .Add "b" 2)]

end BASELRU

namespace TwoQueueCache

variable {V : Type} [Inhabited V]

/-- Conversion `int(x)` of a `float64`: the fractional part is dropped. -/
def toInt (x : ℚ) : Int := if 0 ≤ x then ⌊x⌋ else ⌈x⌉

/-- Constant `Default2QRecentRatio = 0.25`. -/
def Default2QRecentRatio : ℚ := 1 / 4

/-- Constant `Default2QGhostEntries = 0.50`. -/
def Default2QGhostEntries : ℚ := 1 / 2

/-- The second half of `New2QParams`: allocate the three LRUs with the
sub-sizes already determined and initialise the cache; an error of
`NewBaseLRU` is handed on. -/
def allocate (size recentSize evictSize : Int) (defaultExpiration : Int) :
    Except String (TwoQueueCache V) :=
  match BASELRU.NewBaseLRU size false defaultExpiration with
  | .error err => .error err
  | .ok recent =>
    match BASELRU.NewBaseLRU size false defaultExpiration with
    | .error err => .error err
    | .ok frequent =>
      match BASELRU.NewBaseLRU evictSize false defaultExpiration with
      | .error err => .error err
      | .ok recentEvict =>
        .ok { size := size
              recentSize := recentSize
              recent := recent
              frequent := frequent
              recentEvict := recentEvict }

/-- Function `New2QParams`. A `float64` ratio is read as the rational number it
denotes (not-a-number and the infinities are left out), and the product
`float64(size) * ratio` is taken without rounding, which is what the machine
computes for the ratios 0, 0.25, 0.5 and 1 and sizes below `2^53`. -/
def New2QParams (size : Int) (recentRatio ghostRatio : ℚ) (defaultExpiration : Int) :
    Except String (TwoQueueCache V) :=
  if size ≤ 0 then
    .error "invalid size"
  else if recentRatio < 0 ∨ recentRatio > 1 then
    .error "invalid recent ratio"
  else if ghostRatio < 0 ∨ ghostRatio > 1 then
    .error "invalid ghost ratio"
  else
    allocate size (toInt ((size : ℚ) * recentRatio)) (toInt ((size : ℚ) * ghostRatio))
      defaultExpiration

/-- Function `New2Q`. -/
def New2Q (size : Int) (defaultExpiration : Int) : Except String (TwoQueueCache V) :=
  New2QParams size Default2QRecentRatio Default2QGhostEntries defaultExpiration

/-- Structure of a cache in use: the three lists are well-formed, `recent` and
`frequent` have the capacity of the cache, which is positive. -/
structure Inv (c : TwoQueueCache V) : Prop where
  recent_wf : c.recent.WellFormed
  frequent_wf : c.frequent.WellFormed
  ghost_wf : c.recentEvict.WellFormed
  recent_size : c.recent.size = c.size
  frequent_size : c.frequent.size = c.size
  size_pos : 0 < c.size

/-- The cache `New2QParams(2, 1.0, 0.5, NoExpiration)` builds: `recentSize = 2`,
ghost capacity 1. -/
def sampleAllRecent : TwoQueueCache Nat :=
  { size := 2
    recentSize := 2
    recent := BASELRU.fresh 2 false NoExpiration
    frequent := BASELRU.fresh 2 false NoExpiration
    recentEvict := BASELRU.fresh 1 false NoExpiration }

/-- What one step keeps: the structure, the two sizes, and (when the target of
`recent` is below the capacity) the bound on the number of live entries. -/
structure Keeps (c c' : TwoQueueCache V) : Prop where
  inv : c'.Inv
  size : c'.size = c.size
  recentSize : c'.recentSize = c.recentSize
  cap : c.recentSize < c.size → (c.Len : Int) ≤ c.size → (c'.Len : Int) ≤ c'.size

/-- Four additions at clock 0: `"a"`, `"b"`, `"c"`, then `"a"` again. -/
def ghostHitOps : List (Int × Op Nat) :=
  [(0, .Add "a" 1), (0, .Add "b" 2), (0, .Add "c" 3), (0, .Add "a" 4)]

/-- `"a"` added with a lifetime of 10 at clock 0, read at clock 1 (which moves
it to `frequent`), and added again at clock 20, after its deadline. -/
def expiredReaddOps : List (Int × Op Nat) :=
  [(0, .AddWithExpire "a" 1 10), (1, .Get "a"), (20, .AddWithExpire "a" 2 10)]

/-- The sample cache with `"a"` added at clock 0 with a lifetime of 10. -/
def sampleRecentOps : List (Int × Op Nat) := [(0, .AddWithExpire "a" 1 10)]

end TwoQueueCache

namespace BASELRU

variable {V : Type} [Inhabited V]

/-- No entry of the list carries a deadline. -/
def NoDeadline (c : BASELRU V) : Prop := ∀ x ∈ c.entries, x.Expiration = 0

end BASELRU

namespace TwoQueueCache

variable {V : Type} [Inhabited V]

/-- The cache `New2Q(4, NoExpiration)` builds: `recentSize = int(4 * 0.25) = 1`,
ghost capacity `int(4 * 0.5) = 2`. -/
def sampleFour : TwoQueueCache Nat :=
  { size := 4
    recentSize := 1
    recent := BASELRU.fresh 4 false NoExpiration
    frequent := BASELRU.fresh 4 false NoExpiration
    recentEvict := BASELRU.fresh 2 false NoExpiration }

/-- `Add` of the keys `"1"` to `"5"`. -/
def fiveAdds : List (Int × Op Nat) :=
  [(0, .Add "1" 1), (0, .Add "2" 2), (0, .Add "3" 3), (0, .Add "4" 4), (0, .Add "5" 5)]

/-- Deadline `AddWithExpire` computes on list `b` for duration `d` at clock `now`. -/
def deadline (b : BASELRU V) (d now : Int) : Int :=
  if b.effectiveDuration d > 0 then wrap64 (now + b.effectiveDuration d) else 0

/-- The operation sequence that adds the pairs `(key, value)` of a list with
`Add`, one after the other, each at its own clock reading. -/
def addOps (adds : List (Int × String × V)) : List (Int × Op V) :=
  adds.map (fun a => (a.1, Op.Add a.2.1 a.2.2))

/-- Three additions `"a"`, `"b"`, `"c"` at clock readings 0, 1, 2. -/
def threeAdds : List (Int × String × Nat) := [(0, "a", 1), (1, "b", 2), (2, "c", 3)]

/-- No list holds an entry with a deadline, and no key is in two of the three
lists. -/
structure Separated (c : TwoQueueCache V) : Prop where
  recent_nd : c.recent.NoDeadline
  frequent_nd : c.frequent.NoDeadline
  ghost_nd : c.recentEvict.NoDeadline
  recent_frequent : c.recent.keyList.Disjoint c.frequent.keyList
  recent_ghost : c.recent.keyList.Disjoint c.recentEvict.keyList
  frequent_ghost : c.frequent.keyList.Disjoint c.recentEvict.keyList

/-- The operations that store no deadline: all but `AddWithExpire` with a
duration other than `NoExpiration`. -/
def Op.noDeadline : Op V → Bool
  | .AddWithExpire _ _ d => decide (d = NoExpiration)
  | _ => true

/-- Operations on the sample cache: additions, a read that promotes, an
addition that evicts into the ghost list, a ghost hit, a removal. -/
def sampleMixedOps : List (Int × Op Nat) :=
  [(0, .Add "a" 1), (1, .Add "b" 2), (2, .Get "a"), (3, .Add "c" 3),
   (4, .AddWithExpire "d" 4 NoExpiration), (5, .Add "b" 5), (6, .Remove "a")]

end TwoQueueCache

/-! ## The adaptive replacement cache (section 4.4 of the specification)

The file `arc.go` is not among the sources; `arc_test.go` fixes the names
`NewARC`, `t1`, `t2`, `b1`, `b2`, `p` and the public methods. As for the
two-queue cache, an operation is atomic and reads the clock once. -/

/-- Modelled from the spec: struct `ARCCache` of `arc.go`, a file that is not
among the sources. Section 4.4: four recency lists `t1`, `t2`, `b1`, `b2` of
capacity `size` without callback, and the adaptive target `p`. -/
structure ARCCache (V : Type) where
  size : Int
  p : Int
  t1 : BASELRU V
  t2 : BASELRU V
  b1 : BASELRU V
  b2 : BASELRU V

namespace ARCCache

variable {V : Type} [Inhabited V]

/-- Modelled from the spec: function `NewARC` of the absent `arc.go`. The four
lists are built with capacity `size`, no callback and the default expiration
(a non-positive `size` is refused by the list constructor); `p` starts at 0. -/
def NewARC (size : Int) (defaultExpiration : Int) : Except String (ARCCache V) :=
  match BASELRU.NewBaseLRU size false defaultExpiration with
  | .error err => .error err
  | .ok l => .ok { size := size, p := 0, t1 := l, t2 := l, b1 := l, b2 := l }

/-- Modelled from the spec: `replace(in_b2)` of the absent `arc.go`, the
eviction selector of section 4.4. The oldest entry of `t1` (or else of `t2`)
is evicted and its key inserted as a ghost, with the nil value, into `b1` (or
`b2`); when the chosen list is empty there is no key and nothing is
inserted. -/
def replace (c : ARCCache V) (inB2 : Bool) (now : Int) : ARCCache V :=
  let t1Len : Int := c.t1.Len
  if t1Len > 0 ∧ (t1Len > c.p ∨ (t1Len = c.p ∧ inB2 = true)) then
    let r := c.t1.RemoveOldest
    if r.2.2.2 then { c with t1 := r.1, b1 := (c.b1.Add r.2.1 default now).1 } else c
  else
    let r := c.t2.RemoveOldest
    if r.2.2.2 then { c with t2 := r.1, b2 := (c.b2.Add r.2.1 default now).1 } else c

/-- Modelled from the spec: the step "if `t1.len + t2.len ≥ size`, call
`replace`" shared by rules 3, 4 and 5 of `AddWithExpire` (absent `arc.go`). -/
def makeRoom (c : ARCCache V) (inB2 : Bool) (now : Int) : ARCCache V :=
  if (c.t1.Len : Int) + c.t2.Len ≥ c.size then c.replace inB2 now else c

/-- Modelled from the spec: the ghost-list bookkeeping of rule 5 of
`AddWithExpire` (absent `arc.go`): if `b1.len > size - p`, `b1.remove_oldest()`;
if `b2.len > p`, `b2.remove_oldest()`. -/
def pruneGhosts (c : ARCCache V) : ARCCache V :=
  let c := if (c.b1.Len : Int) > c.size - c.p then { c with b1 := c.b1.RemoveOldest.1 } else c
  if (c.b2.Len : Int) > c.p then { c with b2 := c.b2.RemoveOldest.1 } else c

/-- Modelled from the spec: method `AddWithExpire` of the absent `arc.go`,
rules 1 to 5 of section 4.4 in their order, at clock reading `now`. -/
def AddWithExpire (c : ARCCache V) (key : String) (value : V) (d : Int) (now : Int) :
    ARCCache V :=
  if c.t2.Contains key now then
    { c with t2 := (c.t2.AddWithExpire key value d now).1 }
  else if c.t1.Contains key now then
    let c := { c with t1 := (c.t1.Remove key).1 }
    { c with t2 := (c.t2.AddWithExpire key value d now).1 }
  else if c.b1.Contains key now then
    let delta : Int := max 1 ((c.b2.Len : Int) / (c.b1.Len : Int))
    let c := { c with p := min c.size (c.p + delta) }
    let c := c.makeRoom false now
    let c := { c with b1 := (c.b1.Remove key).1 }
    { c with t2 := (c.t2.AddWithExpire key value d now).1 }
  else if c.b2.Contains key now then
    let delta : Int := max 1 ((c.b1.Len : Int) / (c.b2.Len : Int))
    let c := { c with p := max 0 (c.p - delta) }
    let c := c.makeRoom true now
    let c := { c with b2 := (c.b2.Remove key).1 }
    { c with t2 := (c.t2.AddWithExpire key value d now).1 }
  else
    let c := (c.makeRoom false now).pruneGhosts
    { c with t1 := (c.t1.AddWithExpire key value d now).1 }

/-- Modelled from the spec: method `Add` of the absent `arc.go`,
`AddWithExpire` with `NoExpiration`. -/
def Add (c : ARCCache V) (key : String) (value : V) (now : Int) : ARCCache V :=
  c.AddWithExpire key value NoExpiration now

/-- Modelled from the spec: method `Get` of the absent `arc.go`: a hit in `t2`
touches the entry there; a hit of `peek_with_expire` in `t1` moves the entry to
`t2` with its deadline. -/
def Get (c : ARCCache V) (key : String) (now : Int) : ARCCache V × (V × Bool) :=
  let r := c.t2.Get key now
  if r.2.2 then
    ({ c with t2 := r.1 }, r.2)
  else
    let c := { c with t2 := r.1 }
    let q := c.t1.PeekWithExpire key
    if q.2.1 then
      let c := { c with t1 := (c.t1.Remove key).1 }
      ({ c with t2 := (c.t2.AddWithTimeout key q.1 q.2.2).1 }, (q.1, true))
    else
      (c, (default, false))

/-- Modelled from the spec: method `Remove` of the absent `arc.go`: `t1`, `t2`,
`b1`, `b2` are tried in this order, up to the first hit. -/
def Remove (c : ARCCache V) (key : String) : ARCCache V :=
  let r := c.t1.Remove key
  if r.2 then { c with t1 := r.1 }
  else
    let r := c.t2.Remove key
    if r.2 then { c with t2 := r.1 }
    else
      let r := c.b1.Remove key
      if r.2 then { c with b1 := r.1 }
      else { c with b2 := (c.b2.Remove key).1 }

/-- Modelled from the spec: method `Purge` of the absent `arc.go`: the four
lists are purged and `p` is reset to 0. -/
def Purge (c : ARCCache V) : ARCCache V :=
  { c with
    p := 0
    t1 := c.t1.Purge
    t2 := c.t2.Purge
    b1 := c.b1.Purge
    b2 := c.b2.Purge }

/-- Modelled from the spec: method `Contains` of the absent `arc.go`. -/
def Contains (c : ARCCache V) (key : String) (now : Int) : Bool :=
  c.t1.Contains key now || c.t2.Contains key now

/-- Modelled from the spec: method `Peek` of the absent `arc.go`, `t1` then
`t2`. -/
def Peek (c : ARCCache V) (key : String) : V × Bool :=
  let r := c.t1.Peek key
  if r.2 then r else c.t2.Peek key

/-- Modelled from the spec: method `Len` of the absent `arc.go`. -/
def Len (c : ARCCache V) : Nat := c.t1.Len + c.t2.Len

/-- Public operations of an `ARCCache` that change its state. -/
inductive Op (V : Type) where
  | Add (key : String) (value : V)
  | AddWithExpire (key : String) (value : V) (d : Int)
  | Get (key : String)
  | Remove (key : String)
  | Purge

/-- State after one public operation performed at clock reading `now`. -/
def step (c : ARCCache V) (now : Int) : Op V → ARCCache V
  | .Add key value => c.Add key value now
  | .AddWithExpire key value d => c.AddWithExpire key value d now
  | .Get key => (c.Get key now).1
  | .Remove key => c.Remove key
  | .Purge => c.Purge

/-- State after a sequence of public operations, each with its clock reading. -/
def run (c : ARCCache V) : List (Int × Op V) → ARCCache V
  | [] => c
  | (now, op) :: rest => (c.step now op).run rest

/-- The cache `NewARC(size, NoExpiration)` builds for a positive `size`. -/
def start (size : Int) : ARCCache Nat :=
  { size := size
    p := 0
    t1 := BASELRU.fresh size false NoExpiration
    t2 := BASELRU.fresh size false NoExpiration
    b1 := BASELRU.fresh size false NoExpiration
    b2 := BASELRU.fresh size false NoExpiration }

/-- The first part of `TestARC_Adaptive`: `Add` of the keys 0 to 3, `Get` of 0
and 1, `Add` of 4, all at clock 0. -/
def adaptiveOps : List (Int × Op Nat) :=
  [(0, .Add "0" 0), (0, .Add "1" 1), (0, .Add "2" 2), (0, .Add "3" 3),
   (0, .Get "0"), (0, .Get "1"), (0, .Add "4" 4)]

/-- On a cache of size 1: `Add` of `a`, of `b`, and of `a` again. -/
def overfullOps : List (Int × Op Nat) :=
  [(0, .Add "a" 1), (0, .Add "b" 2), (0, .Add "a" 3)]

/-- On a cache of size 2: `Add` of `a`, `b`, `c`, `a`, `d`, `b`. -/
def overfullOpsTwo : List (Int × Op Nat) :=
  [(0, .Add "a" 1), (0, .Add "b" 2), (0, .Add "c" 3), (0, .Add "a" 4), (0, .Add "d" 5),
   (0, .Add "b" 6)]

/-- Structure of a cache in use: the four lists are well-formed with the
capacity of the cache, which is positive. -/
structure Inv (c : ARCCache V) : Prop where
  t1_wf : c.t1.WellFormed
  t2_wf : c.t2.WellFormed
  b1_wf : c.b1.WellFormed
  b2_wf : c.b2.WellFormed
  t1_size : c.t1.size = c.size
  t2_size : c.t2.size = c.size
  b1_size : c.b1.size = c.size
  b2_size : c.b2.size = c.size
  size_pos : 0 < c.size

/-- The bounds on the ghost lists and on the target: `b1.Len() + b2.Len()` is
at most `size`, and `p` lies between 0 and `size`. -/
structure Bounded (c : ARCCache V) : Prop where
  ghosts : (c.b1.Len : Int) + c.b2.Len ≤ c.size
  p_nonneg : 0 ≤ c.p
  p_le : c.p ≤ c.size

/-- The second part of `TestARC_Adaptive`: `Add` of 2, 4, 5 and 0. -/
def adaptiveTail : List (Int × Op Nat) :=
  [(0, .Add "2" 2), (0, .Add "4" 4), (0, .Add "5" 5), (0, .Add "0" 0)]

/-- Operations on a cache of size 2 that fill it, hit both ghost lists and
purge. -/
def ghostOps : List (Int × Op Nat) :=
  [(0, .Add "a" 1), (1, .Add "b" 2), (2, .Get "a"), (3, .Add "c" 3), (4, .Add "d" 4),
   (5, .AddWithExpire "b" 5 10), (6, .Add "e" 6), (7, .Add "a" 7), (8, .Remove "c"),
   (30, .Get "b"), (31, .Add "f" 8)]

end ARCCache

/-! ## The LRU policy (section 4.2 of the specification)

The file `lru.go` is not among the sources; `lru_test.go` fixes the names `New`,
`NewWithEvict` and the public methods. -/

/-- Modelled from the spec: the cache type of `lru.go`, a file that is not among
the sources. Section 4.2: one recency list wrapped by a lock; the lock is left
out, every operation being atomic. -/
structure Cache (V : Type) where
  lru : BASELRU V

namespace Cache

variable {V : Type} [Inhabited V]

/-- Modelled from the spec: function `NewWithEvict` of the absent `lru.go`;
`onEvict` tells whether a callback is configured. -/
def NewWithEvict (size : Int) (defaultExpiration : Int) (onEvict : Bool) :
    Except String (Cache V) :=
  match BASELRU.NewBaseLRU size onEvict defaultExpiration with
  | .error err => .error err
  | .ok l => .ok { lru := l }

/-- Modelled from the spec: function `New` of the absent `lru.go`, a cache
without callback. -/
def New (size : Int) (defaultExpiration : Int) : Except String (Cache V) :=
  NewWithEvict size defaultExpiration false

/-- Modelled from the spec: method `Add` of the absent `lru.go`, delegated to the
recency list. -/
def Add (c : Cache V) (key : String) (value : V) (now : Int) : Cache V × Bool :=
  ({ lru := (c.lru.Add key value now).1 }, (c.lru.Add key value now).2)

/-- Modelled from the spec: method `Contains` of the absent `lru.go`, delegated
to the recency list. -/
def Contains (c : Cache V) (key : String) (now : Int) : Bool :=
  c.lru.Contains key now

/-- Modelled from the spec: method `ContainsOrAdd` of the absent `lru.go`.
Section 4.2: if the key is already present (looked up without updating
recency, as `peek` does), the result is `(true, false)`; otherwise an add is
performed and the result is `(false, evicted)`. -/
def ContainsOrAdd (c : Cache V) (key : String) (value : V) (now : Int) :
    Cache V × (Bool × Bool) :=
  if (c.lru.Peek key).2 then
    (c, (true, false))
  else
    ((c.Add key value now).1, (false, (c.Add key value now).2))

/-- The cache of `TestLRUContainsOrAdd` after `Add("1", 1)` and `Add("2", 2)`:
capacity 2. -/
def sample : Cache Nat :=
  { lru := (BASELRU.fresh 2 false NoExpiration).run [(0, .Add "1" 1), (0, .Add "2" 2)] }

end Cache

namespace TwoQueueCache

variable {V : Type} [Inhabited V]

/-- Key `"a"` added with a lifetime of 10 at clock 0, added again at clock 5
(which promotes it to `frequent` with deadline 15), and added once more with
`Add` at clock 99, after that deadline. -/
def lateReaddOps : List (Int × Op Nat) :=
  [(0, .AddWithExpire "a" 1 10), (5, .AddWithExpire "a" 2 10), (99, .Add "a" 3)]

end TwoQueueCache

/-! ## Auxiliary facts about lists -/

theorem le_foldr_max (l : List Nat) (x : Nat) (h : x ∈ l) : x ≤ l.foldr max 0 := by
  induction l with
  | nil => cases h
  | cons a t ih =>
    simp only [List.foldr_cons]
    rcases List.mem_cons.1 h with rfl | h
    · exact le_max_left _ _
    · exact le_trans (ih h) (le_max_right _ _)

theorem erase_getLast_eq_dropLast (l : List Nat) (e : Nat) (hn : l.Nodup)
    (h : l.getLast? = some e) : l.erase e = l.dropLast := by
  induction l with
  | nil => cases h
  | cons a t ih =>
    cases t with
    | nil =>
      simp at h
      subst h
      simp
    | cons b u =>
      have hlast : (b :: u).getLast? = some e := by
        simpa [List.getLast?_cons_cons] using h
      have hmem : e ∈ b :: u := List.mem_of_getLast?_eq_some hlast
      have hne : a ≠ e := by
        intro hae
        subst hae
        exact (List.nodup_cons.1 hn).1 hmem
      rw [List.erase_cons_tail (by simpa using hne), ih (List.nodup_cons.1 hn).2 hlast]
      simp [List.dropLast]

/-- Erasing an element from a list whose images under `g ∘ h` are distinct is
filtering the image list by the erased element's `g`-value. -/
theorem map_erase_eq_filter {α β : Type} [DecidableEq β] (h : Nat → α) (g : α → β)
    (l : List Nat) (e : Nat) (hn : (l.map (fun x => g (h x))).Nodup) (he : e ∈ l) :
    (l.erase e).map h = (l.map h).filter (fun x => decide (g x ≠ g (h e))) := by
  induction l with
  | nil => cases he
  | cons a t ih =>
    simp only [List.map_cons, List.nodup_cons, List.mem_map, not_exists, not_and] at hn
    by_cases hae : a = e
    · subst hae
      rw [List.erase_cons_head]
      simp only [List.map_cons, ne_eq, not_true_eq_false, decide_False, Bool.false_eq_true,
        not_false_eq_true, List.filter_cons_of_neg]
      symm
      rw [List.filter_eq_self]
      intro x hx
      rcases List.mem_map.1 hx with ⟨y, hy, rfl⟩
      simpa using fun hh => hn.1 y hy hh
    · have het : e ∈ t := by
        rcases List.mem_cons.1 he with h1 | h1
        · exact absurd h1.symm hae
        · exact h1
      rw [List.erase_cons_tail (by simpa using hae)]
      have hk : g (h a) ≠ g (h e) := fun hh => hn.1 e het hh.symm
      simp only [List.map_cons, ne_eq, hk, not_false_eq_true, decide_True, List.filter_cons_of_pos]
      rw [ih hn.2 het]

/-! ## The recency list: list and index stay linked -/

namespace BASELRU

variable {V : Type}

theorem alloc_not_mem (c : BASELRU V) : c.alloc ∉ c.evictList := by
  intro h
  have := le_foldr_max (c.evictList ++ c.items.entries.map (fun s => s.2)) _
    (List.mem_append_left _ h)
  unfold alloc at this h
  omega

theorem alloc_not_bound (c : BASELRU V) (k : String) : c.items.lookup k ≠ some c.alloc := by
  intro h
  have hm : (⟨k, c.alloc⟩ : Sigma (fun _ : String => Nat)) ∈ c.items.entries :=
    AList.mem_lookup_iff.1 h
  have hm2 : c.alloc ∈ c.items.entries.map (fun s => s.2) :=
    List.mem_map.2 ⟨_, hm, rfl⟩
  have := le_foldr_max (c.evictList ++ c.items.entries.map (fun s => s.2)) _
    (List.mem_append_right _ hm2)
  unfold alloc at this
  omega

theorem Linked.nodup_ptr {c : BASELRU V} (hl : c.Linked) : c.evictList.Nodup := by
  have h := hl.keys_nodup
  unfold keyList entries at h
  rw [List.map_map] at h
  exact List.Nodup.of_map _ h

theorem Linked.lookup_eq_none {c : BASELRU V} (hl : c.Linked) (k : String) :
    c.items.lookup k = none ↔ k ∉ c.keyList := by
  unfold keyList entries
  rw [List.map_map]
  constructor
  · intro h hk
    rcases List.mem_map.1 hk with ⟨e, he, hke⟩
    have := (hl.index k e).2 ⟨he, hke⟩
    rw [h] at this
    cases this
  · intro h
    cases hlk : c.items.lookup k with
    | none => rfl
    | some e =>
      exfalso
      have := (hl.index k e).1 hlk
      exact h (List.mem_map.2 ⟨e, this.1, this.2⟩)

theorem Linked.ptr_inj {c : BASELRU V} (hl : c.Linked) {e₁ e₂ : Nat}
    (h₁ : e₁ ∈ c.evictList) (h₂ : e₂ ∈ c.evictList)
    (hk : (c.heap e₁).key = (c.heap e₂).key) : e₁ = e₂ := by
  have a := (hl.index (c.heap e₂).key e₁).2 ⟨h₁, hk⟩
  have b := (hl.index (c.heap e₂).key e₂).2 ⟨h₂, rfl⟩
  rw [a] at b
  exact Option.some.inj b

/-- Entries after `removeElement` on an element of the list. -/
theorem entries_removeElement {c : BASELRU V} (hl : c.Linked) {e : Nat}
    (he : e ∈ c.evictList) :
    (c.removeElement e).entries =
      c.entries.filter (fun x => decide (x.key ≠ (c.heap e).key)) := by
  have h := hl.keys_nodup
  unfold keyList entries at h
  rw [List.map_map] at h
  exact map_erase_eq_filter c.heap (fun x => x.key) c.evictList e h he

theorem linked_removeElement {c : BASELRU V} (hl : c.Linked) {e : Nat}
    (he : e ∈ c.evictList) : (c.removeElement e).Linked := by
  constructor
  · unfold keyList
    rw [entries_removeElement hl he]
    exact (hl.keys_nodup).sublist (List.Sublist.map _ (List.filter_sublist _))
  · intro k e'
    show (c.items.erase (c.heap e).key).lookup k = some e' ↔
      e' ∈ c.evictList.erase e ∧ (c.heap e').key = k
    rw [hl.nodup_ptr.mem_erase_iff]
    by_cases hk : k = (c.heap e).key
    · subst hk
      rw [AList.lookup_erase]
      constructor
      · intro h; cases h
      · rintro ⟨⟨hne, hm⟩, hkk⟩
        exact absurd (hl.ptr_inj hm he hkk) hne
    · rw [AList.lookup_erase_ne hk, hl.index]
      constructor
      · rintro ⟨hm, hkk⟩
        refine ⟨⟨?_, hm⟩, hkk⟩
        rintro rfl
        exact hk hkk.symm
      · rintro ⟨⟨_, hm⟩, hkk⟩
        exact ⟨hm, hkk⟩

theorem AddWithTimeout_absent (c : BASELRU V) (key : String) (value : V) (timeout : Int)
    (h : c.items.lookup key = none) :
    c.AddWithTimeout key value timeout =
      if (c.Len : Int) + 1 > c.size then ((c.pushed key value timeout).removeOldest, true)
      else (c.pushed key value timeout, false) := by
  unfold AddWithTimeout
  rw [h]
  simp only [pushed, Len, List.length_cons, Nat.cast_add, Nat.cast_one]
  by_cases hh : (c.evictList.length : Int) + 1 > c.size
  · simp [hh]
  · simp [hh]

theorem AddWithTimeout_present (c : BASELRU V) (key : String) (value : V) (timeout : Int)
    (e : Nat) (h : c.items.lookup key = some e) :
    c.AddWithTimeout key value timeout =
      ({ c with
         evictList := moveToFront c.evictList e
         heap := Function.update c.heap e { c.heap e with value := value } }, false) := by
  unfold AddWithTimeout
  rw [h]

theorem map_update_of_not_mem (h : Nat → entry V) (e : Nat) (x : entry V) (l : List Nat)
    (he : e ∉ l) : l.map (Function.update h e x) = l.map h := by
  apply List.map_congr_left
  intro a ha
  rw [Function.update_noteq]
  rintro rfl
  exact he ha

theorem entries_pushed (c : BASELRU V) (key : String) (value : V) (timeout : Int) :
    (c.pushed key value timeout).entries = ⟨key, value, timeout⟩ :: c.entries := by
  unfold entries pushed
  simp only [List.map_cons, Function.update_same]
  rw [map_update_of_not_mem _ _ _ _ c.alloc_not_mem]

theorem linked_pushed {c : BASELRU V} (hl : c.Linked) (key : String) (value : V)
    (timeout : Int) (h : c.items.lookup key = none) :
    (c.pushed key value timeout).Linked := by
  constructor
  · unfold keyList
    rw [entries_pushed]
    simp only [List.map_cons, List.nodup_cons]
    exact ⟨(hl.lookup_eq_none key).1 h, hl.keys_nodup⟩
  · intro k e
    show (c.items.insert key c.alloc).lookup k = some e ↔
      e ∈ c.alloc :: c.evictList ∧ (Function.update c.heap c.alloc ⟨key, value, timeout⟩ e).key = k
    by_cases he : e = c.alloc
    · subst he
      simp only [List.mem_cons, true_or, Function.update_same, true_and]
      by_cases hk : k = key
      · subst hk
        simp [AList.lookup_insert]
      · rw [AList.lookup_insert_ne hk]
        constructor
        · intro h'
          exact absurd h' (c.alloc_not_bound k)
        · intro h'
          exact absurd h'.symm hk
    · rw [Function.update_noteq he]
      simp only [List.mem_cons, he, false_or]
      by_cases hk : k = key
      · subst hk
        rw [AList.lookup_insert]
        constructor
        · intro h'
          exact absurd (Option.some.inj h').symm he
        · intro h'
          have := (hl.index k e).2 h'
          rw [h] at this
          cases this
      · rw [AList.lookup_insert_ne hk]
        exact hl.index k e

theorem removeOldest_eq (c : BASELRU V) (e : Nat) (h : c.evictList.getLast? = some e) :
    c.removeOldest = c.removeElement e := by
  unfold removeOldest
  rw [h]

theorem linked_removeOldest {c : BASELRU V} (hl : c.Linked) : c.removeOldest.Linked := by
  unfold removeOldest
  cases h : c.evictList.getLast? with
  | none => exact hl
  | some e => exact linked_removeElement hl (List.mem_of_getLast?_eq_some h)

theorem evictList_removeOldest {c : BASELRU V} (hl : c.Linked) :
    c.removeOldest.evictList = c.evictList.dropLast := by
  unfold removeOldest
  cases h : c.evictList.getLast? with
  | none =>
    rw [List.getLast?_eq_none_iff] at h
    simp [h]
  | some e =>
    exact erase_getLast_eq_dropLast _ _ hl.nodup_ptr h

theorem heap_removeOldest (c : BASELRU V) : c.removeOldest.heap = c.heap := by
  unfold removeOldest
  cases h : c.evictList.getLast? <;> rfl

theorem size_removeOldest (c : BASELRU V) : c.removeOldest.size = c.size := by
  unfold removeOldest
  cases h : c.evictList.getLast? <;> rfl

theorem entries_removeOldest {c : BASELRU V} (hl : c.Linked) :
    c.removeOldest.entries = c.entries.dropLast := by
  unfold entries
  rw [evictList_removeOldest hl, heap_removeOldest, List.map_dropLast]

theorem Linked.of_perm {c c' : BASELRU V} (hl : c.Linked) (hi : c'.items = c.items)
    (hp : c'.evictList.Perm c.evictList) (hk : ∀ e, (c'.heap e).key = (c.heap e).key) :
    c'.Linked := by
  constructor
  · have h := hl.keys_nodup
    unfold keyList entries at h ⊢
    rw [List.map_map] at h ⊢
    have hfun : ((fun x : entry V => x.key) ∘ c'.heap) = ((fun x : entry V => x.key) ∘ c.heap) := by
      funext e
      exact hk e
    rw [hfun]
    exact ((hp.map _).nodup_iff).2 h
  · intro k e
    rw [hi, hk, hp.mem_iff]
    exact hl.index k e

theorem moveToFront_perm (l : List Nat) (e : Nat) : (moveToFront l e).Perm l := by
  unfold moveToFront
  split
  · rename_i h
    exact (List.perm_cons_erase h).symm
  · exact List.Perm.refl _

theorem moveToFront_of_mem {l : List Nat} {e : Nat} (h : e ∈ l) :
    moveToFront l e = e :: l.erase e := by
  unfold moveToFront
  rw [if_pos h]

theorem length_moveToFront (l : List Nat) (e : Nat) : (moveToFront l e).length = l.length :=
  (moveToFront_perm l e).length_eq

/-- Entries after moving an element of the list to the front and storing a new
entry with the same key in it. -/
theorem entries_moveToFront_update {c : BASELRU V} (hl : c.Linked) {e : Nat}
    (he : e ∈ c.evictList) (x : entry V) :
    (moveToFront c.evictList e).map (Function.update c.heap e x) =
      x :: c.entries.filter (fun y => decide (y.key ≠ (c.heap e).key)) := by
  rw [moveToFront_of_mem he]
  simp only [List.map_cons, Function.update_same]
  have hne : e ∉ c.evictList.erase e := fun h => (hl.nodup_ptr.mem_erase_iff.1 h).1 rfl
  rw [map_update_of_not_mem _ _ _ _ hne]
  have h := hl.keys_nodup
  unfold keyList entries at h
  rw [List.map_map] at h
  rw [map_erase_eq_filter c.heap (fun x => x.key) c.evictList e h he]
  rfl

theorem Get_absent (c : BASELRU V) [Inhabited V] (key : String) (now : Int)
    (h : c.items.lookup key = none) : c.Get key now = (c, (default, false)) := by
  unfold Get
  rw [h]

theorem Get_present (c : BASELRU V) [Inhabited V] (key : String) (now : Int) (e : Nat)
    (h : c.items.lookup key = some e) :
    c.Get key now =
      if (c.heap e).Expiration > 0 ∧ now > (c.heap e).Expiration then (c, (default, false))
      else ({ c with evictList := moveToFront c.evictList e }, ((c.heap e).value, true)) := by
  unfold Get
  rw [h]

theorem linked_Get [Inhabited V] {c : BASELRU V} (hl : c.Linked) (key : String) (now : Int) :
    (c.Get key now).1.Linked := by
  cases h : c.items.lookup key with
  | none => rw [Get_absent c key now h]; exact hl
  | some e =>
    rw [Get_present c key now e h]
    split
    · exact hl
    · exact hl.of_perm rfl (moveToFront_perm _ _) (fun _ => rfl)

theorem len_Get [Inhabited V] (c : BASELRU V) (key : String) (now : Int) :
    (c.Get key now).1.Len = c.Len := by
  cases h : c.items.lookup key with
  | none => rw [Get_absent c key now h]
  | some e =>
    rw [Get_present c key now e h]
    split
    · rfl
    · exact length_moveToFront _ _

theorem size_Get [Inhabited V] (c : BASELRU V) (key : String) (now : Int) :
    (c.Get key now).1.size = c.size := by
  cases h : c.items.lookup key with
  | none => rw [Get_absent c key now h]
  | some e =>
    rw [Get_present c key now e h]
    split <;> rfl

theorem wellFormed_Get [Inhabited V] {c : BASELRU V} (hw : c.WellFormed) (key : String)
    (now : Int) : (c.Get key now).1.WellFormed :=
  { toLinked := linked_Get hw.toLinked key now
    len_le := by rw [len_Get, size_Get]; exact hw.len_le }

theorem wellFormed_AddWithTimeout {c : BASELRU V} (hw : c.WellFormed) (key : String)
    (value : V) (timeout : Int) : (c.AddWithTimeout key value timeout).1.WellFormed := by
  cases h : c.items.lookup key with
  | some e =>
    rw [AddWithTimeout_present c key value timeout e h]
    refine { toLinked := hw.toLinked.of_perm rfl (moveToFront_perm _ _) ?_, len_le := ?_ }
    · intro e'
      show (Function.update c.heap e { c.heap e with value := value } e').key = (c.heap e').key
      by_cases he : e' = e
      · subst he; rw [Function.update_same]
      · rw [Function.update_noteq he]
    · show ((moveToFront c.evictList e).length : Int) ≤ c.size
      rw [length_moveToFront]
      exact hw.len_le
  | none =>
    rw [AddWithTimeout_absent c key value timeout h]
    have hp := linked_pushed hw.toLinked key value timeout h
    split
    · refine { toLinked := linked_removeOldest hp, len_le := ?_ }
      show ((c.pushed key value timeout).removeOldest.evictList.length : Int) ≤ _
      rw [evictList_removeOldest hp, size_removeOldest]
      have := hw.len_le
      simp only [pushed, List.dropLast_cons_of_ne_nil, List.length_dropLast, List.length_cons,
        Nat.add_sub_cancel]
      exact this
    · rename_i hgt
      refine { toLinked := hp, len_le := ?_ }
      show (((c.alloc :: c.evictList).length : Nat) : Int) ≤ c.size
      simp only [List.length_cons, Nat.cast_add, Nat.cast_one]
      unfold Len at hgt
      omega

theorem wellFormed_removeElement {c : BASELRU V} (hw : c.WellFormed) {e : Nat}
    (he : e ∈ c.evictList) : (c.removeElement e).WellFormed :=
  { toLinked := linked_removeElement hw.toLinked he
    len_le := by
      have := hw.len_le
      show ((c.evictList.erase e).length : Int) ≤ c.size
      rw [List.length_erase_of_mem he]
      unfold Len at this
      omega }

theorem wellFormed_Remove {c : BASELRU V} (hw : c.WellFormed) (key : String) :
    (c.Remove key).1.WellFormed := by
  unfold Remove
  cases h : c.items.lookup key with
  | none => exact hw
  | some e => exact wellFormed_removeElement hw ((hw.index key e).1 h).1

theorem wellFormed_RemoveOldest [Inhabited V] {c : BASELRU V} (hw : c.WellFormed) :
    c.RemoveOldest.1.WellFormed := by
  unfold RemoveOldest
  cases h : c.evictList.getLast? with
  | none => exact hw
  | some e => exact wellFormed_removeElement hw (List.mem_of_getLast?_eq_some h)

theorem wellFormed_Purge {c : BASELRU V} (hs : 0 ≤ c.size) : c.Purge.WellFormed := by
  refine { keys_nodup := List.nodup_nil, index := ?_, len_le := ?_ }
  · intro k e
    show (∅ : Index).lookup k = some e ↔ e ∈ ([] : List Nat) ∧ _
    simp
  · show ((([] : List Nat).length : Nat) : Int) ≤ c.size
    simpa using hs

theorem wellFormed_step [Inhabited V] {c : BASELRU V} (hw : c.WellFormed) (now : Int)
    (op : Op V) : (c.step now op).WellFormed := by
  cases op with
  | Add key value => exact wellFormed_AddWithTimeout hw _ _ _
  | AddWithExpire key value d => exact wellFormed_AddWithTimeout hw _ _ _
  | AddWithTimeout key value timeout => exact wellFormed_AddWithTimeout hw _ _ _
  | Get key => exact wellFormed_Get hw _ _
  | Peek key => exact hw
  | PeekWithExpire key => exact hw
  | Contains key => exact hw
  | Remove key => exact wellFormed_Remove hw _
  | RemoveOldest => exact wellFormed_RemoveOldest hw
  | GetOldest => exact hw
  | Keys => exact hw
  | Len => exact hw
  | Purge =>
    apply wellFormed_Purge
    have := hw.len_le
    have h2 : (0 : Int) ≤ (c.Len : Int) := Int.natCast_nonneg _
    omega

theorem wellFormed_run [Inhabited V] {c : BASELRU V} (hw : c.WellFormed)
    (ops : List (Int × Op V)) : (c.run ops).WellFormed := by
  induction ops generalizing c with
  | nil => exact hw
  | cons a rest ih =>
    obtain ⟨now, op⟩ := a
    exact ih (wellFormed_step hw now op)

theorem wellFormed_fresh [Inhabited V] (size : Int) (onEvict : Bool) (d : Int)
    (hs : 0 ≤ size) : (fresh size onEvict d : BASELRU V).WellFormed := by
  refine { keys_nodup := List.nodup_nil, index := ?_, len_le := ?_ }
  · intro k e
    show (∅ : Index).lookup k = some e ↔ e ∈ ([] : List Nat) ∧ _
    simp
  · show ((([] : List Nat).length : Nat) : Int) ≤ size
    simpa using hs

theorem NewBaseLRU_of_pos [Inhabited V] (size : Int) (onEvict : Bool) (d : Int)
    (hs : 0 < size) :
    (NewBaseLRU size onEvict d : Except String (BASELRU V)) = .ok (fresh size onEvict d) := by
  unfold NewBaseLRU
  rw [if_neg (by omega)]

theorem size_AddWithTimeout (c : BASELRU V) (key : String) (value : V) (timeout : Int) :
    (c.AddWithTimeout key value timeout).1.size = c.size := by
  cases h : c.items.lookup key with
  | some e => rw [AddWithTimeout_present c key value timeout e h]
  | none =>
    rw [AddWithTimeout_absent c key value timeout h]
    split
    · exact size_removeOldest _
    · rfl

theorem size_step [Inhabited V] (c : BASELRU V) (now : Int) (op : Op V) :
    (c.step now op).size = c.size := by
  cases op with
  | Add key value => exact size_AddWithTimeout _ _ _ _
  | AddWithExpire key value d => exact size_AddWithTimeout _ _ _ _
  | AddWithTimeout key value timeout => exact size_AddWithTimeout _ _ _ _
  | Get key => exact size_Get _ _ _
  | Remove key =>
    show (c.Remove key).1.size = c.size
    unfold Remove
    cases c.items.lookup key <;> rfl
  | RemoveOldest =>
    show c.RemoveOldest.1.size = c.size
    unfold RemoveOldest
    cases c.evictList.getLast? <;> rfl
  | _ => rfl

theorem size_run [Inhabited V] (c : BASELRU V) (ops : List (Int × Op V)) :
    (c.run ops).size = c.size := by
  induction ops generalizing c with
  | nil => rfl
  | cons a rest ih =>
    obtain ⟨now, op⟩ := a
    exact (ih _).trans (size_step c now op)

/-- C1: every cache returned by `NewBaseLRU` with `size > 0` stays well-formed
under every finite sequence of public operations at arbitrary clock readings:
no key occurs twice in the eviction list, the index binds exactly the keys of
the list entries, each to its own element, and `Len() ≤ size`. -/
theorem wellFormed_invariant [Inhabited V] (size : Int) (onEvict : Bool) (d : Int)
    (hsize : 0 < size) :
    ∃ c : BASELRU V, NewBaseLRU size onEvict d = .ok c ∧
      ∀ ops : List (Int × Op V),
        (c.run ops).keyList.Nodup ∧
        (∀ k e, (c.run ops).items.lookup k = some e ↔
          e ∈ (c.run ops).evictList ∧ ((c.run ops).heap e).key = k) ∧
        ((c.run ops).Len : Int) ≤ size := by
  refine ⟨fresh size onEvict d, NewBaseLRU_of_pos size onEvict d hsize, ?_⟩
  intro ops
  have hw := wellFormed_run (wellFormed_fresh (V := V) size onEvict d (le_of_lt hsize)) ops
  refine ⟨hw.keys_nodup, hw.index, ?_⟩
  have := hw.len_le
  rw [size_run] at this
  exact this

theorem wellFormed_invariant_witness :
    ∃ c : BASELRU Nat, NewBaseLRU 2 false NoExpiration = .ok c ∧
      ∀ ops : List (Int × Op Nat),
        (c.run ops).keyList.Nodup ∧
        (∀ k e, (c.run ops).items.lookup k = some e ↔
          e ∈ (c.run ops).evictList ∧ ((c.run ops).heap e).key = k) ∧
        ((c.run ops).Len : Int) ≤ 2 :=
  wellFormed_invariant 2 false NoExpiration (by decide)

theorem wellFormed_sample : sample.WellFormed :=
  wellFormed_run (wellFormed_fresh 2 false NoExpiration (by decide)) _

theorem flag_AddWithTimeout_absent {c : BASELRU V} (hw : c.WellFormed) (key : String)
    (value : V) (ts : Int) (habs : c.items.lookup key = none) :
    (c.AddWithTimeout key value ts).2 = decide ((c.Len : Int) = c.size) := by
  rw [AddWithTimeout_absent c key value ts habs]
  have := hw.len_le
  by_cases h : (c.Len : Int) = c.size
  · rw [if_pos (by omega)]; simp [h]
  · rw [if_neg (by omega)]; simp [h]

theorem entries_AddWithTimeout_absent {c : BASELRU V} (hw : c.WellFormed) (hpos : 0 < c.size)
    (key : String) (value : V) (ts : Int) (habs : c.items.lookup key = none) :
    (c.AddWithTimeout key value ts).1.entries =
      ⟨key, value, ts⟩ ::
        (if (c.Len : Int) = c.size then c.entries.dropLast else c.entries) := by
  rw [AddWithTimeout_absent c key value ts habs]
  have := hw.len_le
  have hp := linked_pushed hw.toLinked key value ts habs
  by_cases h : (c.Len : Int) = c.size
  · rw [if_pos (by omega), if_pos h]
    show (c.pushed key value ts).removeOldest.entries = _
    rw [entries_removeOldest hp, entries_pushed]
    have hne : c.entries ≠ [] := by
      intro h0
      have : c.Len = 0 := by
        unfold Len
        unfold entries at h0
        simpa using h0
      rw [this] at h
      simp at h
      omega
    rw [List.dropLast_cons_of_ne_nil hne]
  · rw [if_neg (by omega), if_neg h]
    exact entries_pushed c key value ts

/-- C2: `AddWithTimeout` on a key that is not in the index of a well-formed
cache puts the entry `(key, value, ts)` at the front; it returns `true` exactly
when `Len()` equalled `size` before the call, and then exactly the back entry
is dropped; otherwise nothing is dropped. The remaining entries keep their
values, expirations and order, and the result is well-formed. -/
theorem AddWithTimeout_absent_spec (c : BASELRU V) (key : String) (value : V) (ts : Int)
    (hw : c.WellFormed) (hpos : 0 < c.size) (habs : c.items.lookup key = none) :
    ((c.AddWithTimeout key value ts).2 = true ↔ (c.Len : Int) = c.size) ∧
    (c.AddWithTimeout key value ts).1.entries =
      ⟨key, value, ts⟩ :: (if (c.Len : Int) = c.size then c.entries.dropLast else c.entries) ∧
    (c.AddWithTimeout key value ts).1.WellFormed := by
  refine ⟨?_, entries_AddWithTimeout_absent hw hpos key value ts habs,
    wellFormed_AddWithTimeout hw key value ts⟩
  rw [flag_AddWithTimeout_absent hw key value ts habs]
  exact decide_eq_true_iff

theorem AddWithTimeout_absent_spec_witness :
    ((sample.AddWithTimeout "c" 3 0).2 = true ↔ (sample.Len : Int) = sample.size) ∧
    (sample.AddWithTimeout "c" 3 0).1.entries =
      ⟨"c", 3, 0⟩ ::
        (if (sample.Len : Int) = sample.size then sample.entries.dropLast else sample.entries) ∧
    (sample.AddWithTimeout "c" 3 0).1.WellFormed :=
  AddWithTimeout_absent_spec sample "c" 3 0 wellFormed_sample (by decide) (by decide)

theorem Linked.mem_entries {c : BASELRU V} (hl : c.Linked) {k : String} {e : Nat}
    (h : c.items.lookup k = some e) : c.heap e ∈ c.entries ∧ (c.heap e).key = k := by
  have := (hl.index k e).1 h
  exact ⟨List.mem_map.2 ⟨e, this.1, rfl⟩, this.2⟩

theorem Linked.lookup_of_mem {c : BASELRU V} (hl : c.Linked) {x : entry V}
    (h : x ∈ c.entries) : ∃ e, c.items.lookup x.key = some e ∧ c.heap e = x := by
  rcases List.mem_map.1 h with ⟨e, he, rfl⟩
  exact ⟨e, (hl.index _ e).2 ⟨he, rfl⟩, rfl⟩

theorem entries_AddWithTimeout_present {c : BASELRU V} (hw : c.WellFormed) (key : String)
    (value : V) (ts : Int) (e : Nat) (hpres : c.items.lookup key = some e) :
    (c.AddWithTimeout key value ts).1.entries =
      ⟨key, value, (c.heap e).Expiration⟩ ::
        c.entries.filter (fun y => decide (y.key ≠ key)) := by
  have hk : (c.heap e).key = key := ((hw.index key e).1 hpres).2
  have he : e ∈ c.evictList := ((hw.index key e).1 hpres).1
  rw [AddWithTimeout_present c key value ts e hpres]
  show (moveToFront c.evictList e).map
    (Function.update c.heap e { c.heap e with value := value }) = _
  rw [entries_moveToFront_update hw.toLinked he, hk]
  simp only [hk]

/-- C9: `AddWithTimeout` on a key that is in the index of a well-formed cache
stores the new value, keeps the entry's prior expiration (`ts` is ignored),
moves the entry to the front, returns `false`, leaves `Len()` unchanged and
evicts nothing (no callback runs, every other entry stays, in order). -/
theorem AddWithTimeout_present_spec (c : BASELRU V) (key : String) (value : V) (ts : Int)
    (e : Nat) (hw : c.WellFormed) (hpres : c.items.lookup key = some e) :
    (c.AddWithTimeout key value ts).2 = false ∧
    (c.AddWithTimeout key value ts).1.entries =
      ⟨key, value, (c.heap e).Expiration⟩ ::
        c.entries.filter (fun y => decide (y.key ≠ key)) ∧
    (c.AddWithTimeout key value ts).1.items = c.items ∧
    (c.AddWithTimeout key value ts).1.Len = c.Len ∧
    (c.AddWithTimeout key value ts).1.fired = c.fired := by
  refine ⟨?_, entries_AddWithTimeout_present hw key value ts e hpres, ?_, ?_, ?_⟩
  all_goals rw [AddWithTimeout_present c key value ts e hpres]
  exact length_moveToFront _ _

theorem AddWithTimeout_present_spec_witness :
    (sample.AddWithTimeout "a" 7 99).2 = false ∧
    (sample.AddWithTimeout "a" 7 99).1.entries =
      ⟨"a", 7, (sample.heap 1).Expiration⟩ ::
        sample.entries.filter (fun y => decide (y.key ≠ "a")) ∧
    (sample.AddWithTimeout "a" 7 99).1.items = sample.items ∧
    (sample.AddWithTimeout "a" 7 99).1.Len = sample.Len ∧
    (sample.AddWithTimeout "a" 7 99).1.fired = sample.fired :=
  AddWithTimeout_present_spec sample "a" 7 99 1 wellFormed_sample (by decide)

/-- C3: on a well-formed cache, when `Get` reports found the value returned is
the one stored for the key and the new order is the old one with the key's
entry moved to the front (other entries, the index, the capacity and the
callback record are untouched); when it reports not found the result is
`(nil, false)`, the state is unchanged, and the key is absent or its entry is
expired. -/
theorem Get_spec [Inhabited V] (c : BASELRU V) (key : String) (now : Int)
    (hw : c.WellFormed) :
    ((c.Get key now).2.2 = true →
      ∃ x ∈ c.entries, x.key = key ∧ (c.Get key now).2.1 = x.value ∧
        (c.Get key now).1.entries = x :: c.entries.filter (fun y => decide (y.key ≠ key)) ∧
        (c.Get key now).1.items = c.items ∧ (c.Get key now).1.heap = c.heap ∧
        (c.Get key now).1.fired = c.fired ∧ (c.Get key now).1.size = c.size) ∧
    ((c.Get key now).2.2 = false →
      c.Get key now = (c, (default, false)) ∧
        (key ∉ c.keyList ∨ ∃ x ∈ c.entries, x.key = key ∧ x.Expired now = true)) := by
  cases h : c.items.lookup key with
  | none =>
    rw [Get_absent c key now h]
    refine ⟨fun hh => (by cases hh), fun _ => ⟨rfl, Or.inl ((hw.lookup_eq_none key).1 h)⟩⟩
  | some e =>
    have hk : (c.heap e).key = key := ((hw.index key e).1 h).2
    have he : e ∈ c.evictList := ((hw.index key e).1 h).1
    rw [Get_present c key now e h]
    by_cases hexp : (c.heap e).Expiration > 0 ∧ now > (c.heap e).Expiration
    · rw [if_pos hexp]
      refine ⟨fun hh => (by cases hh), fun _ => ⟨rfl, Or.inr ⟨c.heap e, (hw.mem_entries h).1, hk, ?_⟩⟩⟩
      unfold entry.Expired
      rw [if_neg (by omega)]
      simpa using hexp.2
    · rw [if_neg hexp]
      refine ⟨fun _ => ⟨c.heap e, (hw.mem_entries h).1, hk, rfl, ?_, rfl, rfl, rfl, rfl⟩,
        fun hh => (by cases hh)⟩
      show (moveToFront c.evictList e).map c.heap = _
      have := entries_moveToFront_update hw.toLinked he (c.heap e)
      rw [Function.update_eq_self] at this
      rw [this, hk]

theorem Get_spec_witness :
    ((sample.Get "a" 5).2.2 = true →
      ∃ x ∈ sample.entries, x.key = "a" ∧ (sample.Get "a" 5).2.1 = x.value ∧
        (sample.Get "a" 5).1.entries =
          x :: sample.entries.filter (fun y => decide (y.key ≠ "a")) ∧
        (sample.Get "a" 5).1.items = sample.items ∧ (sample.Get "a" 5).1.heap = sample.heap ∧
        (sample.Get "a" 5).1.fired = sample.fired ∧ (sample.Get "a" 5).1.size = sample.size) ∧
    ((sample.Get "a" 5).2.2 = false →
      sample.Get "a" 5 = (sample, (default, false)) ∧
        ("a" ∉ sample.keyList ∨ ∃ x ∈ sample.entries, x.key = "a" ∧ x.Expired 5 = true)) :=
  Get_spec sample "a" 5 wellFormed_sample

theorem run_append [Inhabited V] (c : BASELRU V) (l₁ l₂ : List (Int × Op V)) :
    c.run (l₁ ++ l₂) = (c.run l₁).run l₂ := by
  induction l₁ generalizing c with
  | nil => rfl
  | cons a t ih =>
    obtain ⟨now, op⟩ := a
    exact ih _

theorem Add_eq (c : BASELRU V) (key : String) (value : V) (now : Int) :
    c.Add key value now = c.AddWithTimeout key value 0 := by
  simp [Add, AddWithExpire, NoExpiration, DefaultExpiration]

theorem Linked.length_items {c : BASELRU V} (hl : c.Linked) :
    c.items.entries.length = c.evictList.length := by
  have hp : c.items.keys.Perm c.keyList := by
    rw [List.perm_ext_iff_of_nodup c.items.keys_nodup hl.keys_nodup]
    intro k
    rw [← AList.mem_keys, ← not_iff_not, ← AList.lookup_eq_none, hl.lookup_eq_none]
  have h := hp.length_eq
  unfold AList.keys List.keys keyList entries at h
  simpa using h

theorem Linked.Keys_eq {c : BASELRU V} (hl : c.Linked) : c.Keys = some c.keyList.reverse := by
  unfold Keys
  simp only [List.length_map, List.length_reverse, hl.length_items, le_refl, if_true,
    Nat.sub_self, List.replicate_zero, List.append_nil]
  unfold keyList entries
  simp [List.map_reverse]

/-- State reached from a fresh cache of capacity `cap` by adding pairs with
distinct keys: well-formed, and the list holds the last `cap` pairs, newest
first, with no deadline. -/
theorem run_addOps [Inhabited V] (cap : Nat) (onEvict : Bool) (d : Int)
    (adds : List (Int × String × V)) (hcap : 1 ≤ cap)
    (hkeys : (adds.map (fun a => a.2.1)).Nodup) :
    ((fresh cap onEvict d : BASELRU V).run (addOps adds)).WellFormed ∧
    ((fresh cap onEvict d : BASELRU V).run (addOps adds)).entries =
      (adds.reverse.take cap).map addedEntry := by
  induction adds using List.reverseRecOn with
  | nil =>
    exact ⟨wellFormed_fresh _ _ _ (Int.natCast_nonneg _), by simp [addOps, run, entries, fresh]⟩
  | append_singleton adds a ih =>
    rw [List.map_append, List.nodup_append] at hkeys
    obtain ⟨ihw, ihe⟩ := ih hkeys.1
    have hrun : (fresh cap onEvict d : BASELRU V).run (addOps (adds ++ [a])) =
        (((fresh cap onEvict d : BASELRU V).run (addOps adds)).AddWithTimeout a.2.1 a.2.2 0).1 := by
      unfold addOps
      rw [List.map_append, run_append]
      simp only [List.map_cons, List.map_nil, run, step, Add_eq]
    rw [hrun]
    have hsize : ((fresh cap onEvict d : BASELRU V).run (addOps adds)).size = (cap : Int) :=
      size_run _ _
    generalize (fresh cap onEvict d : BASELRU V).run (addOps adds) = c at ihw ihe hsize
    have habs : c.items.lookup a.2.1 = none := by
      rw [ihw.lookup_eq_none]
      unfold keyList
      rw [ihe]
      intro hmem
      rcases List.mem_map.1 hmem with ⟨x, hx, hxk⟩
      rcases List.mem_map.1 hx with ⟨b, hb, rfl⟩
      have hb' : b ∈ adds := List.mem_reverse.1 (List.mem_of_mem_take hb)
      have h1 : b.2.1 ∈ adds.map (fun a => a.2.1) := List.mem_map.2 ⟨b, hb', rfl⟩
      have h2 : b.2.1 ∈ [a].map (fun a => a.2.1) := by
        have : b.2.1 = a.2.1 := hxk
        simp [this]
      exact hkeys.2.2 h1 h2
    refine ⟨wellFormed_AddWithTimeout ihw _ _ _, ?_⟩
    rw [entries_AddWithTimeout_absent ihw (by omega) a.2.1 a.2.2 0 habs, List.reverse_append, List.reverse_singleton, List.singleton_append,
      List.take_cons (by omega), List.map_cons]
    congr 1
    have hlen : c.Len = min cap adds.length := by
      have : c.Len = c.entries.length := by unfold Len entries; simp
      rw [this, ihe]
      simp
    rw [ihe, hsize, hlen]
    by_cases hfull : cap ≤ adds.length
    · have hl : (List.take cap adds.reverse).length = cap := by
        rw [List.length_take, List.length_reverse]
        exact Nat.min_eq_left hfull
      rw [if_pos (by rw [Nat.min_eq_left hfull]), ← List.map_dropLast, List.dropLast_eq_take,
        List.take_take, hl]
      congr 2
      omega
    · rw [if_neg (by
        rw [Nat.min_eq_right (by omega)]
        intro h
        have := Int.ofNat_inj.1 h
        omega)]
      rw [List.take_of_length_le (by simp; omega), List.take_of_length_le (by simp; omega)]

/-- C4: LRU replacement law. After adding `n` pairs with pairwise distinct keys
with `Add` to a fresh cache of capacity `cap ≥ 1`, `Keys()` is the last
`min n cap` keys in insertion order, `Len() = min n cap`, `Get` misses each of
the first `n - cap` keys (and changes nothing) and returns each remaining key
with the value it was added with. -/
theorem lru_replacement_law [Inhabited V] (cap : Nat) (onEvict : Bool) (d : Int)
    (adds : List (Int × String × V)) (hcap : 1 ≤ cap)
    (hkeys : (adds.map (fun a => a.2.1)).Nodup) :
    ∃ c : BASELRU V, NewBaseLRU (cap : Int) onEvict d = .ok c ∧
      (c.run (addOps adds)).Keys =
        some ((adds.map (fun a => a.2.1)).drop (adds.length - min adds.length cap)) ∧
      (c.run (addOps adds)).Len = min adds.length cap ∧
      (∀ a ∈ adds.take (adds.length - cap), ∀ now,
        (c.run (addOps adds)).Get a.2.1 now = (c.run (addOps adds), (default, false))) ∧
      (∀ a ∈ adds.drop (adds.length - cap), ∀ now,
        ((c.run (addOps adds)).Get a.2.1 now).2 = (a.2.2, true)) := by
  refine ⟨fresh cap onEvict d, NewBaseLRU_of_pos _ _ _ (by omega), ?_⟩
  obtain ⟨hw, he⟩ := run_addOps (V := V) cap onEvict d adds hcap hkeys
  generalize (fresh (cap : Int) onEvict d : BASELRU V).run (addOps adds) = c at hw he
  rw [List.take_reverse] at he
  have hkl : c.keyList = ((adds.drop (adds.length - cap)).map (fun a => a.2.1)).reverse := by
    unfold keyList
    rw [he, List.map_map, List.map_reverse]
    rfl
  refine ⟨?_, ?_, ?_, ?_⟩
  · rw [hw.Keys_eq, hkl, List.reverse_reverse, List.map_drop]
    congr 2
    omega
  · have : c.Len = c.entries.length := by unfold Len entries; simp
    rw [this, he]
    simp only [List.length_map, List.length_reverse, List.length_drop]
    omega
  · intro a ha now
    apply Get_absent
    rw [hw.lookup_eq_none, hkl, List.mem_reverse]
    intro hmem
    rw [← List.take_append_drop (adds.length - cap) adds, List.map_append,
      List.nodup_append] at hkeys
    exact hkeys.2.2 (List.mem_map.2 ⟨a, ha, rfl⟩) hmem
  · intro a ha now
    have hmem : addedEntry a ∈ c.entries := by
      rw [he]
      exact List.mem_map.2 ⟨a, List.mem_reverse.2 ha, rfl⟩
    obtain ⟨e, hlk, hheap⟩ := hw.lookup_of_mem hmem
    have hlk' : c.items.lookup a.2.1 = some e := hlk
    rw [Get_present c a.2.1 now e hlk', hheap]
    simp [addedEntry]

theorem lru_replacement_law_witness :
    ∃ c : BASELRU Nat, NewBaseLRU ((2 : Nat) : Int) false NoExpiration = .ok c ∧
      (c.run (addOps sampleAdds)).Keys =
        some ((sampleAdds.map (fun a => a.2.1)).drop
          (sampleAdds.length - min sampleAdds.length 2)) ∧
      (c.run (addOps sampleAdds)).Len = min sampleAdds.length 2 ∧
      (∀ a ∈ sampleAdds.take (sampleAdds.length - 2), ∀ now,
        (c.run (addOps sampleAdds)).Get a.2.1 now =
          (c.run (addOps sampleAdds), (default, false))) ∧
      (∀ a ∈ sampleAdds.drop (sampleAdds.length - 2), ∀ now,
        ((c.run (addOps sampleAdds)).Get a.2.1 now).2 = (a.2.2, true)) :=
  lru_replacement_law 2 false NoExpiration sampleAdds (by decide) (by decide)

theorem wrap64_of_range (x : Int) (h₁ : -2 ^ 63 ≤ x) (h₂ : x < 2 ^ 63) : wrap64 x = x := by
  unfold wrap64
  norm_num at h₁ h₂ ⊢
  omega

theorem AddWithExpire_eq (c : BASELRU V) (key : String) (value : V) (d now : Int) :
    c.AddWithExpire key value d now =
      c.AddWithTimeout key value
        (if c.effectiveDuration d > 0 then wrap64 (now + c.effectiveDuration d) else 0) := rfl

theorem PeekWithExpire_of_lookup [Inhabited V] (c : BASELRU V) (key : String) (e : Nat)
    (h : c.items.lookup key = some e) :
    c.PeekWithExpire key = ((c.heap e).value, true, (c.heap e).Expiration) := by
  unfold PeekWithExpire
  rw [h]

/-- C5: deadline set by `AddWithExpire` for a key that is not in the index of
a well-formed cache (capacity at least 1), at a clock reading `t0 ≥ 0`, when
`t0 + d*` does not overflow `int64`: the stored deadline is `0` if the
effective duration `d*` is `≤ 0` and `t0 + d*` otherwise. With nothing in
between, `Get` at clock `t` returns `(v, true)` if `d* ≤ 0` or `t ≤ t0 + d*`,
and `(nil, false)` if `d* > 0` and `t > t0 + d*`, in which case the state is
untouched: the entry is still in the list and `Len()` counts it. -/
theorem AddWithExpire_deadline [Inhabited V] (c : BASELRU V) (key : String) (value : V)
    (d t0 t : Int) (hw : c.WellFormed) (hpos : 0 < c.size)
    (habs : c.items.lookup key = none) (hclock : 0 ≤ t0)
    (hno : t0 + c.effectiveDuration d < 2 ^ 63) :
    (c.AddWithExpire key value d t0).1.PeekWithExpire key =
      (value, true, if c.effectiveDuration d ≤ 0 then 0 else t0 + c.effectiveDuration d) ∧
    (c.effectiveDuration d ≤ 0 ∨ t ≤ t0 + c.effectiveDuration d →
      ((c.AddWithExpire key value d t0).1.Get key t).2 = (value, true)) ∧
    (c.effectiveDuration d > 0 ∧ t > t0 + c.effectiveDuration d →
      (c.AddWithExpire key value d t0).1.Get key t =
        ((c.AddWithExpire key value d t0).1, (default, false)) ∧
      key ∈ (c.AddWithExpire key value d t0).1.keyList ∧
      0 < (c.AddWithExpire key value d t0).1.Len) := by
  rw [AddWithExpire_eq]
  generalize hds : c.effectiveDuration d = ds at hno ⊢
  have hts : (if ds > 0 then wrap64 (t0 + ds) else 0) = if ds ≤ 0 then 0 else t0 + ds := by
    by_cases h : ds ≤ 0
    · rw [if_neg (by omega), if_pos h]
    · rw [if_pos (by omega), if_neg h]
      exact wrap64_of_range _ (by norm_num; omega) hno
  rw [hts]
  generalize hte : (if ds ≤ 0 then 0 else t0 + ds) = ts
  have hwf := wellFormed_AddWithTimeout hw key value ts
  have hent := entries_AddWithTimeout_absent hw hpos key value ts habs
  generalize (c.AddWithTimeout key value ts).1 = c' at hwf hent
  have hmem : (⟨key, value, ts⟩ : entry V) ∈ c'.entries := by
    rw [hent]
    exact List.mem_cons_self _ _
  obtain ⟨e, hlk, hheap⟩ := hwf.lookup_of_mem hmem
  have hlk' : c'.items.lookup key = some e := hlk
  refine ⟨?_, ?_, ?_⟩
  · rw [PeekWithExpire_of_lookup c' key e hlk', hheap]
  · intro h
    rw [Get_present c' key t e hlk', hheap, if_neg]
    · show ¬ (ts > 0 ∧ t > ts)
      rw [← hte]
      split <;> omega
  · intro h
    rw [Get_present c' key t e hlk', hheap, if_pos]
    · refine ⟨rfl, ?_, ?_⟩
      · exact List.mem_map.2 ⟨_, hmem, rfl⟩
      · have : c'.Len = c'.entries.length := by unfold Len entries; simp
        rw [this, hent]
        simp
    · show ts > 0 ∧ t > ts
      rw [← hte, if_neg (by omega)]
      omega

theorem AddWithExpire_deadline_witness :
    (sample.AddWithExpire "c" 3 10 100).1.PeekWithExpire "c" =
      (3, true, if sample.effectiveDuration 10 ≤ 0 then 0
        else 100 + sample.effectiveDuration 10) ∧
    (sample.effectiveDuration 10 ≤ 0 ∨ 111 ≤ 100 + sample.effectiveDuration 10 →
      ((sample.AddWithExpire "c" 3 10 100).1.Get "c" 111).2 = (3, true)) ∧
    (sample.effectiveDuration 10 > 0 ∧ 111 > 100 + sample.effectiveDuration 10 →
      (sample.AddWithExpire "c" 3 10 100).1.Get "c" 111 =
        ((sample.AddWithExpire "c" 3 10 100).1, (default, false)) ∧
      "c" ∈ (sample.AddWithExpire "c" 3 10 100).1.keyList ∧
      0 < (sample.AddWithExpire "c" 3 10 100).1.Len) :=
  AddWithExpire_deadline sample "c" 3 10 100 111 wellFormed_sample (by decide) (by decide)
    (by decide) (by decide)

/-- C6 (failing input): an entry with a negative deadline is expired for
`entry.Expired` and for `Contains`, yet `Get` reports it found. The negative
deadline is stored by `AddWithTimeout("a", 1, -5)`, and also by
`AddWithExpire("a", 1, math.MaxInt64)` at clock reading `1`, whose deadline
wraps around to `-2^63`. -/
theorem Get_found_on_expired_entry :
    (negativeDeadline.PeekWithExpire "a" = (1, true, -5) ∧
      (negativeDeadline.heap 1).Expired 1 = true ∧
      negativeDeadline.Contains "a" 1 = false ∧
      (negativeDeadline.Get "a" 1).2 = (1, true)) ∧
    (overflowDeadline.PeekWithExpire "a" = (1, true, -2 ^ 63) ∧
      overflowDeadline.Contains "a" 2 = false ∧
      (overflowDeadline.Get "a" 2).2 = (1, true)) := by
  decide

/-- What `Get` tests: found exactly when the key is in the index and its entry
does not have a positive deadline that `now` has passed. -/
theorem Get_found_iff [Inhabited V] (c : BASELRU V) (key : String) (now : Int) :
    (c.Get key now).2.2 = true ↔
      ∃ e, c.items.lookup key = some e ∧
        ¬ ((c.heap e).Expiration > 0 ∧ now > (c.heap e).Expiration) := by
  cases h : c.items.lookup key with
  | none => rw [Get_absent c key now h]; simp
  | some e =>
    rw [Get_present c key now e h]
    by_cases hexp : (c.heap e).Expiration > 0 ∧ now > (c.heap e).Expiration
    · rw [if_pos hexp]
      constructor
      · intro h'; cases h'
      · rintro ⟨e', he', hne⟩
        cases he'
        exact absurd hexp hne
    · rw [if_neg hexp]
      exact ⟨fun _ => ⟨e, rfl, hexp⟩, fun _ => rfl⟩

/-- For an entry whose deadline is not negative, `Get` and `Contains` agree. -/
theorem Get_found_iff_Contains_of_nonneg [Inhabited V] (c : BASELRU V) (key : String)
    (now : Int) (h : ∀ e, c.items.lookup key = some e → 0 ≤ (c.heap e).Expiration) :
    (c.Get key now).2.2 = true ↔ c.Contains key now = true := by
  rw [Get_found_iff]
  unfold Contains entry.Expired
  cases hlk : c.items.lookup key with
  | none => simp
  | some e =>
    have h0 := h e hlk
    by_cases hz : (c.heap e).Expiration = 0
    · simp [hz]
    · have hp : 0 < (c.heap e).Expiration := by omega
      simp [hz, hp]

/-- C7: `Peek` ignores expiration, `Contains` honours it. In every state, for
every key and clock reading: either the key is not in the index, `Peek`
returns `(nil, false)` and `Contains` is false; or the index binds it to an
element, `Peek` returns that element's stored value with `true` whatever the
clock reading, and `Contains` is true exactly when the entry is not expired
(`Expiration = 0` or `now ≤ Expiration`). -/
theorem Peek_Contains_spec [Inhabited V] (c : BASELRU V) (key : String) (now : Int) :
    (c.items.lookup key = none ∧ c.Peek key = (default, false) ∧
      c.Contains key now = false) ∨
    (∃ e, c.items.lookup key = some e ∧ c.Peek key = ((c.heap e).value, true) ∧
      (c.Contains key now = true ↔
        ((c.heap e).Expiration = 0 ∨ now ≤ (c.heap e).Expiration))) := by
  cases h : c.items.lookup key with
  | none =>
    left
    refine ⟨rfl, ?_, ?_⟩
    · unfold Peek; rw [h]
    · unfold Contains; rw [h]
  | some e =>
    right
    refine ⟨e, rfl, ?_, ?_⟩
    · unfold Peek; rw [h]
    · unfold Contains entry.Expired
      rw [h]
      by_cases h0 : (c.heap e).Expiration = 0
      · simp [h0]
      · simp [h0, not_lt]

end BASELRU

namespace TwoQueueCache

variable {V : Type}

/-- C8: the reading operations leave the state as it is. On a `BASELRU`, `Peek`,
`PeekWithExpire`, `Contains`, `GetOldest`, `Keys` and `Len` return with the
same state; on a `TwoQueueCache`, `Peek`, `Contains`, `Len` and `Keys` leave
`recent`, `frequent` and `recentEvict` as they are. So whatever the reading
operation, the next eviction (`RemoveOldest`, an `AddWithTimeout` on a full
cache, a 2Q `AddWithExpire`) removes the same key and gives the same state as
without it. -/
theorem readOnly_frame [Inhabited V] (c : BASELRU V) (q : TwoQueueCache V) (now : Int)
    (key : String) :
    (c.step now (.Peek key) = c ∧ c.step now (.PeekWithExpire key) = c ∧
      c.step now (.Contains key) = c ∧ c.step now .GetOldest = c ∧
      c.step now .Keys = c ∧ c.step now .Len = c) ∧
    (q.step now (.Peek key) = q ∧ q.step now (.Contains key) = q ∧
      q.step now .Len = q ∧ q.step now .Keys = q) ∧
    (∀ op : BASELRU.Op V, op.readOnly = true →
      (c.step now op).RemoveOldest = c.RemoveOldest ∧
      ∀ k v ts, (c.step now op).AddWithTimeout k v ts = c.AddWithTimeout k v ts) ∧
    (∀ op : Op V, op.readOnly = true →
      (q.step now op).recent = q.recent ∧ (q.step now op).frequent = q.frequent ∧
      (q.step now op).recentEvict = q.recentEvict ∧
      ∀ k v d t, (q.step now op).AddWithExpire k v d t = q.AddWithExpire k v d t) := by
  refine ⟨⟨rfl, rfl, rfl, rfl, rfl, rfl⟩, ⟨rfl, rfl, rfl, rfl⟩, ?_, ?_⟩
  · intro op hop
    cases op <;> first | exact ⟨rfl, fun _ _ _ => rfl⟩ | cases hop
  · intro op hop
    cases op <;> first | exact ⟨rfl, rfl, rfl, fun _ _ _ _ => rfl⟩ | cases hop

/-- C10 (counterexample): a key stored with deadline 10 and re-added at clock 5
with duration 100 keeps deadline 10; it does not get the fresh deadline 105.
The same holds for a key held in `frequent` of a two-queue cache. -/
theorem readd_keeps_old_deadline :
    ((((BASELRU.fresh 2 false NoExpiration : BASELRU Nat).AddWithExpire "a" 1 10 0).1.AddWithExpire
        "a" 2 100 5).1.PeekWithExpire "a" = (2, true, 10) ∧
      (((BASELRU.fresh 2 false NoExpiration : BASELRU Nat).AddWithExpire "a" 1 10 0).1.AddWithExpire
        "a" 2 100 5).1.PeekWithExpire "a" ≠ (2, true, 5 + 100)) ∧
    (sampleFrequent.frequent.PeekWithExpire "a" = (1, true, 10) ∧
      (sampleFrequent.AddWithExpire "a" 2 100 5).frequent.PeekWithExpire "a" = (2, true, 10) ∧
      (sampleFrequent.AddWithExpire "a" 2 100 5).frequent.PeekWithExpire "a"
        ≠ (2, true, 5 + 100)) := by
  decide

/-- C10 (amended): re-adding a key that is in the index of a well-formed cache
with `AddWithExpire` overwrites its value and moves it to the front, and keeps
its prior deadline: the duration `d` and the clock are not used. In
particular `TwoQueueCache.AddWithExpire` on a key that `frequent` contains
updates value and position in `frequent`, keeps the deadline, and leaves
`recent` and `recentEvict` alone. -/
theorem AddWithExpire_present_keeps_deadline [Inhabited V] (c : BASELRU V)
    (q : TwoQueueCache V) (key : String) (value : V) (d t : Int) (e : Nat)
    (hw : c.WellFormed) (hpres : c.items.lookup key = some e)
    (hq : q.frequent.WellFormed) (hf : q.frequent.Contains key t = true) :
    ((c.AddWithExpire key value d t).2 = false ∧
      (c.AddWithExpire key value d t).1.entries =
        ⟨key, value, (c.heap e).Expiration⟩ ::
          c.entries.filter (fun y => decide (y.key ≠ key)) ∧
      (c.AddWithExpire key value d t).1.PeekWithExpire key =
        (value, true, (c.PeekWithExpire key).2.2)) ∧
    ((q.AddWithExpire key value d t).recent = q.recent ∧
      (q.AddWithExpire key value d t).recentEvict = q.recentEvict ∧
      (q.AddWithExpire key value d t).frequent.entries =
        ⟨key, value, (q.frequent.PeekWithExpire key).2.2⟩ ::
          q.frequent.entries.filter (fun y => decide (y.key ≠ key)) ∧
      (q.AddWithExpire key value d t).frequent.PeekWithExpire key =
        (value, true, (q.frequent.PeekWithExpire key).2.2)) := by
  have key_fact : ∀ (b : BASELRU V) (e : Nat), b.WellFormed → b.items.lookup key = some e →
      (b.AddWithExpire key value d t).2 = false ∧
      (b.AddWithExpire key value d t).1.entries =
        ⟨key, value, (b.PeekWithExpire key).2.2⟩ ::
          b.entries.filter (fun y => decide (y.key ≠ key)) ∧
      (b.AddWithExpire key value d t).1.PeekWithExpire key =
        (value, true, (b.PeekWithExpire key).2.2) := by
    intro b e hb hlk
    rw [BASELRU.AddWithExpire_eq]
    generalize (if b.effectiveDuration d > 0 then wrap64 (t + b.effectiveDuration d) else 0) = ts
    have hent := BASELRU.entries_AddWithTimeout_present hb key value ts e hlk
    have hwf := BASELRU.wellFormed_AddWithTimeout hb key value ts
    rw [BASELRU.PeekWithExpire_of_lookup b key e hlk]
    refine ⟨?_, hent, ?_⟩
    · rw [BASELRU.AddWithTimeout_present b key value ts e hlk]
    · have hmem : (⟨key, value, (b.heap e).Expiration⟩ : entry V) ∈
          (b.AddWithTimeout key value ts).1.entries := by
        rw [hent]
        exact List.mem_cons_self _ _
      obtain ⟨e', hlk', hheap⟩ := hwf.lookup_of_mem hmem
      have hlk'' : (b.AddWithTimeout key value ts).1.items.lookup key = some e' := hlk'
      rw [BASELRU.PeekWithExpire_of_lookup _ key e' hlk'', hheap]
  constructor
  · have hc := key_fact c e hw hpres
    refine ⟨hc.1, ?_, hc.2.2⟩
    have h2 := hc.2.1
    rw [BASELRU.PeekWithExpire_of_lookup c key e hpres] at h2
    exact h2
  · have hstep : q.AddWithExpire key value d t =
        { q with frequent := (q.frequent.AddWithExpire key value d t).1 } := by
      unfold AddWithExpire
      rw [if_pos hf]
    have hlk : ∃ e', q.frequent.items.lookup key = some e' := by
      unfold BASELRU.Contains at hf
      cases h : q.frequent.items.lookup key with
      | none => rw [h] at hf; cases hf
      | some e' => exact ⟨e', rfl⟩
    obtain ⟨e', he'⟩ := hlk
    have := key_fact q.frequent e' hq he'
    rw [hstep]
    exact ⟨rfl, rfl, this.2.1, this.2.2⟩

theorem AddWithExpire_present_keeps_deadline_witness :
    (((BASELRU.sample.AddWithExpire "a" 7 100 5).2 = false ∧
      (BASELRU.sample.AddWithExpire "a" 7 100 5).1.entries =
        ⟨"a", 7, (BASELRU.sample.heap 1).Expiration⟩ ::
          BASELRU.sample.entries.filter (fun y => decide (y.key ≠ "a")) ∧
      (BASELRU.sample.AddWithExpire "a" 7 100 5).1.PeekWithExpire "a" =
        (7, true, (BASELRU.sample.PeekWithExpire "a").2.2)) ∧
    ((sampleFrequent.AddWithExpire "a" 7 100 5).recent = sampleFrequent.recent ∧
      (sampleFrequent.AddWithExpire "a" 7 100 5).recentEvict = sampleFrequent.recentEvict ∧
      (sampleFrequent.AddWithExpire "a" 7 100 5).frequent.entries =
        ⟨"a", 7, (sampleFrequent.frequent.PeekWithExpire "a").2.2⟩ ::
          sampleFrequent.frequent.entries.filter (fun y => decide (y.key ≠ "a")) ∧
      (sampleFrequent.AddWithExpire "a" 7 100 5).frequent.PeekWithExpire "a" =
        (7, true, (sampleFrequent.frequent.PeekWithExpire "a").2.2))) :=
  AddWithExpire_present_keeps_deadline BASELRU.sample sampleFrequent "a" 7 100 5 1
    BASELRU.wellFormed_sample (by decide)
    (BASELRU.wellFormed_AddWithTimeout
      (BASELRU.wellFormed_fresh 2 false NoExpiration (by decide)) "a" 1 10)
    (by decide)

end TwoQueueCache

namespace BASELRU

variable {V : Type}

theorem Remove_present (c : BASELRU V) (key : String) (e : Nat)
    (h : c.items.lookup key = some e) : c.Remove key = (c.removeElement e, true) := by
  unfold Remove
  rw [h]

theorem Remove_absent (c : BASELRU V) (key : String)
    (h : c.items.lookup key = none) : c.Remove key = (c, false) := by
  unfold Remove
  rw [h]

theorem Peek_absent [Inhabited V] (c : BASELRU V) (key : String)
    (h : c.items.lookup key = none) : c.Peek key = (default, false) := by
  unfold Peek
  rw [h]

theorem Contains_absent (c : BASELRU V) (key : String) (now : Int)
    (h : c.items.lookup key = none) : c.Contains key now = false := by
  unfold Contains
  rw [h]

theorem len_eq_length_entries (c : BASELRU V) : c.Len = c.entries.length := by
  unfold Len entries
  rw [List.length_map]

theorem filter_key_of_not_mem (l : List (entry V)) (key : String)
    (h : key ∉ l.map (fun x => x.key)) :
    l.filter (fun y => decide (y.key ≠ key)) = l := by
  rw [List.filter_eq_self]
  intro x hx
  have : x.key ≠ key := fun hk => h (List.mem_map.2 ⟨x, hx, hk⟩)
  simpa using this

/-- Entries, index and length after `Remove`. -/
theorem Remove_effect {c : BASELRU V} (hw : c.WellFormed) (key : String) :
    (c.Remove key).1.entries = c.entries.filter (fun y => decide (y.key ≠ key)) ∧
    (c.Remove key).1.items.lookup key = none ∧
    c.Len = (c.Remove key).1.Len + (if (c.Remove key).2 then 1 else 0) := by
  cases h : c.items.lookup key with
  | none =>
    rw [Remove_absent c key h]
    refine ⟨?_, h, by simp⟩
    exact (filter_key_of_not_mem _ _ ((hw.lookup_eq_none key).1 h)).symm
  | some e =>
    have hk : (c.heap e).key = key := ((hw.index key e).1 h).2
    have he : e ∈ c.evictList := ((hw.index key e).1 h).1
    rw [Remove_present c key e h]
    refine ⟨?_, ?_, ?_⟩
    · rw [entries_removeElement hw.toLinked he, hk]
    · show (c.items.erase (c.heap e).key).lookup key = none
      rw [hk, AList.lookup_erase]
    · show c.evictList.length = (c.evictList.erase e).length + (if true = true then 1 else 0)
      rw [List.length_erase_of_mem he, if_pos rfl]
      have : 0 < c.evictList.length := List.length_pos_of_mem he
      omega

/-- C11: `Remove` on a well-formed cache returns `true` exactly when the key
was in the index; afterwards the key is not in the index, `Get`, `Peek` and
`Contains` miss and a second `Remove` returns `false`; `Len()` has gone down by
one exactly when `true` was returned; every other entry keeps its value,
expiration and place in the order, and the state is well-formed. -/
theorem Remove_spec [Inhabited V] (c : BASELRU V) (key : String) (now : Int)
    (hw : c.WellFormed) :
    ((c.Remove key).2 = true ↔ ∃ e, c.items.lookup key = some e) ∧
    (c.Remove key).1.items.lookup key = none ∧
    (c.Remove key).1.Get key now = ((c.Remove key).1, (default, false)) ∧
    (c.Remove key).1.Peek key = (default, false) ∧
    (c.Remove key).1.Contains key now = false ∧
    ((c.Remove key).1.Remove key).2 = false ∧
    c.Len = (c.Remove key).1.Len + (if (c.Remove key).2 then 1 else 0) ∧
    (c.Remove key).1.entries = c.entries.filter (fun y => decide (y.key ≠ key)) ∧
    (c.Remove key).1.WellFormed := by
  obtain ⟨hent, hnone, hlen⟩ := Remove_effect hw key
  refine ⟨?_, hnone, Get_absent _ key now hnone, Peek_absent _ key hnone,
    Contains_absent _ key now hnone, ?_, hlen, hent, wellFormed_Remove hw key⟩
  · cases h : c.items.lookup key with
    | none => rw [Remove_absent c key h]; simp
    | some e => rw [Remove_present c key e h]; simp
  · rw [Remove_absent _ key hnone]

theorem Remove_spec_witness :
    ((sample.Remove "a").2 = true ↔ ∃ e, sample.items.lookup "a" = some e) ∧
    (sample.Remove "a").1.items.lookup "a" = none ∧
    (sample.Remove "a").1.Get "a" 0 = ((sample.Remove "a").1, (default, false)) ∧
    (sample.Remove "a").1.Peek "a" = (default, false) ∧
    (sample.Remove "a").1.Contains "a" 0 = false ∧
    ((sample.Remove "a").1.Remove "a").2 = false ∧
    sample.Len = (sample.Remove "a").1.Len + (if (sample.Remove "a").2 then 1 else 0) ∧
    (sample.Remove "a").1.entries = sample.entries.filter (fun y => decide (y.key ≠ "a")) ∧
    (sample.Remove "a").1.WellFormed :=
  Remove_spec sample "a" 0 wellFormed_sample

theorem getLast?_evictList {c : BASELRU V} {rest : List (entry V)} {x : entry V}
    (h : c.entries = rest ++ [x]) :
    ∃ e, c.evictList.getLast? = some e ∧ c.heap e = x := by
  unfold entries at h
  have hl : (c.evictList.map c.heap).getLast? = some x := by
    rw [h, List.getLast?_append, List.getLast?_singleton]
    rfl
  rw [List.getLast?_map] at hl
  cases hg : c.evictList.getLast? with
  | none => rw [hg] at hl; cases hl
  | some e =>
    rw [hg] at hl
    exact ⟨e, rfl, Option.some.inj hl⟩

/-- C12: oldest-entry operations on a well-formed cache. When the list is not
empty, with `x` its back entry: `GetOldest` returns `(x.key, x.value, true)`,
`x.key` is the first element of `Keys()`, `RemoveOldest` returns the same
triple and leaves exactly the other entries, in order, with `x.key` gone from
the index. On an empty cache both return `("", nil, false)` and the state
stays as it is. -/
theorem oldest_spec [Inhabited V] (c : BASELRU V) (hw : c.WellFormed) :
    (c.entries = [] →
      c.GetOldest = ("", default, false) ∧ c.RemoveOldest = (c, ("", default, false))) ∧
    (∀ rest x, c.entries = rest ++ [x] →
      c.GetOldest = (x.key, x.value, true) ∧
      c.Keys.map List.head? = some (some x.key) ∧
      c.RemoveOldest.2 = (x.key, x.value, true) ∧
      c.RemoveOldest.1.entries = rest ∧
      c.RemoveOldest.1.items.lookup x.key = none ∧
      c.RemoveOldest.1.Len + 1 = c.Len ∧
      c.RemoveOldest.1.WellFormed) := by
  constructor
  · intro h
    have hl : c.evictList = [] := by
      unfold entries at h
      simpa using h
    unfold GetOldest RemoveOldest
    rw [hl]
    exact ⟨rfl, rfl⟩
  · intro rest x h
    obtain ⟨e, hg, hx⟩ := getLast?_evictList h
    have he : e ∈ c.evictList := List.mem_of_getLast?_eq_some hg
    have hro : c.RemoveOldest = (c.removeElement e, ((c.heap e).key, (c.heap e).value, true)) := by
      unfold RemoveOldest
      rw [hg]
    refine ⟨?_, ?_, ?_, ?_, ?_, ?_, ?_⟩
    · unfold GetOldest
      rw [hg]
      show ((c.heap e).key, (c.heap e).value, true) = _
      rw [hx]
    · rw [hw.Keys_eq]
      unfold keyList
      rw [h]
      simp
    · rw [hro, hx]
    · rw [hro]
      show (c.removeElement e).entries = rest
      rw [← removeOldest_eq c e hg, entries_removeOldest hw.toLinked, h]
      simp
    · rw [hro]
      show (c.items.erase (c.heap e).key).lookup x.key = none
      rw [hx, AList.lookup_erase]
    · rw [hro]
      show (c.evictList.erase e).length + 1 = c.evictList.length
      rw [List.length_erase_of_mem he]
      have : 0 < c.evictList.length := List.length_pos_of_mem he
      omega
    · rw [hro]
      exact wellFormed_removeElement hw he

theorem oldest_spec_witness :
    (sample.entries = [] →
      sample.GetOldest = ("", default, false) ∧
        sample.RemoveOldest = (sample, ("", default, false))) ∧
    (∀ rest x, sample.entries = rest ++ [x] →
      sample.GetOldest = (x.key, x.value, true) ∧
      sample.Keys.map List.head? = some (some x.key) ∧
      sample.RemoveOldest.2 = (x.key, x.value, true) ∧
      sample.RemoveOldest.1.entries = rest ∧
      sample.RemoveOldest.1.items.lookup x.key = none ∧
      sample.RemoveOldest.1.Len + 1 = sample.Len ∧
      sample.RemoveOldest.1.WellFormed) :=
  oldest_spec sample wellFormed_sample

/-- C13: in every state reachable from `NewBaseLRU`, `Keys()` does not panic
and returns the keys of the list from the back (oldest) to the front (newest):
each key of the cache exactly once, as many as `Len()`, no slot left
unwritten. -/
theorem Keys_spec [Inhabited V] (size : Int) (onEvict : Bool) (d : Int) (hsize : 0 < size) :
    ∃ c : BASELRU V, NewBaseLRU size onEvict d = .ok c ∧
      ∀ ops : List (Int × Op V),
        (c.run ops).Keys = some (c.run ops).keyList.reverse ∧
        (c.run ops).keyList.reverse.Nodup ∧
        (c.run ops).keyList.reverse.length = (c.run ops).Len ∧
        (∀ k, k ∈ (c.run ops).keyList.reverse ↔ ((c.run ops).Peek k).2 = true) := by
  refine ⟨fresh size onEvict d, NewBaseLRU_of_pos size onEvict d hsize, ?_⟩
  intro ops
  have hw := wellFormed_run (wellFormed_fresh (V := V) size onEvict d (le_of_lt hsize)) ops
  generalize (fresh size onEvict d : BASELRU V).run ops = c at hw
  refine ⟨hw.Keys_eq, List.nodup_reverse.2 hw.keys_nodup, ?_, ?_⟩
  · rw [List.length_reverse, len_eq_length_entries]
    unfold keyList
    rw [List.length_map]
  · intro k
    rw [List.mem_reverse]
    cases h : c.items.lookup k with
    | none =>
      rw [Peek_absent c k h]
      simpa using (hw.lookup_eq_none k).1 h
    | some e =>
      have : c.Peek k = ((c.heap e).value, true) := by unfold Peek; rw [h]
      rw [this]
      have hm := hw.mem_entries h
      simp only [iff_true]
      exact List.mem_map.2 ⟨_, hm.1, hm.2⟩

theorem Keys_spec_witness :
    ∃ c : BASELRU Nat, NewBaseLRU 2 false NoExpiration = .ok c ∧
      ∀ ops : List (Int × Op Nat),
        (c.run ops).Keys = some (c.run ops).keyList.reverse ∧
        (c.run ops).keyList.reverse.Nodup ∧
        (c.run ops).keyList.reverse.length = (c.run ops).Len ∧
        (∀ k, k ∈ (c.run ops).keyList.reverse ↔ ((c.run ops).Peek k).2 = true) :=
  Keys_spec 2 false NoExpiration (by decide)

theorem sameFired_refl (a b : BASELRU V) : SameFired a a b b :=
  ⟨[], by simp, by simp⟩

theorem SameFired.trans {a a' a'' b b' b'' : BASELRU V} (h₁ : SameFired a a' b b')
    (h₂ : SameFired a' a'' b' b'') : SameFired a a'' b b'' := by
  obtain ⟨n₁, ha, hb⟩ := h₁
  obtain ⟨n₂, ha', hb'⟩ := h₂
  exact ⟨n₁ ++ n₂, by rw [ha', ha, List.append_assoc], by rw [hb', hb, List.append_assoc]⟩

theorem sameCache_refl (c : BASELRU V) : SameCache c c :=
  ⟨rfl, rfl, rfl, rfl, rfl, fun _ _ => rfl⟩

theorem SameCache.lookup {c₁ c₂ : BASELRU V} (h : SameCache c₁ c₂) (k : String) :
    c₂.items.lookup k = c₁.items.lookup k := by rw [h.items]

theorem SameCache.heap_of_lookup {c₁ c₂ : BASELRU V} (h : SameCache c₁ c₂) {k : String}
    {e : Nat} (hl : c₁.items.lookup k = some e) : c₂.heap e = c₁.heap e :=
  (h.heap e (Or.inr ⟨k, hl⟩)).symm

theorem SameCache.removeElement {c₁ c₂ : BASELRU V} (h : SameCache c₁ c₂) (e : Nat)
    (he : e ∈ c₁.evictList ∨ ∃ k, c₁.items.lookup k = some e) :
    SameCache (c₁.removeElement e) (c₂.removeElement e) ∧
      SameFired c₁ (c₁.removeElement e) c₂ (c₂.removeElement e) := by
  have hh := h.heap e he
  constructor
  · refine ⟨h.size, ?_, ?_, h.onEvict, h.defaultExpiration, ?_⟩
    · show c₁.evictList.erase e = c₂.evictList.erase e
      rw [h.evictList]
    · show c₁.items.erase (c₁.heap e).key = c₂.items.erase (c₂.heap e).key
      rw [h.items, hh]
    · intro e' he'
      apply h.heap e'
      rcases he' with he' | ⟨k, hk⟩
      · exact Or.inl (List.mem_of_mem_erase he')
      · right
        refine ⟨k, ?_⟩
        have hk' : (c₁.items.erase (c₁.heap e).key).lookup k = some e' := hk
        by_cases hkk : k = (c₁.heap e).key
        · rw [hkk, AList.lookup_erase] at hk'
          cases hk'
        · rw [AList.lookup_erase_ne hkk] at hk'
          exact hk'
  · unfold SameFired BASELRU.removeElement
    simp only
    rw [← h.onEvict, ← hh]
    cases c₁.onEvict
    · exact ⟨[], by simp, by simp⟩
    · exact ⟨[((c₁.heap e).key, (c₁.heap e).value)], by simp, by simp⟩

theorem SameCache.alloc {c₁ c₂ : BASELRU V} (h : SameCache c₁ c₂) : c₂.alloc = c₁.alloc := by
  unfold BASELRU.alloc
  rw [h.evictList, h.items]

theorem SameCache.pushed {c₁ c₂ : BASELRU V} (h : SameCache c₁ c₂) (key : String) (value : V)
    (ts : Int) : SameCache (c₁.pushed key value ts) (c₂.pushed key value ts) := by
  refine ⟨h.size, ?_, ?_, h.onEvict, h.defaultExpiration, ?_⟩
  · show c₁.alloc :: c₁.evictList = c₂.alloc :: c₂.evictList
    rw [h.alloc, h.evictList]
  · show c₁.items.insert key c₁.alloc = c₂.items.insert key c₂.alloc
    rw [h.alloc, h.items]
  · intro e he
    show Function.update c₁.heap c₁.alloc _ e = Function.update c₂.heap c₂.alloc _ e
    rw [h.alloc]
    by_cases hea : e = c₁.alloc
    · rw [hea, Function.update_same, Function.update_same]
    · rw [Function.update_noteq hea, Function.update_noteq hea]
      apply h.heap e
      rcases he with he | ⟨k, hk⟩
      · left
        have he' : e ∈ c₁.alloc :: c₁.evictList := he
        rcases List.mem_cons.1 he' with h1 | h1
        · exact absurd h1 hea
        · exact h1
      · right
        refine ⟨k, ?_⟩
        have hk' : (c₁.items.insert key c₁.alloc).lookup k = some e := hk
        by_cases hkk : k = key
        · rw [hkk, AList.lookup_insert] at hk'
          exact absurd (Option.some.inj hk').symm hea
        · rw [AList.lookup_insert_ne hkk] at hk'
          exact hk'

theorem SameCache.removeOldest {c₁ c₂ : BASELRU V} (h : SameCache c₁ c₂) :
    SameCache c₁.removeOldest c₂.removeOldest ∧
      SameFired c₁ c₁.removeOldest c₂ c₂.removeOldest := by
  unfold BASELRU.removeOldest
  rw [← h.evictList]
  cases hg : c₁.evictList.getLast? with
  | none => exact ⟨h, sameFired_refl _ _⟩
  | some e => exact h.removeElement e (Or.inl (List.mem_of_getLast?_eq_some hg))

theorem SameCache.AddWithTimeout {c₁ c₂ : BASELRU V} (h : SameCache c₁ c₂) (key : String)
    (value : V) (ts : Int) :
    SameCache (c₁.AddWithTimeout key value ts).1 (c₂.AddWithTimeout key value ts).1 ∧
      SameFired c₁ (c₁.AddWithTimeout key value ts).1 c₂ (c₂.AddWithTimeout key value ts).1 ∧
      (c₁.AddWithTimeout key value ts).2 = (c₂.AddWithTimeout key value ts).2 := by
  cases hl : c₁.items.lookup key with
  | some e =>
    have hl₂ : c₂.items.lookup key = some e := by rw [h.lookup, hl]
    rw [AddWithTimeout_present c₁ key value ts e hl, AddWithTimeout_present c₂ key value ts e hl₂]
    refine ⟨⟨h.size, ?_, h.items, h.onEvict, h.defaultExpiration, ?_⟩, sameFired_refl _ _, rfl⟩
    · show moveToFront c₁.evictList e = moveToFront c₂.evictList e
      rw [h.evictList]
    · intro e' he'
      show Function.update c₁.heap e _ e' = Function.update c₂.heap e _ e'
      by_cases hee : e' = e
      · rw [hee, Function.update_same, Function.update_same, h.heap_of_lookup hl]
      · rw [Function.update_noteq hee, Function.update_noteq hee]
        apply h.heap e'
        rcases he' with he' | hk
        · exact Or.inl ((moveToFront_perm _ _).mem_iff.1 he')
        · exact Or.inr hk
  | none =>
    have hl₂ : c₂.items.lookup key = none := by rw [h.lookup, hl]
    rw [AddWithTimeout_absent c₁ key value ts hl, AddWithTimeout_absent c₂ key value ts hl₂]
    have hp := h.pushed key value ts
    have hlen : c₂.Len = c₁.Len := by unfold Len; rw [h.evictList]
    rw [hlen, ← h.size]
    split
    · exact ⟨hp.removeOldest.1, hp.removeOldest.2, rfl⟩
    · exact ⟨hp, sameFired_refl _ _, rfl⟩

theorem SameCache.Get [Inhabited V] {c₁ c₂ : BASELRU V} (h : SameCache c₁ c₂) (key : String)
    (now : Int) :
    SameCache (c₁.Get key now).1 (c₂.Get key now).1 ∧
      SameFired c₁ (c₁.Get key now).1 c₂ (c₂.Get key now).1 ∧
      (c₁.Get key now).2 = (c₂.Get key now).2 := by
  cases hl : c₁.items.lookup key with
  | none =>
    have hl₂ : c₂.items.lookup key = none := by rw [h.lookup, hl]
    rw [Get_absent c₁ key now hl, Get_absent c₂ key now hl₂]
    exact ⟨h, sameFired_refl _ _, rfl⟩
  | some e =>
    have hl₂ : c₂.items.lookup key = some e := by rw [h.lookup, hl]
    rw [Get_present c₁ key now e hl, Get_present c₂ key now e hl₂, h.heap_of_lookup hl]
    split
    · exact ⟨h, sameFired_refl _ _, rfl⟩
    · refine ⟨⟨h.size, ?_, h.items, h.onEvict, h.defaultExpiration, ?_⟩, sameFired_refl _ _, rfl⟩
      · show moveToFront c₁.evictList e = moveToFront c₂.evictList e
        rw [h.evictList]
      · intro e' he'
        apply h.heap e'
        rcases he' with he' | hk
        · exact Or.inl ((moveToFront_perm _ _).mem_iff.1 he')
        · exact Or.inr hk

theorem SameCache.Remove {c₁ c₂ : BASELRU V} (h : SameCache c₁ c₂) (key : String) :
    SameCache (c₁.Remove key).1 (c₂.Remove key).1 ∧
      SameFired c₁ (c₁.Remove key).1 c₂ (c₂.Remove key).1 ∧
      (c₁.Remove key).2 = (c₂.Remove key).2 := by
  cases hl : c₁.items.lookup key with
  | none =>
    have hl₂ : c₂.items.lookup key = none := by rw [h.lookup, hl]
    rw [Remove_absent c₁ key hl, Remove_absent c₂ key hl₂]
    exact ⟨h, sameFired_refl _ _, rfl⟩
  | some e =>
    have hl₂ : c₂.items.lookup key = some e := by rw [h.lookup, hl]
    rw [Remove_present c₁ key e hl, Remove_present c₂ key e hl₂]
    have := h.removeElement e (Or.inr ⟨key, hl⟩)
    exact ⟨this.1, this.2, rfl⟩

theorem SameCache.RemoveOldest [Inhabited V] {c₁ c₂ : BASELRU V} (h : SameCache c₁ c₂) :
    SameCache c₁.RemoveOldest.1 c₂.RemoveOldest.1 ∧
      SameFired c₁ c₁.RemoveOldest.1 c₂ c₂.RemoveOldest.1 ∧
      c₁.RemoveOldest.2 = c₂.RemoveOldest.2 := by
  unfold BASELRU.RemoveOldest
  rw [← h.evictList]
  cases hg : c₁.evictList.getLast? with
  | none => exact ⟨h, sameFired_refl _ _, rfl⟩
  | some e =>
    have he : e ∈ c₁.evictList := List.mem_of_getLast?_eq_some hg
    have := h.removeElement e (Or.inl he)
    refine ⟨this.1, this.2, ?_⟩
    show ((c₁.heap e).key, (c₁.heap e).value, true) = ((c₂.heap e).key, (c₂.heap e).value, true)
    rw [h.heap e (Or.inl he)]

theorem SameCache.GetOldest [Inhabited V] {c₁ c₂ : BASELRU V} (h : SameCache c₁ c₂) :
    c₁.GetOldest = c₂.GetOldest := by
  unfold BASELRU.GetOldest
  rw [← h.evictList]
  cases hg : c₁.evictList.getLast? with
  | none => rfl
  | some e =>
    show ((c₁.heap e).key, (c₁.heap e).value, true) = ((c₂.heap e).key, (c₂.heap e).value, true)
    rw [h.heap e (Or.inl (List.mem_of_getLast?_eq_some hg))]

theorem SameCache.Purge {c₁ c₂ : BASELRU V} (h : SameCache c₁ c₂) :
    SameCache c₁.Purge c₂.Purge ∧ SameFired c₁ c₁.Purge c₂ c₂.Purge := by
  constructor
  · refine ⟨h.size, rfl, rfl, h.onEvict, h.defaultExpiration, ?_⟩
    intro e he
    rcases he with he | ⟨k, hk⟩
    · cases he
    · have hk' : (∅ : Index).lookup k = some e := hk
      rw [AList.lookup_empty] at hk'
      cases hk'
  · unfold SameFired BASELRU.Purge
    simp only
    rw [← h.onEvict, ← h.items]
    refine ⟨_, rfl, ?_⟩
    congr 2
    apply List.map_congr_left
    intro s hs
    have : c₁.items.lookup s.1 = some s.2 := AList.mem_lookup_iff.2 hs
    rw [h.heap s.2 (Or.inr ⟨s.1, this⟩)]

theorem SameCache.Peek [Inhabited V] {c₁ c₂ : BASELRU V} (h : SameCache c₁ c₂) (key : String) :
    c₁.Peek key = c₂.Peek key := by
  unfold BASELRU.Peek
  rw [← h.items]
  cases hl : c₁.items.lookup key with
  | none => rfl
  | some e =>
    show ((c₁.heap e).value, true) = ((c₂.heap e).value, true)
    rw [h.heap e (Or.inr ⟨key, hl⟩)]

theorem SameCache.PeekWithExpire [Inhabited V] {c₁ c₂ : BASELRU V} (h : SameCache c₁ c₂)
    (key : String) : c₁.PeekWithExpire key = c₂.PeekWithExpire key := by
  unfold BASELRU.PeekWithExpire
  rw [← h.items]
  cases hl : c₁.items.lookup key with
  | none => rfl
  | some e =>
    show ((c₁.heap e).value, true, (c₁.heap e).Expiration) =
      ((c₂.heap e).value, true, (c₂.heap e).Expiration)
    rw [h.heap e (Or.inr ⟨key, hl⟩)]

theorem SameCache.Contains {c₁ c₂ : BASELRU V} (h : SameCache c₁ c₂) (key : String)
    (now : Int) : c₁.Contains key now = c₂.Contains key now := by
  unfold BASELRU.Contains
  rw [← h.items]
  cases hl : c₁.items.lookup key with
  | none => rfl
  | some e =>
    show (if (c₁.heap e).Expired now then false else true) =
      (if (c₂.heap e).Expired now then false else true)
    rw [h.heap e (Or.inr ⟨key, hl⟩)]

theorem SameCache.Keys {c₁ c₂ : BASELRU V} (h : SameCache c₁ c₂) : c₁.Keys = c₂.Keys := by
  unfold BASELRU.Keys
  rw [← h.items, ← h.evictList]
  have : c₁.evictList.reverse.map (fun e => (c₁.heap e).key) =
      c₁.evictList.reverse.map (fun e => (c₂.heap e).key) := by
    apply List.map_congr_left
    intro e he
    rw [h.heap e (Or.inl (List.mem_reverse.1 he))]
  rw [this]

theorem SameCache.AddWithExpire {c₁ c₂ : BASELRU V} (h : SameCache c₁ c₂) (key : String)
    (value : V) (d now : Int) :
    SameCache (c₁.AddWithExpire key value d now).1 (c₂.AddWithExpire key value d now).1 ∧
      SameFired c₁ (c₁.AddWithExpire key value d now).1 c₂
        (c₂.AddWithExpire key value d now).1 ∧
      (c₁.AddWithExpire key value d now).2 = (c₂.AddWithExpire key value d now).2 := by
  rw [AddWithExpire_eq, AddWithExpire_eq]
  have : c₂.effectiveDuration d = c₁.effectiveDuration d := by
    unfold effectiveDuration
    rw [h.defaultExpiration]
  rw [this]
  exact h.AddWithTimeout key value _

theorem SameCache.step [Inhabited V] {c₁ c₂ : BASELRU V} (h : SameCache c₁ c₂) (now : Int)
    (op : Op V) :
    SameCache (c₁.step now op) (c₂.step now op) ∧
      SameFired c₁ (c₁.step now op) c₂ (c₂.step now op) ∧
      c₁.ret now op = c₂.ret now op := by
  cases op with
  | Add key value =>
    have := h.AddWithExpire key value NoExpiration now
    exact ⟨this.1, this.2.1, congrArg Ret.flag this.2.2⟩
  | AddWithExpire key value d =>
    have := h.AddWithExpire key value d now
    exact ⟨this.1, this.2.1, congrArg Ret.flag this.2.2⟩
  | AddWithTimeout key value timeout =>
    have := h.AddWithTimeout key value timeout
    exact ⟨this.1, this.2.1, congrArg Ret.flag this.2.2⟩
  | Get key =>
    have := h.Get key now
    refine ⟨this.1, this.2.1, ?_⟩
    show Ret.value (c₁.Get key now).2.1 (c₁.Get key now).2.2 =
      Ret.value (c₂.Get key now).2.1 (c₂.Get key now).2.2
    rw [this.2.2]
  | Peek key =>
    refine ⟨h, sameFired_refl _ _, ?_⟩
    show Ret.value (c₁.Peek key).1 (c₁.Peek key).2 = Ret.value (c₂.Peek key).1 (c₂.Peek key).2
    rw [h.Peek key]
  | PeekWithExpire key =>
    refine ⟨h, sameFired_refl _ _, ?_⟩
    show Ret.valueExpire (c₁.PeekWithExpire key).1 (c₁.PeekWithExpire key).2.1
        (c₁.PeekWithExpire key).2.2 =
      Ret.valueExpire (c₂.PeekWithExpire key).1 (c₂.PeekWithExpire key).2.1
        (c₂.PeekWithExpire key).2.2
    rw [h.PeekWithExpire key]
  | Contains key =>
    exact ⟨h, sameFired_refl _ _, congrArg Ret.flag (h.Contains key now)⟩
  | Remove key =>
    have := h.Remove key
    exact ⟨this.1, this.2.1, congrArg Ret.flag this.2.2⟩
  | RemoveOldest =>
    have := h.RemoveOldest
    refine ⟨this.1, this.2.1, ?_⟩
    show Ret.oldest c₁.RemoveOldest.2.1 c₁.RemoveOldest.2.2.1 c₁.RemoveOldest.2.2.2 =
      Ret.oldest c₂.RemoveOldest.2.1 c₂.RemoveOldest.2.2.1 c₂.RemoveOldest.2.2.2
    rw [this.2.2]
  | GetOldest =>
    refine ⟨h, sameFired_refl _ _, ?_⟩
    show Ret.oldest c₁.GetOldest.1 c₁.GetOldest.2.1 c₁.GetOldest.2.2 =
      Ret.oldest c₂.GetOldest.1 c₂.GetOldest.2.1 c₂.GetOldest.2.2
    rw [h.GetOldest]
  | Keys => exact ⟨h, sameFired_refl _ _, congrArg Ret.keys h.Keys⟩
  | Len =>
    refine ⟨h, sameFired_refl _ _, ?_⟩
    show Ret.len c₁.evictList.length = Ret.len c₂.evictList.length
    rw [h.evictList]
  | Purge =>
    have := h.Purge
    exact ⟨this.1, this.2, rfl⟩

theorem SameCache.run [Inhabited V] {c₁ c₂ : BASELRU V} (h : SameCache c₁ c₂)
    (ops : List (Int × Op V)) :
    SameCache (c₁.run ops) (c₂.run ops) ∧ SameFired c₁ (c₁.run ops) c₂ (c₂.run ops) ∧
      c₁.rets ops = c₂.rets ops := by
  induction ops generalizing c₁ c₂ with
  | nil => exact ⟨h, sameFired_refl _ _, rfl⟩
  | cons a rest ih =>
    obtain ⟨now, op⟩ := a
    have hs := h.step now op
    have hr := ih hs.1
    refine ⟨hr.1, hs.2.1.trans hr.2.1, ?_⟩
    show c₁.ret now op :: (c₁.step now op).rets rest = c₂.ret now op :: (c₂.step now op).rets rest
    rw [hs.2.2, hr.2.2]

theorem SameCache.entries {c₁ c₂ : BASELRU V} (h : SameCache c₁ c₂) :
    c₁.entries = c₂.entries := by
  unfold BASELRU.entries
  rw [← h.evictList]
  apply List.map_congr_left
  intro e he
  exact h.heap e (Or.inl he)

/-- C14: `Purge` empties the cache. Afterwards `Len() = 0`, `Keys()` is empty,
`Get`, `Peek` and `Contains` miss for every key, and `size`, `onEvict` and
`defaultExpiration` are as before. The purged cache then behaves like the
cache `NewBaseLRU` builds with the same parameters: over every later sequence
of operations the results are the same, the same callbacks are made and the
same entries are held. -/
theorem Purge_spec [Inhabited V] (c : BASELRU V) (hpos : 0 < c.size) :
    c.Purge.Len = 0 ∧ c.Purge.Keys = some [] ∧
    (∀ key now, c.Purge.Get key now = (c.Purge, (default, false)) ∧
      c.Purge.Peek key = (default, false) ∧ c.Purge.Contains key now = false) ∧
    c.Purge.size = c.size ∧ c.Purge.onEvict = c.onEvict ∧
    c.Purge.defaultExpiration = c.defaultExpiration ∧
    ∃ f : BASELRU V, NewBaseLRU c.size c.onEvict c.defaultExpiration = .ok f ∧
      ∀ ops : List (Int × Op V),
        c.Purge.rets ops = f.rets ops ∧
        (c.Purge.run ops).fired = c.Purge.fired ++ (f.run ops).fired ∧
        (c.Purge.run ops).entries = (f.run ops).entries := by
  have hnone : ∀ key, c.Purge.items.lookup key = none := fun key => AList.lookup_empty key
  refine ⟨rfl, rfl, fun key now => ⟨Get_absent _ key now (hnone key), Peek_absent _ key (hnone key),
    Contains_absent _ key now (hnone key)⟩, rfl, rfl, rfl,
    fresh c.size c.onEvict c.defaultExpiration, NewBaseLRU_of_pos _ _ _ hpos, ?_⟩
  intro ops
  have hsame : SameCache c.Purge (fresh c.size c.onEvict c.defaultExpiration) := by
    refine ⟨rfl, rfl, rfl, rfl, rfl, ?_⟩
    intro e he
    rcases he with he | ⟨k, hk⟩
    · cases he
    · rw [hnone k] at hk
      cases hk
  obtain ⟨hs, ⟨new, h₁, h₂⟩, hr⟩ := hsame.run ops
  refine ⟨hr, ?_, hs.entries⟩
  rw [h₁]
  have : (fresh c.size c.onEvict c.defaultExpiration : BASELRU V).fired = [] := rfl
  rw [h₂, this, List.nil_append]

theorem Purge_spec_witness :
    sample.Purge.Len = 0 ∧ sample.Purge.Keys = some [] ∧
    (∀ key now, sample.Purge.Get key now = (sample.Purge, (default, false)) ∧
      sample.Purge.Peek key = (default, false) ∧ sample.Purge.Contains key now = false) ∧
    sample.Purge.size = sample.size ∧ sample.Purge.onEvict = sample.onEvict ∧
    sample.Purge.defaultExpiration = sample.defaultExpiration ∧
    ∃ f : BASELRU Nat, NewBaseLRU sample.size sample.onEvict sample.defaultExpiration = .ok f ∧
      ∀ ops : List (Int × Op Nat),
        sample.Purge.rets ops = f.rets ops ∧
        (sample.Purge.run ops).fired = sample.Purge.fired ++ (f.run ops).fired ∧
        (sample.Purge.run ops).entries = (f.run ops).entries :=
  Purge_spec sample (by decide)

theorem evictedBy_eq_nil {c c' : BASELRU V} (h : ∀ x ∈ c.entries, x.key ∈ c'.keyList) :
    evictedBy c c' = [] := by
  unfold evictedBy
  rw [List.map_eq_nil_iff, List.filter_eq_nil_iff]
  intro x hx
  simpa using h x hx

theorem filter_key_eq_singleton (l : List (entry V)) (x : entry V)
    (hn : (l.map (fun y => y.key)).Nodup) (hx : x ∈ l) :
    l.filter (fun y => decide (y.key = x.key)) = [x] := by
  induction l with
  | nil => cases hx
  | cons a t ih =>
    simp only [List.map_cons, List.nodup_cons, List.mem_map, not_exists, not_and] at hn
    rcases List.mem_cons.1 hx with rfl | hxt
    · rw [List.filter_cons_of_pos (by simp)]
      congr 1
      rw [List.filter_eq_nil_iff]
      intro y hy
      simpa using hn.1 y hy
    · have hne : a.key ≠ x.key := fun h => hn.1 x hxt h.symm
      rw [List.filter_cons_of_neg (by simpa using hne)]
      exact ih hn.2 hxt

theorem evictedBy_eq_singleton {c c' : BASELRU V} (hl : c.Linked) {x : entry V}
    (hx : x ∈ c.entries) (hout : x.key ∉ c'.keyList)
    (hin : ∀ y ∈ c.entries, y.key ≠ x.key → y.key ∈ c'.keyList) :
    evictedBy c c' = [(x.key, x.value)] := by
  unfold evictedBy
  have : c.entries.filter (fun y => decide (y.key ∉ c'.keyList)) =
      c.entries.filter (fun y => decide (y.key = x.key)) := by
    apply List.filter_congr
    intro y hy
    by_cases hk : y.key = x.key
    · simp [hk, hout]
    · simp [hk, hin y hy hk]
  rw [this, filter_key_eq_singleton c.entries x hl.keys_nodup hx]
  rfl

theorem keyList_filter (c : BASELRU V) (key : String) :
    (c.entries.filter (fun y => decide (y.key ≠ key))).map (fun x => x.key) =
      c.keyList.filter (fun k => decide (k ≠ key)) := by
  unfold keyList
  rw [List.filter_map]
  rfl

/-- Callback record and departed entries after `removeElement` on an element of
the list. -/
theorem removeElement_accounting {c : BASELRU V} (hl : c.Linked) {e : Nat}
    (he : e ∈ c.evictList) (hcb : c.onEvict = true) :
    (c.removeElement e).fired = c.fired ++ [((c.heap e).key, (c.heap e).value)] ∧
      evictedBy c (c.removeElement e) = [((c.heap e).key, (c.heap e).value)] := by
  constructor
  · show (if c.onEvict then c.fired ++ [((c.heap e).key, (c.heap e).value)] else c.fired) = _
    rw [hcb, if_pos rfl]
  · have hkl : (c.removeElement e).keyList =
        c.keyList.filter (fun k => decide (k ≠ (c.heap e).key)) := by
      show (c.removeElement e).entries.map _ = _
      rw [entries_removeElement hl he, keyList_filter]
    apply evictedBy_eq_singleton hl (List.mem_map.2 ⟨e, he, rfl⟩)
    · rw [hkl]
      simp
    · intro y hy hne
      rw [hkl, List.mem_filter]
      exact ⟨List.mem_map.2 ⟨y, hy, rfl⟩, by simpa using hne⟩

theorem fired_AddWithTimeout_absent_room {c : BASELRU V} (key : String) (value : V)
    (ts : Int) (habs : c.items.lookup key = none) (hroom : ¬ (c.Len : Int) + 1 > c.size) :
    (c.AddWithTimeout key value ts).1.fired = c.fired := by
  rw [AddWithTimeout_absent c key value ts habs, if_neg hroom]
  rfl

theorem fired_AddWithTimeout_absent_full {c : BASELRU V} (hw : c.WellFormed) (key : String)
    (value : V) (ts : Int) (habs : c.items.lookup key = none)
    (hfull : (c.Len : Int) + 1 > c.size) (hcb : c.onEvict = true) (rest : List (entry V))
    (x : entry V) (hx : c.entries = rest ++ [x]) :
    (c.AddWithTimeout key value ts).1.fired = c.fired ++ [(x.key, x.value)] := by
  rw [AddWithTimeout_absent c key value ts habs, if_pos hfull]
  have hp := linked_pushed hw.toLinked key value ts habs
  have hpe : (c.pushed key value ts).entries = (⟨key, value, ts⟩ :: rest) ++ [x] := by
    rw [entries_pushed, hx]
    rfl
  obtain ⟨e, hg, hh⟩ := getLast?_evictList hpe
  show (c.pushed key value ts).removeOldest.fired = _
  rw [removeOldest_eq _ e hg]
  have := (removeElement_accounting hp (List.mem_of_getLast?_eq_some hg) hcb).1
  rw [this, hh]
  rfl

theorem keyList_perm_Get [Inhabited V] (c : BASELRU V) (key : String) (now : Int) :
    (c.Get key now).1.keyList.Perm c.keyList := by
  cases h : c.items.lookup key with
  | none => rw [Get_absent c key now h]
  | some e =>
    rw [Get_present c key now e h]
    split
    · exact List.Perm.refl _
    · unfold keyList entries
      exact ((moveToFront_perm c.evictList e).map _).map _

theorem fired_Get [Inhabited V] (c : BASELRU V) (key : String) (now : Int) :
    (c.Get key now).1.fired = c.fired := by
  cases h : c.items.lookup key with
  | none => rw [Get_absent c key now h]
  | some e =>
    rw [Get_present c key now e h]
    split <;> rfl

/-- Bindings of the index and elements of the list, as pairs `(key, value)`. -/
theorem Linked.items_perm {c : BASELRU V} (hl : c.Linked) :
    (c.items.entries.map (fun s => (s.1, (c.heap s.2).value))).Perm
      (c.entries.map (fun x => (x.key, x.value))) := by
  have hp : c.items.entries.Perm
      (c.evictList.map (fun e => (⟨(c.heap e).key, e⟩ : Sigma (fun _ : String => Nat)))) := by
    rw [List.perm_ext_iff_of_nodup c.items.nodupKeys.nodup ?_]
    · intro s
      obtain ⟨k, e⟩ := s
      rw [← AList.mem_lookup_iff, Option.mem_def, hl.index, List.mem_map]
      constructor
      · rintro ⟨he, hk⟩
        exact ⟨e, he, by rw [hk]⟩
      · rintro ⟨e', he', heq⟩
        cases heq
        exact ⟨he', rfl⟩
    · apply hl.nodup_ptr.map
      intro a b hab
      exact congrArg Sigma.snd hab
  have := hp.map (fun s => (s.1, (c.heap s.2).value))
  rw [List.map_map] at this
  unfold entries
  rw [List.map_map]
  exact this

theorem onEvict_removeOldest (c : BASELRU V) : c.removeOldest.onEvict = c.onEvict := by
  unfold removeOldest
  cases c.evictList.getLast? <;> rfl

theorem onEvict_AddWithTimeout (c : BASELRU V) (key : String) (value : V) (timeout : Int) :
    (c.AddWithTimeout key value timeout).1.onEvict = c.onEvict := by
  cases h : c.items.lookup key with
  | some e => rw [AddWithTimeout_present c key value timeout e h]
  | none =>
    rw [AddWithTimeout_absent c key value timeout h]
    split
    · exact onEvict_removeOldest _
    · rfl

theorem onEvict_step [Inhabited V] (c : BASELRU V) (now : Int) (op : Op V) :
    (c.step now op).onEvict = c.onEvict := by
  cases op with
  | Add key value => exact onEvict_AddWithTimeout _ _ _ _
  | AddWithExpire key value d => exact onEvict_AddWithTimeout _ _ _ _
  | AddWithTimeout key value timeout => exact onEvict_AddWithTimeout _ _ _ _
  | Get key =>
    show (c.Get key now).1.onEvict = c.onEvict
    cases h : c.items.lookup key with
    | none => rw [Get_absent c key now h]
    | some e =>
      rw [Get_present c key now e h]
      split <;> rfl
  | Remove key =>
    show (c.Remove key).1.onEvict = c.onEvict
    unfold Remove
    cases c.items.lookup key <;> rfl
  | RemoveOldest =>
    show c.RemoveOldest.1.onEvict = c.onEvict
    unfold RemoveOldest
    cases c.evictList.getLast? <;> rfl
  | _ => rfl

theorem onEvict_run [Inhabited V] (c : BASELRU V) (ops : List (Int × Op V)) :
    (c.run ops).onEvict = c.onEvict := by
  induction ops generalizing c with
  | nil => rfl
  | cons a rest ih =>
    obtain ⟨now, op⟩ := a
    exact (ih _).trans (onEvict_step c now op)

theorem entries_ne_nil_of_full {c : BASELRU V} (hpos : 0 < c.size)
    (hfull : (c.Len : Int) + 1 > c.size) : c.entries ≠ [] := by
  intro h0
  have : c.Len = 0 := by rw [len_eq_length_entries, h0]; rfl
  rw [this] at hfull
  simp at hfull
  omega

/-- Callbacks made by `AddWithTimeout`: exactly the entries that left. -/
theorem accounting_AddWithTimeout {c : BASELRU V} (hw : c.WellFormed) (hpos : 0 < c.size)
    (hcb : c.onEvict = true) (key : String) (value : V) (ts : Int) :
    ∃ new, (c.AddWithTimeout key value ts).1.fired = c.fired ++ new ∧
      new.Perm (evictedBy c (c.AddWithTimeout key value ts).1) := by
  cases h : c.items.lookup key with
  | some e =>
    refine ⟨[], ?_, ?_⟩
    · rw [AddWithTimeout_present c key value ts e h]
      simp
    · rw [evictedBy_eq_nil]
      intro x hx
      unfold keyList
      rw [entries_AddWithTimeout_present hw key value ts e h]
      by_cases hk : x.key = key
      · simp [hk]
      · simp only [List.map_cons, List.mem_cons, List.mem_map, List.mem_filter]
        exact Or.inr ⟨x, ⟨hx, by simpa using hk⟩, rfl⟩
  | none =>
    have hent := entries_AddWithTimeout_absent hw hpos key value ts h
    have hle := hw.len_le
    by_cases hfull : (c.Len : Int) + 1 > c.size
    · have hne := entries_ne_nil_of_full hpos hfull
      rcases List.eq_nil_or_concat c.entries with h0 | ⟨rest, x, hx⟩
      · exact absurd h0 hne
      · rw [List.concat_eq_append] at hx
        rw [if_pos (by omega), hx, List.dropLast_concat] at hent
        refine ⟨[(x.key, x.value)],
          fired_AddWithTimeout_absent_full hw key value ts h hfull hcb rest x hx, ?_⟩
        have hkn := hw.keys_nodup
        unfold keyList at hkn
        rw [hx, List.map_append, List.nodup_append] at hkn
        have hxk : x.key ≠ key := by
          intro hk
          have := (hw.lookup_eq_none key).1 h
          unfold keyList at this
          rw [hx] at this
          exact this (by simp [hk])
        rw [evictedBy_eq_singleton hw.toLinked (x := x) (by rw [hx]; simp)]
        · unfold keyList
          rw [hent]
          simp only [List.map_cons, List.mem_cons, not_or]
          refine ⟨hxk, fun hm => hkn.2.2 hm (by simp)⟩
        · intro y hy hne'
          unfold keyList
          rw [hent]
          rw [hx] at hy
          rcases List.mem_append.1 hy with hy | hy
          · simp only [List.map_cons, List.mem_cons, List.mem_map]
            exact Or.inr ⟨y, hy, rfl⟩
          · simp only [List.mem_singleton] at hy
            exact absurd (by rw [hy]) hne'
    · refine ⟨[], ?_, ?_⟩
      · rw [fired_AddWithTimeout_absent_room key value ts h hfull]
        simp
      · rw [evictedBy_eq_nil]
        intro x hx
        unfold keyList
        rw [hent, if_neg (by omega)]
        simp only [List.map_cons, List.mem_cons, List.mem_map]
        exact Or.inr ⟨x, hx, rfl⟩

theorem accounting_removeElement {c : BASELRU V} (hw : c.WellFormed) (hcb : c.onEvict = true)
    {e : Nat} (he : e ∈ c.evictList) :
    ∃ new, (c.removeElement e).fired = c.fired ++ new ∧
      new.Perm (evictedBy c (c.removeElement e)) := by
  obtain ⟨h₁, h₂⟩ := removeElement_accounting hw.toLinked he hcb
  exact ⟨_, h₁, by rw [h₂]⟩

theorem accounting_same {c c' : BASELRU V} (hf : c'.fired = c.fired)
    (hk : c'.keyList.Perm c.keyList) :
    ∃ new, c'.fired = c.fired ++ new ∧ new.Perm (evictedBy c c') := by
  refine ⟨[], by simp [hf], ?_⟩
  rw [evictedBy_eq_nil]
  intro x hx
  exact hk.mem_iff.2 (List.mem_map.2 ⟨x, hx, rfl⟩)

theorem wellFormed_sampleCallback : sampleCallback.WellFormed :=
  wellFormed_run (wellFormed_fresh 2 true NoExpiration (by decide)) _

theorem accounting_step [Inhabited V] {c : BASELRU V} (hw : c.WellFormed) (hpos : 0 < c.size)
    (hcb : c.onEvict = true) (now : Int) (op : Op V) :
    ∃ new, (c.step now op).fired = c.fired ++ new ∧
      new.Perm (evictedBy c (c.step now op)) := by
  cases op with
  | Add key value => exact accounting_AddWithTimeout hw hpos hcb key value _
  | AddWithExpire key value d => exact accounting_AddWithTimeout hw hpos hcb key value _
  | AddWithTimeout key value timeout => exact accounting_AddWithTimeout hw hpos hcb key value _
  | Get key => exact accounting_same (fired_Get c key now) (keyList_perm_Get c key now)
  | Remove key =>
    show ∃ new, (c.Remove key).1.fired = c.fired ++ new ∧
      new.Perm (evictedBy c (c.Remove key).1)
    cases h : c.items.lookup key with
    | none =>
      rw [Remove_absent c key h]
      exact accounting_same rfl (List.Perm.refl _)
    | some e =>
      rw [Remove_present c key e h]
      exact accounting_removeElement hw hcb ((hw.index key e).1 h).1
  | RemoveOldest =>
    show ∃ new, c.RemoveOldest.1.fired = c.fired ++ new ∧
      new.Perm (evictedBy c c.RemoveOldest.1)
    unfold RemoveOldest
    cases h : c.evictList.getLast? with
    | none => exact accounting_same rfl (List.Perm.refl _)
    | some e => exact accounting_removeElement hw hcb (List.mem_of_getLast?_eq_some h)
  | Purge =>
    refine ⟨c.items.entries.map (fun s => (s.1, (c.heap s.2).value)), ?_, ?_⟩
    · show c.fired ++ (if c.onEvict then _ else []) = _
      rw [hcb, if_pos rfl]
    · have : evictedBy c c.Purge = c.entries.map (fun x => (x.key, x.value)) := by
        unfold evictedBy
        congr 1
        rw [List.filter_eq_self]
        intro x _
        have : c.Purge.keyList = [] := rfl
        simp [this]
      show List.Perm _ (evictedBy c c.Purge)
      rw [this]
      exact hw.items_perm
  | Peek key => exact accounting_same rfl (List.Perm.refl _)
  | PeekWithExpire key => exact accounting_same rfl (List.Perm.refl _)
  | Contains key => exact accounting_same rfl (List.Perm.refl _)
  | GetOldest => exact accounting_same rfl (List.Perm.refl _)
  | Keys => exact accounting_same rfl (List.Perm.refl _)
  | Len => exact accounting_same rfl (List.Perm.refl _)

/-- Number of callbacks made while adding pairs with distinct keys to a fresh
cache with a callback. -/
theorem fired_run_addOps [Inhabited V] (cap : Nat) (d : Int)
    (adds : List (Int × String × V)) (hcap : 1 ≤ cap)
    (hkeys : (adds.map (fun a => a.2.1)).Nodup) :
    ((fresh cap true d : BASELRU V).run (addOps adds)).fired.length = adds.length - cap := by
  induction adds using List.reverseRecOn with
  | nil => simp [addOps, run, fresh]
  | append_singleton adds a ih =>
    have hk := hkeys
    rw [List.map_append, List.nodup_append] at hk
    have ih' := ih hk.1
    obtain ⟨hw, he⟩ := run_addOps (V := V) cap true d adds hcap hk.1
    have hrun : (fresh cap true d : BASELRU V).run (addOps (adds ++ [a])) =
        (((fresh cap true d : BASELRU V).run (addOps adds)).AddWithTimeout a.2.1 a.2.2 0).1 := by
      unfold addOps
      rw [List.map_append, run_append]
      simp only [List.map_cons, List.map_nil, run, step, Add_eq]
    have hwn := (run_addOps (V := V) cap true d (adds ++ [a]) hcap hkeys).2
    rw [hrun] at hwn ⊢
    have hsize : ((fresh cap true d : BASELRU V).run (addOps adds)).size = (cap : Int) :=
      size_run _ _
    have hcb : ((fresh cap true d : BASELRU V).run (addOps adds)).onEvict = true :=
      onEvict_run _ _
    generalize (fresh cap true d : BASELRU V).run (addOps adds) = c at hw he hsize hcb ih' hwn
    have hlen : c.Len = min cap adds.length := by
      rw [len_eq_length_entries, he]
      simp
    have habs : c.items.lookup a.2.1 = none := by
      rw [hw.lookup_eq_none]
      unfold keyList
      rw [he]
      intro hmem
      rcases List.mem_map.1 hmem with ⟨x, hx, hxk⟩
      rcases List.mem_map.1 hx with ⟨b, hb, rfl⟩
      have hb' : b ∈ adds := List.mem_reverse.1 (List.mem_of_mem_take hb)
      have h1 : b.2.1 ∈ adds.map (fun a => a.2.1) := List.mem_map.2 ⟨b, hb', rfl⟩
      have h2 : b.2.1 ∈ [a].map (fun a => a.2.1) := by
        have : b.2.1 = a.2.1 := hxk
        simp [this]
      exact hk.2.2 h1 h2
    rw [List.length_append, List.length_singleton]
    by_cases hfull : (c.Len : Int) + 1 > c.size
    · have hne := entries_ne_nil_of_full (by omega) hfull
      rcases List.eq_nil_or_concat c.entries with h0 | ⟨rest, x, hx⟩
      · exact absurd h0 hne
      · rw [List.concat_eq_append] at hx
        rw [fired_AddWithTimeout_absent_full hw a.2.1 a.2.2 0 habs hfull hcb rest x hx,
          List.length_append, ih']
        rw [hlen, hsize] at hfull
        simp only [List.length_singleton]
        omega
    · rw [fired_AddWithTimeout_absent_room a.2.1 a.2.2 0 habs hfull, ih']
      rw [hlen, hsize] at hfull
      omega

/-- C15: eviction callback accounting on a well-formed cache (capacity at
least 1) with a callback. During any public operation the callback receives
exactly the pairs `(key, value)` of the entries whose key was in the cache
before the operation and is not in it afterwards, each once, with its stored
value. The reading operations and `Get` (also when it finds an expired entry)
make no callback. Adding `n` pairs with distinct keys to a fresh cache of
capacity `cap` makes `n - cap` callbacks (none when `n ≤ cap`). -/
theorem callback_accounting [Inhabited V] (c : BASELRU V) (now : Int) (op : Op V)
    (cap : Nat) (d : Int) (adds : List (Int × String × V))
    (hw : c.WellFormed) (hpos : 0 < c.size) (hcb : c.onEvict = true)
    (hcap : 1 ≤ cap) (hkeys : (adds.map (fun a => a.2.1)).Nodup) :
    (∃ new, (c.step now op).fired = c.fired ++ new ∧
      new.Perm (evictedBy c (c.step now op))) ∧
    ((op.readOnly = true ∨ ∃ key, op = .Get key) → (c.step now op).fired = c.fired) ∧
    ((fresh cap true d : BASELRU V).run (addOps adds)).fired.length = adds.length - cap := by
  refine ⟨accounting_step hw hpos hcb now op, ?_, fired_run_addOps cap d adds hcap hkeys⟩
  rintro (hro | ⟨key, rfl⟩)
  · cases op <;> first | rfl | cases hro
  · exact fired_Get c key now

theorem callback_accounting_witness :
    (∃ new, (sampleCallback.step 0 (.Add "c" 3)).fired = sampleCallback.fired ++ new ∧
      new.Perm (evictedBy sampleCallback (sampleCallback.step 0 (.Add "c" 3)))) ∧
    (((Op.Add "c" 3 : Op Nat).readOnly = true ∨ ∃ key, (Op.Add "c" 3 : Op Nat) = .Get key) →
      (sampleCallback.step 0 (.Add "c" 3)).fired = sampleCallback.fired) ∧
    ((fresh (2 : Nat) true NoExpiration : BASELRU Nat).run (addOps sampleAdds)).fired.length =
      sampleAdds.length - 2 :=
  callback_accounting sampleCallback 0 (.Add "c" 3) 2 NoExpiration sampleAdds
    wellFormed_sampleCallback (by decide) (by decide) (by decide) (by decide)

end BASELRU

namespace TwoQueueCache

variable {V : Type}

theorem allocate_ok [Inhabited V] (size recentSize evictSize d : Int) (hs : 0 < size) (he : 0 < evictSize) :
    (allocate size recentSize evictSize d : Except String (TwoQueueCache V)) =
      .ok { size := size
            recentSize := recentSize
            recent := BASELRU.fresh size false d
            frequent := BASELRU.fresh size false d
            recentEvict := BASELRU.fresh evictSize false d } := by
  unfold allocate
  rw [BASELRU.NewBaseLRU_of_pos size false d hs, BASELRU.NewBaseLRU_of_pos evictSize false d he]

theorem allocate_error [Inhabited V] (size recentSize evictSize d : Int) (hs : 0 < size)
    (he : evictSize ≤ 0) :
    (allocate size recentSize evictSize d : Except String (TwoQueueCache V)) =
      .error "Must provide a positive size" := by
  unfold allocate
  rw [BASELRU.NewBaseLRU_of_pos size false d hs]
  simp only [BASELRU.NewBaseLRU, if_pos he]

theorem New2Q_sample : (New2Q 2 NoExpiration : Except String (TwoQueueCache Nat)) = .ok sample := by
  unfold New2Q New2QParams Default2QRecentRatio Default2QGhostEntries toInt
  norm_num
  rw [allocate_ok 2 _ _ _ (by decide) (by norm_num)]
  rfl

theorem New2QParams_sampleAllRecent :
    (New2QParams 2 1 (1 / 2) NoExpiration : Except String (TwoQueueCache Nat)) =
      .ok sampleAllRecent := by
  unfold New2QParams toInt
  norm_num
  rw [allocate_ok 2 _ _ _ (by decide) (by norm_num)]
  rfl

theorem New2Q_one [Inhabited V] (d : Int) :
    (New2Q 1 d : Except String (TwoQueueCache V)) = .error "Must provide a positive size" := by
  unfold New2Q New2QParams Default2QRecentRatio Default2QGhostEntries toInt
  norm_num
  exact allocate_error 1 _ _ d (by decide) (by norm_num)

end TwoQueueCache

namespace BASELRU

variable {V : Type}

theorem len_removeElement_of_mem (c : BASELRU V) {e : Nat} (he : e ∈ c.evictList) :
    (c.removeElement e).Len + 1 = c.Len := by
  show (c.evictList.erase e).length + 1 = c.evictList.length
  rw [List.length_erase_of_mem he]
  have : 0 < c.evictList.length := List.length_pos_of_mem he
  omega

theorem len_AddWithTimeout_present (c : BASELRU V) (key : String) (value : V) (ts : Int)
    (e : Nat) (h : c.items.lookup key = some e) :
    (c.AddWithTimeout key value ts).1.Len = c.Len := by
  rw [AddWithTimeout_present c key value ts e h]
  exact length_moveToFront _ _

theorem len_AddWithTimeout_le (c : BASELRU V) (key : String) (value : V) (ts : Int) :
    (c.AddWithTimeout key value ts).1.Len ≤ c.Len + 1 := by
  cases h : c.items.lookup key with
  | some e => rw [len_AddWithTimeout_present c key value ts e h]; omega
  | none =>
    rw [AddWithTimeout_absent c key value ts h]
    split
    · show (c.pushed key value ts).removeOldest.Len ≤ c.Len + 1
      unfold removeOldest
      cases hg : (c.pushed key value ts).evictList.getLast? with
      | none => exact le_refl _
      | some e =>
        have := len_removeElement_of_mem (c.pushed key value ts) (List.mem_of_getLast?_eq_some hg)
        have h2 : (c.pushed key value ts).Len = c.Len + 1 := rfl
        show ((c.pushed key value ts).removeElement e).Len ≤ c.Len + 1
        omega
    · exact le_refl _

theorem len_AddWithExpire_le (c : BASELRU V) (key : String) (value : V) (d now : Int) :
    (c.AddWithExpire key value d now).1.Len ≤ c.Len + 1 :=
  len_AddWithTimeout_le c key value _

theorem size_AddWithExpire (c : BASELRU V) (key : String) (value : V) (d now : Int) :
    (c.AddWithExpire key value d now).1.size = c.size :=
  size_AddWithTimeout c key value _

theorem wellFormed_AddWithExpire {c : BASELRU V} (hw : c.WellFormed) (key : String)
    (value : V) (d now : Int) : (c.AddWithExpire key value d now).1.WellFormed :=
  wellFormed_AddWithTimeout hw key value _

theorem lookup_of_Contains {c : BASELRU V} {key : String} {now : Int}
    (h : c.Contains key now = true) : ∃ e, c.items.lookup key = some e := by
  unfold Contains at h
  cases hl : c.items.lookup key with
  | none => rw [hl] at h; cases h
  | some e => exact ⟨e, rfl⟩

theorem lookup_of_PeekWithExpire [Inhabited V] {c : BASELRU V} {key : String}
    (h : (c.PeekWithExpire key).2.1 = true) : ∃ e, c.items.lookup key = some e := by
  unfold PeekWithExpire at h
  cases hl : c.items.lookup key with
  | none => rw [hl] at h; cases h
  | some e => exact ⟨e, rfl⟩

theorem size_Remove (c : BASELRU V) (key : String) : (c.Remove key).1.size = c.size := by
  unfold Remove
  cases c.items.lookup key <;> rfl

theorem size_RemoveOldest [Inhabited V] (c : BASELRU V) : c.RemoveOldest.1.size = c.size := by
  unfold RemoveOldest
  cases c.evictList.getLast? <;> rfl

theorem len_Remove_present {c : BASELRU V} (hw : c.WellFormed) (key : String) (e : Nat)
    (h : c.items.lookup key = some e) : (c.Remove key).1.Len + 1 = c.Len := by
  rw [Remove_present c key e h]
  exact len_removeElement_of_mem c ((hw.index key e).1 h).1

theorem len_Remove_le {c : BASELRU V} (hw : c.WellFormed) (key : String) :
    (c.Remove key).1.Len ≤ c.Len := by
  cases h : c.items.lookup key with
  | none => rw [Remove_absent c key h]
  | some e =>
    have := len_Remove_present hw key e h
    omega

theorem len_RemoveOldest_of_pos [Inhabited V] (c : BASELRU V) (h : 0 < c.Len) :
    c.RemoveOldest.1.Len + 1 = c.Len := by
  unfold RemoveOldest
  cases hg : c.evictList.getLast? with
  | none =>
    rw [List.getLast?_eq_none_iff] at hg
    unfold Len at h
    rw [hg] at h
    cases h
  | some e => exact len_removeElement_of_mem c (List.mem_of_getLast?_eq_some hg)

theorem len_RemoveOldest_le [Inhabited V] (c : BASELRU V) : c.RemoveOldest.1.Len ≤ c.Len := by
  unfold RemoveOldest
  cases hg : c.evictList.getLast? with
  | none => exact le_refl _
  | some e =>
    have := len_removeElement_of_mem c (List.mem_of_getLast?_eq_some hg)
    show (c.removeElement e).Len ≤ c.Len
    omega

theorem state_of_Get_miss [Inhabited V] (c : BASELRU V) (key : String) (now : Int) :
    (c.Get key now).2.2 = false → (c.Get key now).1 = c := by
  cases h : c.items.lookup key with
  | none => rw [Get_absent c key now h]; intro _; rfl
  | some e =>
    rw [Get_present c key now e h]
    split
    · intro _; rfl
    · intro hh; cases hh

end BASELRU

namespace TwoQueueCache

variable {V : Type}

theorem keeps_refl {c : TwoQueueCache V} (h : c.Inv) : Keeps c c :=
  ⟨h, rfl, rfl, fun _ hc => hc⟩

theorem len_eq (c : TwoQueueCache V) : c.Len = c.recent.Len + c.frequent.Len := rfl

/-- Effect of `ensureSpace` on a cache in use: structure and sizes are kept, no
list grows, and with `recentSize < size` a full cache loses one entry. -/
theorem ensureSpace_effect [Inhabited V] {c : TwoQueueCache V} (h : c.Inv) (ghost : Bool)
    (now : Int) :
    (c.ensureSpace ghost now).Inv ∧ (c.ensureSpace ghost now).size = c.size ∧
    (c.ensureSpace ghost now).recentSize = c.recentSize ∧
    (c.ensureSpace ghost now).Len ≤ c.Len ∧
    (c.recentSize < c.size → (c.Len : Int) ≤ c.size →
      ((c.ensureSpace ghost now).Len : Int) < c.size) := by
  unfold ensureSpace
  simp only
  split
  · rename_i hlt
    refine ⟨h, rfl, rfl, le_refl _, fun _ _ => ?_⟩
    rw [len_eq]
    push_cast
    exact hlt
  · rename_i hge
    split
    · rename_i hcond
      have hpos : 0 < c.recent.Len := by omega
      have hlen := BASELRU.len_RemoveOldest_of_pos c.recent hpos
      refine ⟨⟨BASELRU.wellFormed_RemoveOldest h.recent_wf, h.frequent_wf,
        BASELRU.wellFormed_AddWithExpire h.ghost_wf _ _ _ _,
        (BASELRU.size_RemoveOldest _).trans h.recent_size, h.frequent_size, h.size_pos⟩,
        rfl, rfl, ?_, fun _ hcap => ?_⟩
      · show c.recent.RemoveOldest.1.Len + c.frequent.Len ≤ c.recent.Len + c.frequent.Len
        omega
      · show ((c.recent.RemoveOldest.1.Len + c.frequent.Len : Nat) : Int) < c.size
        rw [len_eq] at hcap
        push_cast at hcap ⊢
        omega
    · rename_i hcond
      refine ⟨⟨h.recent_wf, BASELRU.wellFormed_RemoveOldest h.frequent_wf, h.ghost_wf,
        h.recent_size, (BASELRU.size_RemoveOldest _).trans h.frequent_size, h.size_pos⟩,
        rfl, rfl, ?_, fun hrs hcap => ?_⟩
      · show c.recent.Len + c.frequent.RemoveOldest.1.Len ≤ c.recent.Len + c.frequent.Len
        have := BASELRU.len_RemoveOldest_le c.frequent
        omega
      · rw [len_eq] at hcap
        push_cast at hcap
        have hpos : 0 < c.frequent.Len := by
          by_contra h0
          have h0' : c.frequent.Len = 0 := by omega
          rw [h0'] at hge hcap
          apply hcond
          have hsp := h.size_pos
          push_cast at hge
          constructor
          · omega
          · left; omega
        have hlen := BASELRU.len_RemoveOldest_of_pos c.frequent hpos
        show ((c.recent.Len + c.frequent.RemoveOldest.1.Len : Nat) : Int) < c.size
        push_cast
        omega

theorem AddWithExpire_keeps [Inhabited V] {c : TwoQueueCache V} (h : c.Inv) (key : String)
    (value : V) (d now : Int) : Keeps c (c.AddWithExpire key value d now) := by
  unfold AddWithExpire
  split
  · rename_i hf
    obtain ⟨e, he⟩ := BASELRU.lookup_of_Contains hf
    refine ⟨⟨h.recent_wf, BASELRU.wellFormed_AddWithExpire h.frequent_wf _ _ _ _, h.ghost_wf,
      h.recent_size, (BASELRU.size_AddWithExpire _ _ _ _ _).trans h.frequent_size, h.size_pos⟩,
      rfl, rfl, fun _ hcap => ?_⟩
    have : (c.frequent.AddWithExpire key value d now).1.Len = c.frequent.Len :=
      BASELRU.len_AddWithTimeout_present c.frequent key value _ e he
    show ((c.recent.Len + (c.frequent.AddWithExpire key value d now).1.Len : Nat) : Int) ≤ c.size
    rw [this]
    exact hcap
  · split
    · rename_i hr
      obtain ⟨e, he⟩ := BASELRU.lookup_of_Contains hr
      have hlen := BASELRU.len_Remove_present h.recent_wf key e he
      have hadd := BASELRU.len_AddWithExpire_le c.frequent key value d now
      refine ⟨⟨BASELRU.wellFormed_Remove h.recent_wf _,
        BASELRU.wellFormed_AddWithExpire h.frequent_wf _ _ _ _, h.ghost_wf,
        (BASELRU.size_Remove _ _).trans h.recent_size,
        (BASELRU.size_AddWithExpire _ _ _ _ _).trans h.frequent_size, h.size_pos⟩,
        rfl, rfl, fun _ hcap => ?_⟩
      show (((c.recent.Remove key).1.Len +
        (c.frequent.AddWithExpire key value d now).1.Len : Nat) : Int) ≤ c.size
      rw [len_eq] at hcap
      push_cast at hcap ⊢
      omega
    · obtain ⟨hi, hs, hrs, _, hlt⟩ := ensureSpace_effect h true now
      obtain ⟨hi', hs', hrs', _, hlt'⟩ := ensureSpace_effect h false now
      split
      · have hadd := BASELRU.len_AddWithExpire_le (c.ensureSpace true now).frequent key value d now
        refine ⟨⟨hi.recent_wf, BASELRU.wellFormed_AddWithExpire hi.frequent_wf _ _ _ _,
          BASELRU.wellFormed_Remove hi.ghost_wf _, hi.recent_size,
          (BASELRU.size_AddWithExpire _ _ _ _ _).trans hi.frequent_size, hi.size_pos⟩,
          hs, hrs, fun hrs' hcap => ?_⟩
        have := hlt hrs' hcap
        show (((c.ensureSpace true now).recent.Len +
          ((c.ensureSpace true now).frequent.AddWithExpire key value d now).1.Len : Nat) : Int) ≤
            (c.ensureSpace true now).size
        rw [len_eq] at this
        rw [hs]
        push_cast at this ⊢
        omega
      · have hadd := BASELRU.len_AddWithExpire_le (c.ensureSpace false now).recent key value d now
        refine ⟨⟨BASELRU.wellFormed_AddWithExpire hi'.recent_wf _ _ _ _, hi'.frequent_wf,
          hi'.ghost_wf, (BASELRU.size_AddWithExpire _ _ _ _ _).trans hi'.recent_size,
          hi'.frequent_size, hi'.size_pos⟩, hs', hrs', fun hrs'' hcap => ?_⟩
        have := hlt' hrs'' hcap
        show ((((c.ensureSpace false now).recent.AddWithExpire key value d now).1.Len +
          (c.ensureSpace false now).frequent.Len : Nat) : Int) ≤ (c.ensureSpace false now).size
        rw [len_eq] at this
        rw [hs']
        push_cast at this ⊢
        omega

theorem Get_keeps [Inhabited V] {c : TwoQueueCache V} (h : c.Inv) (key : String)
    (now : Int) : Keeps c (c.Get key now).1 := by
  unfold Get
  simp only
  split
  · refine ⟨⟨h.recent_wf, BASELRU.wellFormed_Get h.frequent_wf _ _, h.ghost_wf, h.recent_size,
      (BASELRU.size_Get _ _ _).trans h.frequent_size, h.size_pos⟩, rfl, rfl, fun _ hcap => ?_⟩
    show ((c.recent.Len + (c.frequent.Get key now).1.Len : Nat) : Int) ≤ c.size
    rw [BASELRU.len_Get]
    exact hcap
  · rename_i hmiss
    have hsame : (c.frequent.Get key now).1 = c.frequent :=
      BASELRU.state_of_Get_miss c.frequent key now (by simpa using hmiss)
    rw [hsame]
    split
    · rename_i hp
      obtain ⟨e, he⟩ := BASELRU.lookup_of_PeekWithExpire hp
      have hlen := BASELRU.len_Remove_present h.recent_wf key e he
      have hadd := BASELRU.len_AddWithTimeout_le c.frequent key
        (c.recent.PeekWithExpire key).1 (c.recent.PeekWithExpire key).2.2
      refine ⟨⟨BASELRU.wellFormed_Remove h.recent_wf _,
        BASELRU.wellFormed_AddWithTimeout h.frequent_wf _ _ _, h.ghost_wf,
        (BASELRU.size_Remove _ _).trans h.recent_size,
        (BASELRU.size_AddWithTimeout _ _ _ _).trans h.frequent_size, h.size_pos⟩,
        rfl, rfl, fun _ hcap => ?_⟩
      show (((c.recent.Remove key).1.Len + (c.frequent.AddWithTimeout key
        (c.recent.PeekWithExpire key).1 (c.recent.PeekWithExpire key).2.2).1.Len : Nat) : Int) ≤
          c.size
      rw [len_eq] at hcap
      push_cast at hcap ⊢
      omega
    · exact ⟨h, rfl, rfl, fun _ hcap => hcap⟩

theorem Remove_keeps {c : TwoQueueCache V} (h : c.Inv) (key : String) :
    Keeps c (c.Remove key) := by
  unfold Remove
  simp only
  have hf := BASELRU.len_Remove_le h.frequent_wf key
  have hr := BASELRU.len_Remove_le h.recent_wf key
  split
  · refine ⟨⟨h.recent_wf, BASELRU.wellFormed_Remove h.frequent_wf _, h.ghost_wf, h.recent_size,
      (BASELRU.size_Remove _ _).trans h.frequent_size, h.size_pos⟩, rfl, rfl, fun _ hcap => ?_⟩
    show ((c.recent.Len + (c.frequent.Remove key).1.Len : Nat) : Int) ≤ c.size
    rw [len_eq] at hcap
    push_cast at hcap ⊢
    omega
  · split
    · refine ⟨⟨BASELRU.wellFormed_Remove h.recent_wf _,
        BASELRU.wellFormed_Remove h.frequent_wf _, h.ghost_wf,
        (BASELRU.size_Remove _ _).trans h.recent_size,
        (BASELRU.size_Remove _ _).trans h.frequent_size, h.size_pos⟩,
        rfl, rfl, fun _ hcap => ?_⟩
      show (((c.recent.Remove key).1.Len + (c.frequent.Remove key).1.Len : Nat) : Int) ≤ c.size
      rw [len_eq] at hcap
      push_cast at hcap ⊢
      omega
    · refine ⟨⟨BASELRU.wellFormed_Remove h.recent_wf _,
        BASELRU.wellFormed_Remove h.frequent_wf _, BASELRU.wellFormed_Remove h.ghost_wf _,
        (BASELRU.size_Remove _ _).trans h.recent_size,
        (BASELRU.size_Remove _ _).trans h.frequent_size, h.size_pos⟩,
        rfl, rfl, fun _ hcap => ?_⟩
      show (((c.recent.Remove key).1.Len + (c.frequent.Remove key).1.Len : Nat) : Int) ≤ c.size
      rw [len_eq] at hcap
      push_cast at hcap ⊢
      omega

theorem Purge_keeps {c : TwoQueueCache V} (h : c.Inv) : Keeps c c.Purge := by
  have hsp := h.size_pos
  refine ⟨⟨BASELRU.wellFormed_Purge (by rw [h.recent_size]; omega),
    BASELRU.wellFormed_Purge (by rw [h.frequent_size]; omega),
    BASELRU.wellFormed_Purge ?_, h.recent_size, h.frequent_size, h.size_pos⟩,
    rfl, rfl, fun _ _ => ?_⟩
  · have := h.ghost_wf.len_le
    have h2 : (0 : Int) ≤ (c.recentEvict.Len : Int) := Int.natCast_nonneg _
    omega
  · show (((0 : Nat) + 0 : Nat) : Int) ≤ c.size
    simp only [Nat.add_zero, Nat.cast_zero]
    omega

theorem step_keeps [Inhabited V] {c : TwoQueueCache V} (h : c.Inv) (now : Int) (op : Op V) :
    Keeps c (c.step now op) := by
  cases op with
  | Add key value => exact AddWithExpire_keeps h key value _ now
  | AddWithExpire key value d => exact AddWithExpire_keeps h key value d now
  | Get key => exact Get_keeps h key now
  | Remove key => exact Remove_keeps h key
  | Purge => exact Purge_keeps h
  | Peek key => exact keeps_refl h
  | Contains key => exact keeps_refl h
  | Len => exact keeps_refl h
  | Keys => exact keeps_refl h

theorem run_keeps [Inhabited V] {c : TwoQueueCache V} (h : c.Inv) (ops : List (Int × Op V)) :
    Keeps c (c.run ops) := by
  induction ops generalizing c with
  | nil => exact keeps_refl h
  | cons a rest ih =>
    obtain ⟨now, op⟩ := a
    have hs := step_keeps h now op
    have hr := ih hs.inv
    refine ⟨hr.inv, hr.size.trans hs.size, hr.recentSize.trans hs.recentSize, fun hrs hcap => ?_⟩
    exact hr.cap (by rw [hs.recentSize, hs.size]; exact hrs) (hs.cap hrs hcap)

theorem inv_allocated [Inhabited V] (size recentSize evictSize d : Int) (hs : 0 < size)
    (he : 0 < evictSize) :
    ({ size := size
       recentSize := recentSize
       recent := BASELRU.fresh size false d
       frequent := BASELRU.fresh size false d
       recentEvict := BASELRU.fresh evictSize false d } : TwoQueueCache V).Inv :=
  ⟨BASELRU.wellFormed_fresh _ _ _ (le_of_lt hs), BASELRU.wellFormed_fresh _ _ _ (le_of_lt hs),
    BASELRU.wellFormed_fresh _ _ _ (le_of_lt he), rfl, rfl, hs⟩

/-- What `New2QParams` returns when it returns a cache. -/
theorem New2QParams_ok [Inhabited V] {size : Int} {recentRatio ghostRatio : ℚ} {d : Int}
    {c : TwoQueueCache V} (h : New2QParams size recentRatio ghostRatio d = .ok c) :
    0 < size ∧ 0 ≤ recentRatio ∧ recentRatio ≤ 1 ∧ 0 ≤ ghostRatio ∧ ghostRatio ≤ 1 ∧
    0 < toInt ((size : ℚ) * ghostRatio) ∧
    c = { size := size
          recentSize := toInt ((size : ℚ) * recentRatio)
          recent := BASELRU.fresh size false d
          frequent := BASELRU.fresh size false d
          recentEvict := BASELRU.fresh (toInt ((size : ℚ) * ghostRatio)) false d } := by
  unfold New2QParams at h
  split at h
  · cases h
  · rename_i hs
    split at h
    · cases h
    · rename_i hr
      split at h
      · cases h
      · rename_i hg
        have hs' : 0 < size := by omega
        by_cases he : 0 < toInt ((size : ℚ) * ghostRatio)
        · rw [allocate_ok size _ _ d hs' he] at h
          injection h with h
          refine ⟨hs', ?_, ?_, ?_, ?_, he, h.symm⟩
          · exact not_lt.1 (fun hh => hr (Or.inl hh))
          · exact not_lt.1 (fun hh => hr (Or.inr hh))
          · exact not_lt.1 (fun hh => hg (Or.inl hh))
          · exact not_lt.1 (fun hh => hg (Or.inr hh))
        · rw [allocate_error size _ _ d hs' (by omega)] at h
          cases h

theorem toInt_quarter_lt (size : Int) (hs : 0 < size) :
    toInt ((size : ℚ) * Default2QRecentRatio) < size := by
  unfold toInt Default2QRecentRatio
  have hq : (0 : ℚ) < size := by exact_mod_cast hs
  rw [if_pos (by positivity), Int.floor_lt]
  linarith

/-- When `New2QParams` fails: on a parameter outside its range, and also when
the ghost list would get capacity 0. -/
theorem New2QParams_error_iff [Inhabited V] (size : Int) (recentRatio ghostRatio : ℚ)
    (d : Int) :
    (∃ msg, (New2QParams size recentRatio ghostRatio d : Except String (TwoQueueCache V)) =
        .error msg) ↔
      size ≤ 0 ∨ recentRatio < 0 ∨ 1 < recentRatio ∨ ghostRatio < 0 ∨ 1 < ghostRatio ∨
        toInt ((size : ℚ) * ghostRatio) ≤ 0 := by
  unfold New2QParams
  by_cases hs : size ≤ 0
  · simp [hs]
  · by_cases hr : recentRatio < 0 ∨ recentRatio > 1
    · rw [if_neg hs, if_pos hr]
      rcases hr with hr | hr
      · simp [hr]
      · simp [hr]
    · by_cases hg : ghostRatio < 0 ∨ ghostRatio > 1
      · rw [if_neg hs, if_neg hr, if_pos hg]
        rcases hg with hg | hg
        · simp [hg]
        · simp [hg]
      · rw [if_neg hs, if_neg hr, if_neg hg]
        push_neg at hr hg
        by_cases he : 0 < toInt ((size : ℚ) * ghostRatio)
        · rw [allocate_ok size _ _ d (by omega) he]
          constructor
          · rintro ⟨msg, hm⟩
            cases hm
          · rintro (h | h | h | h | h | h)
            · exact absurd h hs
            · exact absurd h (not_lt.2 hr.1)
            · exact absurd h (not_lt.2 hr.2)
            · exact absurd h (not_lt.2 hg.1)
            · exact absurd h (not_lt.2 hg.2)
            · omega
        · rw [allocate_error size _ _ d (by omega) (by omega)]
          exact ⟨fun _ => Or.inr (Or.inr (Or.inr (Or.inr (Or.inr (by omega))))), fun _ => ⟨_, rfl⟩⟩

/-- C16 (failing input): `New2QParams` returns an error for parameters that
pass its validation. With size 1 and the default ratios, and with size 128 and
ghost ratio 0, the ghost list gets capacity `int(size * ghostRatio) = 0` and
the error of `NewBaseLRU`, "Must provide a positive size", is returned. -/
theorem New2QParams_rejects_valid_parameters :
    (New2Q 1 NoExpiration : Except String (TwoQueueCache Nat)) =
      .error "Must provide a positive size" ∧
    (New2QParams 1 (1 / 4) (1 / 2) NoExpiration : Except String (TwoQueueCache Nat)) =
      .error "Must provide a positive size" ∧
    (New2QParams 128 (1 / 4) 0 NoExpiration : Except String (TwoQueueCache Nat)) =
      .error "Must provide a positive size" := by
  refine ⟨?_, ?_, ?_⟩
  · unfold New2Q New2QParams Default2QRecentRatio Default2QGhostEntries toInt
    norm_num
    exact allocate_error 1 _ _ _ (by decide) (by norm_num)
  · unfold New2QParams toInt
    norm_num
    exact allocate_error 1 _ _ _ (by decide) (by norm_num)
  · unfold New2QParams toInt
    norm_num
    exact allocate_error 128 _ _ _ (by decide) (by norm_num)

/-- C17 (failing input): with `recentRatio = 1` the cache outgrows its size.
`New2QParams(2, 1.0, 0.5, NoExpiration)` succeeds; after `Add` of `"a"`, `"b"`,
`"c"` the key `"a"` is a ghost and `recent` holds two entries; `Add("a")` then
calls `ensureSpace(true)`, which evicts nothing (`recent` is exactly at its
target and `frequent` is empty), and puts `"a"` into `frequent`: three live
entries in a cache of size 2. -/
theorem capacity_exceeded_with_recentRatio_one :
    ∃ c : TwoQueueCache Nat, New2QParams 2 1 (1 / 2) NoExpiration = .ok c ∧
      (c.run (ghostHitOps.take 3)).recentEvict.keyList = ["a"] ∧
      (c.run (ghostHitOps.take 3)).Len = 2 ∧
      (c.run ghostHitOps).recent.Len = 2 ∧ (c.run ghostHitOps).frequent.Len = 1 ∧
      (c.run ghostHitOps).Len = 3 ∧ (c.run ghostHitOps).size = 2 :=
  ⟨sampleAllRecent, New2QParams_sampleAllRecent, by decide, by decide, by decide, by decide,
    by decide, by decide⟩

/-- The capacity invariant for every cache built with a recent ratio below 1. -/
theorem capacity_of_ratio_lt_one [Inhabited V] {size : Int} {recentRatio ghostRatio : ℚ}
    {d : Int} {c : TwoQueueCache V} (h : New2QParams size recentRatio ghostRatio d = .ok c)
    (hr : recentRatio < 1) (ops : List (Int × Op V)) :
    ((c.run ops).Len : Int) ≤ size := by
  obtain ⟨hs, hr0, _, _, _, he, hc⟩ := New2QParams_ok h
  have hinv : c.Inv := by
    rw [hc]
    exact inv_allocated size _ _ d hs he
  have hk := run_keeps hinv ops
  have hsize : c.size = size := by rw [hc]
  have hrs : c.recentSize < c.size := by
    rw [hc]
    show toInt ((size : ℚ) * recentRatio) < size
    unfold toInt
    have hq : (0 : ℚ) < size := by exact_mod_cast hs
    rw [if_pos (mul_nonneg (le_of_lt hq) hr0), Int.floor_lt]
    nlinarith
  have hcap : (c.Len : Int) ≤ c.size := by
    rw [hc]
    show (((0 : Nat) + 0 : Nat) : Int) ≤ size
    simp only [Nat.add_zero, Nat.cast_zero]
    omega
  have := hk.cap hrs hcap
  rw [hk.size, hsize] at this
  exact this

/-- C18: for every cache `New2Q(size, d)` returns and every sequence of `Add`,
`AddWithExpire`, `Get`, `Remove`, `Purge` (and the reading operations) at
arbitrary clock readings, `Len() = recent.Len() + frequent.Len()` does not
exceed `size`. -/
theorem capacity_invariant_default [Inhabited V] (size d : Int) (c : TwoQueueCache V)
    (ops : List (Int × Op V)) (hnew : New2Q size d = .ok c) :
    (c.run ops).Len = (c.run ops).recent.Len + (c.run ops).frequent.Len ∧
    ((c.run ops).Len : Int) ≤ size := by
  refine ⟨rfl, capacity_of_ratio_lt_one hnew ?_ ops⟩
  unfold Default2QRecentRatio
  norm_num

theorem capacity_invariant_default_witness :
    (sample.run ghostHitOps).Len =
      (sample.run ghostHitOps).recent.Len + (sample.run ghostHitOps).frequent.Len ∧
    ((sample.run ghostHitOps).Len : Int) ≤ 2 :=
  capacity_invariant_default 2 NoExpiration sample ghostHitOps New2Q_sample

/-- C19 (failing input): a key held in both `recent` and `frequent`. On the
cache `New2Q(2, NoExpiration)` returns, `"a"` is added with a lifetime of 10
at clock 0 and moved to `frequent` by a `Get` at clock 1; `AddWithExpire("a")`
at clock 20 finds `frequent.Contains("a")` false, because the entry is
expired, and inserts `"a"` into `recent` while the old entry stays in
`frequent`. `Keys()` then lists `"a"` twice. -/
theorem key_in_recent_and_frequent :
    ∃ c : TwoQueueCache Nat, New2Q 2 NoExpiration = .ok c ∧
      (c.run expiredReaddOps).frequent.PeekWithExpire "a" = (1, true, 10) ∧
      (c.run expiredReaddOps).recent.PeekWithExpire "a" = (2, true, 30) ∧
      (c.run expiredReaddOps).Keys = some ["a", "a"] :=
  ⟨sample, New2Q_sample, by decide, by decide, by decide⟩

theorem Get_miss_result [Inhabited V] (c : BASELRU V) (key : String) (now : Int)
    (h : (c.Get key now).2.2 = false) : c.Get key now = (c, (default, false)) := by
  cases hl : c.items.lookup key with
  | none => rw [BASELRU.Get_absent c key now hl]
  | some e =>
    rw [BASELRU.Get_present c key now e hl] at h ⊢
    split
    · rfl
    · rename_i hne
      rw [if_neg hne] at h
      cases h

/-- `Get` on a key that `recent` does not hold is answered by `frequent`. -/
theorem Get_of_recent_absent [Inhabited V] (c : TwoQueueCache V) (key : String) (now : Int)
    (h : c.recent.items.lookup key = none) :
    c.Get key now = ({ c with frequent := (c.frequent.Get key now).1 },
      (c.frequent.Get key now).2) := by
  unfold Get
  simp only
  split
  · rfl
  · rename_i hmiss
    have hm : (c.frequent.Get key now).2.2 = false := by simpa using hmiss
    have hp : c.recent.PeekWithExpire key = (default, false, 0) := by
      unfold BASELRU.PeekWithExpire
      rw [h]
    rw [hp, Get_miss_result c.frequent key now hm]
    rfl

/-- `Get` on a key that `frequent` does not hold and `recent` does: the entry
moves from `recent` to `frequent` with its value and deadline. -/
theorem Get_promote [Inhabited V] (c : TwoQueueCache V) (key : String) (now : Int) (v : V)
    (e : Int) (hf : c.frequent.items.lookup key = none)
    (hr : c.recent.PeekWithExpire key = (v, true, e)) :
    c.Get key now = ({ c with recent := (c.recent.Remove key).1
                              frequent := (c.frequent.AddWithTimeout key v e).1 }, (v, true)) := by
  unfold Get
  simp only
  rw [BASELRU.Get_absent c.frequent key now hf, hr]
  rfl

/-- C20: promotion by `Get` keeps the deadline. In a state reached from a cache
`New2QParams` returned, for a key that `frequent` does not hold and `recent`
holds with value `v` and deadline `e`: `Get` returns `(v, true)`; afterwards
`recent` no longer holds the key and the front entry of `frequent` is
`(key, v, e)`, the deadline being the one `recent` stored. A later `Get` of
the key is answered by `frequent` alone (`recent` is left as it is): `(v, true)`
unless `e > 0` and the clock has passed `e`. -/
theorem Get_promotion_keeps_deadline [Inhabited V] (size : Int) (recentRatio ghostRatio : ℚ)
    (d : Int) (c₀ : TwoQueueCache V) (ops : List (Int × Op V)) (key : String) (v : V)
    (e now later : Int)
    (hnew : New2QParams size recentRatio ghostRatio d = .ok c₀)
    (hfreq : (c₀.run ops).frequent.items.lookup key = none)
    (hrec : (c₀.run ops).recent.PeekWithExpire key = (v, true, e)) :
    ((c₀.run ops).Get key now).2 = (v, true) ∧
    ((c₀.run ops).Get key now).1.recent.items.lookup key = none ∧
    ((c₀.run ops).Get key now).1.recent.Peek key = (default, false) ∧
    ((c₀.run ops).Get key now).1.frequent.entries.head? = some ⟨key, v, e⟩ ∧
    ((c₀.run ops).Get key now).1.frequent.PeekWithExpire key = (v, true, e) ∧
    (((c₀.run ops).Get key now).1.Get key later).2 =
      (((c₀.run ops).Get key now).1.frequent.Get key later).2 ∧
    (((c₀.run ops).Get key now).1.Get key later).1.recent =
      ((c₀.run ops).Get key now).1.recent ∧
    (((c₀.run ops).Get key now).1.Get key later).2 =
      (if e > 0 ∧ later > e then (default, false) else (v, true)) := by
  obtain ⟨hs, _, _, _, _, he, hc⟩ := New2QParams_ok hnew
  have hinv₀ : c₀.Inv := by
    rw [hc]
    exact inv_allocated size _ _ d hs he
  have hinv := (run_keeps hinv₀ ops).inv
  generalize c₀.run ops = c at hfreq hrec hinv
  rw [Get_promote c key now v e hfreq hrec]
  have hfw := hinv.frequent_wf
  have hfpos : 0 < c.frequent.size := by rw [hinv.frequent_size]; exact hinv.size_pos
  have hrabs : (c.recent.Remove key).1.items.lookup key = none :=
    (BASELRU.Remove_effect hinv.recent_wf key).2.1
  have hent := BASELRU.entries_AddWithTimeout_absent hfw hfpos key v e hfreq
  have hfw' := BASELRU.wellFormed_AddWithTimeout hfw key v e
  have hmem : (⟨key, v, e⟩ : entry V) ∈ (c.frequent.AddWithTimeout key v e).1.entries := by
    rw [hent]
    exact List.mem_cons_self _ _
  obtain ⟨p, hlk, hheap⟩ := hfw'.lookup_of_mem hmem
  have hlk' : (c.frequent.AddWithTimeout key v e).1.items.lookup key = some p := hlk
  have hlater := Get_of_recent_absent
    ({ c with recent := (c.recent.Remove key).1
              frequent := (c.frequent.AddWithTimeout key v e).1 } : TwoQueueCache V)
    key later hrabs
  refine ⟨rfl, hrabs, BASELRU.Peek_absent _ key hrabs, ?_, ?_, ?_, ?_, ?_⟩
  · show (c.frequent.AddWithTimeout key v e).1.entries.head? = _
    rw [hent]
    rfl
  · show (c.frequent.AddWithTimeout key v e).1.PeekWithExpire key = _
    rw [BASELRU.PeekWithExpire_of_lookup _ key p hlk', hheap]
  · rw [hlater]
  · rw [hlater]
  · rw [hlater]
    show ((c.frequent.AddWithTimeout key v e).1.Get key later).2 = _
    rw [BASELRU.Get_present _ key later p hlk', hheap]
    show (if e > 0 ∧ later > e then _ else _ : BASELRU V × (V × Bool)).2 = _
    split <;> rfl

theorem Get_promotion_keeps_deadline_witness :
    ((sample.run sampleRecentOps).Get "a" 5).2 = (1, true) ∧
    ((sample.run sampleRecentOps).Get "a" 5).1.recent.items.lookup "a" = none ∧
    ((sample.run sampleRecentOps).Get "a" 5).1.recent.Peek "a" = (default, false) ∧
    ((sample.run sampleRecentOps).Get "a" 5).1.frequent.entries.head? = some ⟨"a", 1, 10⟩ ∧
    ((sample.run sampleRecentOps).Get "a" 5).1.frequent.PeekWithExpire "a" = (1, true, 10) ∧
    (((sample.run sampleRecentOps).Get "a" 5).1.Get "a" 20).2 =
      (((sample.run sampleRecentOps).Get "a" 5).1.frequent.Get "a" 20).2 ∧
    (((sample.run sampleRecentOps).Get "a" 5).1.Get "a" 20).1.recent =
      ((sample.run sampleRecentOps).Get "a" 5).1.recent ∧
    (((sample.run sampleRecentOps).Get "a" 5).1.Get "a" 20).2 =
      (if (10 : Int) > 0 ∧ (20 : Int) > 10 then (default, false) else (1, true)) :=
  Get_promotion_keeps_deadline 2 Default2QRecentRatio Default2QGhostEntries NoExpiration
    sample sampleRecentOps "a" 1 10 5 20 New2Q_sample (by decide) (by decide)

/-- C21 (failing input): the first `Get` after the deadline is a hit. On the
cache `New2Q(2, NoExpiration)` returns, `"a"` is added with a lifetime of 10 at
clock 0 and lands in `recent` with deadline 10. `Get("a")` at clock 20 misses
in `frequent`, finds the key in `recent` with `PeekWithExpire`, which does not
look at the deadline, promotes it and returns `(1, true)`. Only the next `Get`,
answered by `frequent`, is a miss. -/
theorem first_Get_after_deadline_hits :
    ∃ c : TwoQueueCache Nat, New2Q 2 NoExpiration = .ok c ∧
      (c.AddWithExpire "a" 1 10 0).recent.PeekWithExpire "a" = (1, true, 10) ∧
      (c.AddWithExpire "a" 1 10 0).recent.Contains "a" 20 = false ∧
      ((c.AddWithExpire "a" 1 10 0).Get "a" 20).2 = (1, true) ∧
      (((c.AddWithExpire "a" 1 10 0).Get "a" 20).1.Get "a" 20).2 = (default, false) :=
  ⟨sample, New2Q_sample, by decide, by decide, by decide, by decide⟩

/-- C25 (failing input): a key that is still found after `Remove`. After the
operations of `expiredReaddOps` the key `"a"` is held in `frequent` (expired)
and in `recent`. `Remove("a")` at clock 20 removes the entry of `frequent` and
returns; the entry of `recent` stays, so `Contains("a")` is true and
`Get("a")` returns `(2, true)`. -/
theorem key_found_after_Remove :
    ∃ c : TwoQueueCache Nat, New2Q 2 NoExpiration = .ok c ∧
      ((c.run expiredReaddOps).Remove "a").frequent.Peek "a" = (default, false) ∧
      ((c.run expiredReaddOps).Remove "a").recent.PeekWithExpire "a" = (2, true, 30) ∧
      ((c.run expiredReaddOps).Remove "a").Contains "a" 20 = true ∧
      (((c.run expiredReaddOps).Remove "a").Get "a" 20).2 = (2, true) :=
  ⟨sample, New2Q_sample, by decide, by decide, by decide, by decide⟩

end TwoQueueCache

namespace BASELRU

variable {V : Type}

theorem mem_keyList_iff {c : BASELRU V} (hl : c.Linked) (k : String) :
    k ∈ c.keyList ↔ ∃ e, c.items.lookup k = some e := by
  constructor
  · intro h
    cases hlk : c.items.lookup k with
    | none => exact absurd h ((hl.lookup_eq_none k).1 hlk)
    | some e => exact ⟨e, rfl⟩
  · rintro ⟨e, he⟩
    by_contra hn
    rw [← hl.lookup_eq_none k, he] at hn
    cases hn

/-- Every entry of the list after `AddWithTimeout` is the added entry, the
updated entry of the same key (old deadline), or an entry that was there. -/
theorem mem_entries_AddWithTimeout {c : BASELRU V} (hw : c.WellFormed) (key : String)
    (value : V) (ts : Int) {x : entry V} (hx : x ∈ (c.AddWithTimeout key value ts).1.entries) :
    (x.key = key ∧ (x.Expiration = ts ∨ ∃ y ∈ c.entries, y.Expiration = x.Expiration)) ∨
      x ∈ c.entries := by
  cases h : c.items.lookup key with
  | some e =>
    rw [entries_AddWithTimeout_present hw key value ts e h] at hx
    rcases List.mem_cons.1 hx with rfl | hx
    · exact Or.inl ⟨rfl, Or.inr ⟨c.heap e, (hw.mem_entries h).1, rfl⟩⟩
    · exact Or.inr (List.mem_of_mem_filter hx)
  | none =>
    rw [AddWithTimeout_absent c key value ts h] at hx
    have hp := linked_pushed hw.toLinked key value ts h
    have hx' : x ∈ (⟨key, value, ts⟩ : entry V) :: c.entries := by
      split at hx
      · have hx2 : x ∈ (c.pushed key value ts).removeOldest.entries := hx
        rw [entries_removeOldest hp, entries_pushed] at hx2
        exact List.mem_of_mem_dropLast hx2
      · have hx2 : x ∈ (c.pushed key value ts).entries := hx
        rw [entries_pushed] at hx2
        exact hx2
    rcases List.mem_cons.1 hx' with rfl | hx'
    · exact Or.inl ⟨rfl, Or.inl rfl⟩
    · exact Or.inr hx'

theorem mem_keyList_AddWithTimeout {c : BASELRU V} (hw : c.WellFormed) (key : String)
    (value : V) (ts : Int) {k : String} (hk : k ∈ (c.AddWithTimeout key value ts).1.keyList) :
    k = key ∨ k ∈ c.keyList := by
  rcases List.mem_map.1 hk with ⟨x, hx, rfl⟩
  rcases mem_entries_AddWithTimeout hw key value ts hx with h | h
  · exact Or.inl h.1
  · exact Or.inr (List.mem_map.2 ⟨x, h, rfl⟩)

theorem noDeadline_AddWithTimeout {c : BASELRU V} (hw : c.WellFormed) (hn : c.NoDeadline)
    (key : String) (value : V) : (c.AddWithTimeout key value 0).1.NoDeadline := by
  intro x hx
  rcases mem_entries_AddWithTimeout hw key value 0 hx with ⟨_, h | ⟨y, hy, hxy⟩⟩ | h
  · exact h
  · rw [← hxy]; exact hn y hy
  · exact hn x h

theorem Add_eq_AddWithExpire (c : BASELRU V) (key : String) (value : V) (now : Int) :
    c.AddWithExpire key value NoExpiration now = c.AddWithTimeout key value 0 :=
  Add_eq c key value now

theorem mem_entries_Remove {c : BASELRU V} (hw : c.WellFormed) (key : String) {x : entry V}
    (hx : x ∈ (c.Remove key).1.entries) : x ∈ c.entries ∧ x.key ≠ key := by
  rw [(Remove_effect hw key).1, List.mem_filter] at hx
  exact ⟨hx.1, by simpa using hx.2⟩

theorem mem_keyList_Remove {c : BASELRU V} (hw : c.WellFormed) (key : String) {k : String}
    (hk : k ∈ (c.Remove key).1.keyList) : k ∈ c.keyList ∧ k ≠ key := by
  rcases List.mem_map.1 hk with ⟨x, hx, rfl⟩
  have := mem_entries_Remove hw key hx
  exact ⟨List.mem_map.2 ⟨x, this.1, rfl⟩, this.2⟩

theorem noDeadline_Remove {c : BASELRU V} (hw : c.WellFormed) (hn : c.NoDeadline)
    (key : String) : (c.Remove key).1.NoDeadline :=
  fun x hx => hn x (mem_entries_Remove hw key hx).1

/-- `RemoveOldest` on a list that is not empty: the key returned was in the
list and is gone; the other entries stay. -/
theorem RemoveOldest_effect [Inhabited V] {c : BASELRU V} (hw : c.WellFormed)
    (hpos : 0 < c.Len) :
    c.RemoveOldest.2.1 ∈ c.keyList ∧
    (∀ x ∈ c.RemoveOldest.1.entries, x ∈ c.entries ∧ x.key ≠ c.RemoveOldest.2.1) := by
  unfold RemoveOldest
  cases hg : c.evictList.getLast? with
  | none =>
    rw [List.getLast?_eq_none_iff] at hg
    unfold Len at hpos
    rw [hg] at hpos
    cases hpos
  | some e =>
    have he : e ∈ c.evictList := List.mem_of_getLast?_eq_some hg
    refine ⟨List.mem_map.2 ⟨c.heap e, List.mem_map.2 ⟨e, he, rfl⟩, rfl⟩, ?_⟩
    intro x hx
    have hx' : x ∈ (c.removeElement e).entries := hx
    rw [entries_removeElement hw.toLinked he, List.mem_filter] at hx'
    exact ⟨hx'.1, by simpa using hx'.2⟩

theorem mem_entries_RemoveOldest [Inhabited V] {c : BASELRU V} (hw : c.WellFormed)
    {x : entry V} (hx : x ∈ c.RemoveOldest.1.entries) : x ∈ c.entries := by
  by_cases hpos : 0 < c.Len
  · exact ((RemoveOldest_effect hw hpos).2 x hx).1
  · have h0 : c.evictList = [] := by
      unfold Len at hpos
      exact List.length_eq_zero.1 (by omega)
    unfold RemoveOldest at hx
    rw [h0] at hx
    exact hx

theorem noDeadline_RemoveOldest [Inhabited V] {c : BASELRU V} (hw : c.WellFormed)
    (hn : c.NoDeadline) : c.RemoveOldest.1.NoDeadline :=
  fun x hx => hn x (mem_entries_RemoveOldest hw hx)

theorem entries_perm_Get [Inhabited V] (c : BASELRU V) (key : String) (now : Int) :
    (c.Get key now).1.entries.Perm c.entries := by
  cases h : c.items.lookup key with
  | none => rw [Get_absent c key now h]
  | some e =>
    rw [Get_present c key now e h]
    split
    · exact List.Perm.refl _
    · exact (moveToFront_perm c.evictList e).map _

theorem noDeadline_Get [Inhabited V] {c : BASELRU V} (hn : c.NoDeadline) (key : String)
    (now : Int) : (c.Get key now).1.NoDeadline :=
  fun x hx => hn x ((entries_perm_Get c key now).mem_iff.1 hx)

theorem noDeadline_Purge (c : BASELRU V) : c.Purge.NoDeadline := by
  intro x hx
  cases hx

theorem noDeadline_fresh [Inhabited V] (size : Int) (onEvict : Bool) (d : Int) :
    (fresh size onEvict d : BASELRU V).NoDeadline := by
  intro x hx
  cases hx

/-- Without deadlines `Contains` is membership in the list. -/
theorem Contains_iff_of_noDeadline {c : BASELRU V} (hw : c.WellFormed) (hn : c.NoDeadline)
    (key : String) (now : Int) : c.Contains key now = true ↔ key ∈ c.keyList := by
  rw [mem_keyList_iff hw.toLinked]
  unfold Contains
  cases h : c.items.lookup key with
  | none => simp
  | some e =>
    have h0 : (c.heap e).Expiration = 0 := hn _ (hw.mem_entries h).1
    simp [entry.Expired, h0]

theorem PeekWithExpire_of_noDeadline [Inhabited V] {c : BASELRU V} (hw : c.WellFormed)
    (hn : c.NoDeadline) (key : String) : (c.PeekWithExpire key).2.2 = 0 := by
  unfold PeekWithExpire
  cases h : c.items.lookup key with
  | none => rfl
  | some e => exact hn _ (hw.mem_entries h).1

end BASELRU

namespace TwoQueueCache

variable {V : Type}

theorem AddWithExpire_of_frequent [Inhabited V] (c : TwoQueueCache V) (key : String) (value : V)
    (d now : Int) (hf : c.frequent.Contains key now = true) :
    c.AddWithExpire key value d now =
      { c with frequent := (c.frequent.AddWithExpire key value d now).1 } := by
  unfold AddWithExpire
  rw [if_pos hf]

theorem AddWithExpire_of_recent [Inhabited V] (c : TwoQueueCache V) (key : String) (value : V)
    (d now : Int) (hf : c.frequent.Contains key now = false)
    (hr : c.recent.Contains key now = true) :
    c.AddWithExpire key value d now =
      { c with recent := (c.recent.Remove key).1
               frequent := (c.frequent.AddWithExpire key value d now).1 } := by
  unfold AddWithExpire
  rw [if_neg (by simp [hf]), if_pos hr]

theorem AddWithExpire_of_ghost [Inhabited V] (c : TwoQueueCache V) (key : String) (value : V)
    (d now : Int) (hf : c.frequent.Contains key now = false)
    (hr : c.recent.Contains key now = false) (hg : c.recentEvict.Contains key now = true) :
    c.AddWithExpire key value d now =
      { c.ensureSpace true now with
        recentEvict := ((c.ensureSpace true now).recentEvict.Remove key).1
        frequent := ((c.ensureSpace true now).frequent.AddWithExpire key value d now).1 } := by
  unfold AddWithExpire
  rw [if_neg (by simp [hf]), if_neg (by simp [hr]), if_pos hg]

theorem AddWithExpire_of_fresh [Inhabited V] (c : TwoQueueCache V) (key : String) (value : V)
    (d now : Int) (hf : c.frequent.Contains key now = false)
    (hr : c.recent.Contains key now = false) (hg : c.recentEvict.Contains key now = false) :
    c.AddWithExpire key value d now =
      { c.ensureSpace false now with
        recent := ((c.ensureSpace false now).recent.AddWithExpire key value d now).1 } := by
  unfold AddWithExpire
  rw [if_neg (by simp [hf]), if_neg (by simp [hr]), if_neg (by simp [hg])]

/-- The three outcomes of `ensureSpace`. -/
theorem ensureSpace_cases [Inhabited V] (c : TwoQueueCache V) (ghost : Bool) (now : Int) :
    ((c.Len : Int) < c.size ∧ c.ensureSpace ghost now = c) ∨
    (c.size ≤ (c.Len : Int) ∧ 0 < c.recent.Len ∧
      ((c.recent.Len : Int) > c.recentSize ∨
        ((c.recent.Len : Int) = c.recentSize ∧ ghost = false)) ∧
      c.ensureSpace ghost now =
        { c with recent := c.recent.RemoveOldest.1
                 recentEvict := (c.recentEvict.Add c.recent.RemoveOldest.2.1 default now).1 }) ∨
    (c.size ≤ (c.Len : Int) ∧
      ¬ ((c.recent.Len : Int) > 0 ∧ ((c.recent.Len : Int) > c.recentSize ∨
        ((c.recent.Len : Int) = c.recentSize ∧ ghost = false))) ∧
      c.ensureSpace ghost now = { c with frequent := c.frequent.RemoveOldest.1 }) := by
  unfold ensureSpace
  simp only
  by_cases h1 : (c.recent.Len : Int) + c.frequent.Len < c.size
  · left
    rw [if_pos h1]
    refine ⟨?_, rfl⟩
    rw [len_eq]
    push_cast
    exact h1
  · have hle : c.size ≤ (c.Len : Int) := by
      rw [len_eq]
      push_cast
      omega
    rw [if_neg h1]
    by_cases h2 : (c.recent.Len : Int) > 0 ∧ ((c.recent.Len : Int) > c.recentSize ∨
        ((c.recent.Len : Int) = c.recentSize ∧ ghost = false))
    · right; left
      rw [if_pos h2]
      exact ⟨hle, by omega, h2.2, rfl⟩
    · right; right
      rw [if_neg h2]
      exact ⟨hle, h2, rfl⟩

/-- What `ensureSpace` does to the contents: `recent` and `frequent` only lose
entries; a key new in the ghost list comes from `recent`, which lost it. -/
theorem ensureSpace_contents [Inhabited V] {c : TwoQueueCache V} (h : c.Inv) (ghost : Bool)
    (now : Int) :
    (∀ x ∈ (c.ensureSpace ghost now).recent.entries, x ∈ c.recent.entries) ∧
    (∀ x ∈ (c.ensureSpace ghost now).frequent.entries, x ∈ c.frequent.entries) ∧
    (∀ k ∈ (c.ensureSpace ghost now).recentEvict.keyList,
      k ∈ c.recentEvict.keyList ∨
        (k ∈ c.recent.keyList ∧ k ∉ (c.ensureSpace ghost now).recent.keyList)) ∧
    (c.recentEvict.NoDeadline → (c.ensureSpace ghost now).recentEvict.NoDeadline) := by
  rcases ensureSpace_cases c ghost now with ⟨_, he⟩ | ⟨_, hpos, _, he⟩ | ⟨_, _, he⟩
  · rw [he]
    exact ⟨fun _ hx => hx, fun _ hx => hx, fun _ hk => Or.inl hk, fun hn => hn⟩
  · rw [he]
    have heff := BASELRU.RemoveOldest_effect h.recent_wf hpos
    refine ⟨fun x hx => (heff.2 x hx).1, fun _ hx => hx, ?_, ?_⟩
    · intro k hk
      have hk' : k ∈ (c.recentEvict.AddWithTimeout c.recent.RemoveOldest.2.1 default 0).1.keyList := by
        have := hk
        rw [show (c.recentEvict.Add c.recent.RemoveOldest.2.1 default now) =
          c.recentEvict.AddWithTimeout c.recent.RemoveOldest.2.1 default 0 from
          BASELRU.Add_eq _ _ _ _] at this
        exact this
      rcases BASELRU.mem_keyList_AddWithTimeout h.ghost_wf _ _ _ hk' with hk2 | hk2
      · right
        rw [hk2]
        refine ⟨heff.1, ?_⟩
        intro hm
        rcases List.mem_map.1 hm with ⟨x, hx, hxk⟩
        exact (heff.2 x hx).2 hxk
      · exact Or.inl hk2
    · intro hn
      show (c.recentEvict.Add c.recent.RemoveOldest.2.1 default now).1.NoDeadline
      rw [BASELRU.Add_eq]
      exact BASELRU.noDeadline_AddWithTimeout h.ghost_wf hn _ _
  · rw [he]
    exact ⟨fun _ hx => hx, fun x hx => BASELRU.mem_entries_RemoveOldest h.frequent_wf hx,
      fun _ hk => Or.inl hk, fun hn => hn⟩

theorem recentEvict_Get [Inhabited V] (c : TwoQueueCache V) (key : String) (now : Int) :
    (c.Get key now).1.recentEvict = c.recentEvict := by
  unfold Get
  simp only
  split
  · rfl
  · split <;> rfl

/-- Ghost entries never carry a deadline. -/
theorem ghost_noDeadline_step [Inhabited V] {c : TwoQueueCache V} (h : c.Inv)
    (hn : c.recentEvict.NoDeadline) (now : Int) (op : Op V) :
    (c.step now op).recentEvict.NoDeadline := by
  have hadd : ∀ key value d, (c.AddWithExpire key value d now).recentEvict.NoDeadline := by
    intro key value d
    unfold AddWithExpire
    split
    · exact hn
    · split
      · exact hn
      · have hes := ensureSpace_effect h true now
        split
        · exact BASELRU.noDeadline_Remove hes.1.ghost_wf
            ((ensureSpace_contents h true now).2.2.2 hn) key
        · exact (ensureSpace_contents h false now).2.2.2 hn
  cases op with
  | Add key value => exact hadd key value _
  | AddWithExpire key value d => exact hadd key value d
  | Get key =>
    show (c.Get key now).1.recentEvict.NoDeadline
    rw [recentEvict_Get]
    exact hn
  | Remove key =>
    show (c.Remove key).recentEvict.NoDeadline
    unfold Remove
    simp only
    split
    · exact hn
    · split
      · exact hn
      · exact BASELRU.noDeadline_Remove h.ghost_wf hn key
  | Purge => exact BASELRU.noDeadline_Purge _
  | Peek key => exact hn
  | Contains key => exact hn
  | Len => exact hn
  | Keys => exact hn

theorem ghost_noDeadline_run [Inhabited V] {c : TwoQueueCache V} (h : c.Inv)
    (hn : c.recentEvict.NoDeadline) (ops : List (Int × Op V)) :
    (c.run ops).recentEvict.NoDeadline := by
  induction ops generalizing c with
  | nil => exact hn
  | cons a rest ih =>
    obtain ⟨now, op⟩ := a
    exact ih (step_keeps h now op).inv (ghost_noDeadline_step h hn now op)

/-- A state reached from a cache `New2QParams` returned: its structure, and
ghost entries without deadline. -/
theorem reachable_facts [Inhabited V] {size : Int} {recentRatio ghostRatio : ℚ} {d : Int}
    {c₀ : TwoQueueCache V} (hnew : New2QParams size recentRatio ghostRatio d = .ok c₀)
    (ops : List (Int × Op V)) :
    (c₀.run ops).Inv ∧ (c₀.run ops).recentEvict.NoDeadline ∧ (c₀.run ops).size = size := by
  obtain ⟨hs, _, _, _, _, he, hc⟩ := New2QParams_ok hnew
  have hinv₀ : c₀.Inv := by
    rw [hc]
    exact inv_allocated size _ _ d hs he
  have hn₀ : c₀.recentEvict.NoDeadline := by
    rw [hc]
    exact BASELRU.noDeadline_fresh _ _ _
  have hk := run_keeps hinv₀ ops
  refine ⟨hk.inv, ghost_noDeadline_run hinv₀ hn₀ ops, ?_⟩
  rw [hk.size, hc]

theorem New2Q_sampleFour :
    (New2Q 4 NoExpiration : Except String (TwoQueueCache Nat)) = .ok sampleFour := by
  unfold New2Q New2QParams Default2QRecentRatio Default2QGhostEntries toInt
  norm_num
  rw [allocate_ok 4 _ _ _ (by decide) (by norm_num)]
  rfl

theorem filter_tail_of_head {l : List (entry V)} {x : entry V} {rest : List (entry V)}
    (h : l = x :: rest) (hn : (l.map (fun y => y.key)).Nodup) :
    l.filter (fun y => decide (y.key ≠ x.key)) = rest := by
  subst h
  simp only [List.map_cons, List.nodup_cons] at hn
  rw [List.filter_cons_of_neg (by simp)]
  exact BASELRU.filter_key_of_not_mem rest x.key hn.1

/-- Re-adding a key whose entry is at the front of a well-formed list and not
expired: only the value changes. -/
theorem readd_front [Inhabited V] {b : BASELRU V} (hw : b.WellFormed) (key : String) (v v' : V)
    (ts d later : Int) (rest : List (entry V)) (h : b.entries = ⟨key, v, ts⟩ :: rest) :
    (b.AddWithExpire key v' d later).1.entries = ⟨key, v', ts⟩ :: rest := by
  have hmem : (⟨key, v, ts⟩ : entry V) ∈ b.entries := by rw [h]; exact List.mem_cons_self _ _
  obtain ⟨e, hlk, hheap⟩ := hw.lookup_of_mem hmem
  have hlk' : b.items.lookup key = some e := hlk
  rw [BASELRU.AddWithExpire_eq, BASELRU.entries_AddWithTimeout_present hw key v' _ e hlk', hheap]
  congr 1
  exact filter_tail_of_head (x := ⟨key, v, ts⟩) h hw.keys_nodup

/-- Promotion on repeated `Add`, for as long as the promoted entry is not
expired. In a state reached from a cache `New2QParams` returned, for a key that `frequent` does not hold and that
`recent` contains (present and not expired): `AddWithExpire` removes the key
from `recent`, whose length goes down by one, and puts `(key, v, deadline)` at
the front of `frequent`; `ensureSpace` is not involved (`recent` is changed by
`Remove` only, `frequent` by the insertion only, `recentEvict` not at all).
A further `Add` of the key made while the promoted entry is not expired
changes its value only: `recent` and `recentEvict` stay as they are and the
key stays at the front of `frequent`. An entry promoted without duration is
never expired, and an entry promoted with a deadline is not expired as long as
the clock has not passed the deadline. -/
theorem Add_promotes_from_recent [Inhabited V] (size : Int) (recentRatio ghostRatio : ℚ)
    (d₀ : Int) (c₀ : TwoQueueCache V) (ops : List (Int × Op V)) (key : String) (v v' : V)
    (d now later : Int)
    (hnew : New2QParams size recentRatio ghostRatio d₀ = .ok c₀)
    (hfreq : (c₀.run ops).frequent.items.lookup key = none)
    (hrec : (c₀.run ops).recent.Contains key now = true) :
    ((c₀.run ops).AddWithExpire key v d now).recent = ((c₀.run ops).recent.Remove key).1 ∧
    ((c₀.run ops).AddWithExpire key v d now).recent.Len + 1 = (c₀.run ops).recent.Len ∧
    ((c₀.run ops).AddWithExpire key v d now).recent.items.lookup key = none ∧
    ((c₀.run ops).AddWithExpire key v d now).recentEvict = (c₀.run ops).recentEvict ∧
    ((c₀.run ops).AddWithExpire key v d now).frequent =
      ((c₀.run ops).frequent.AddWithExpire key v d now).1 ∧
    ((c₀.run ops).AddWithExpire key v d now).frequent.entries.head? =
      some ⟨key, v, deadline (c₀.run ops).frequent d now⟩ ∧
    (((c₀.run ops).AddWithExpire key v d now).frequent.Contains key later = true →
      (((c₀.run ops).AddWithExpire key v d now).Add key v' later).recent =
        ((c₀.run ops).AddWithExpire key v d now).recent ∧
      (((c₀.run ops).AddWithExpire key v d now).Add key v' later).recentEvict =
        ((c₀.run ops).AddWithExpire key v d now).recentEvict ∧
      (((c₀.run ops).AddWithExpire key v d now).Add key v' later).frequent.entries =
        ⟨key, v', deadline (c₀.run ops).frequent d now⟩ ::
          ((c₀.run ops).AddWithExpire key v d now).frequent.entries.tail) ∧
    ((c₀.run ops).frequent.effectiveDuration d ≤ 0 →
      ((c₀.run ops).AddWithExpire key v d now).frequent.Contains key later = true) ∧
    (later ≤ deadline (c₀.run ops).frequent d now →
      ((c₀.run ops).AddWithExpire key v d now).frequent.Contains key later = true) := by
  obtain ⟨hinv, _, _⟩ := reachable_facts hnew ops
  generalize c₀.run ops = c at hfreq hrec hinv
  have hfc : c.frequent.Contains key now = false := BASELRU.Contains_absent _ key now hfreq
  rw [AddWithExpire_of_recent c key v d now hfc hrec]
  obtain ⟨e, he⟩ := BASELRU.lookup_of_Contains hrec
  have hfpos : 0 < c.frequent.size := by rw [hinv.frequent_size]; exact hinv.size_pos
  have hent : (c.frequent.AddWithExpire key v d now).1.entries =
      ⟨key, v, deadline c.frequent d now⟩ ::
        (if (c.frequent.Len : Int) = c.frequent.size then c.frequent.entries.dropLast
          else c.frequent.entries) := by
    rw [BASELRU.AddWithExpire_eq]
    exact BASELRU.entries_AddWithTimeout_absent hinv.frequent_wf hfpos key v _ hfreq
  have hfw' := BASELRU.wellFormed_AddWithExpire hinv.frequent_wf key v d now
  refine ⟨rfl, BASELRU.len_Remove_present hinv.recent_wf key e he,
    (BASELRU.Remove_effect hinv.recent_wf key).2.1, rfl, rfl, ?_, ?_, ?_, ?_⟩
  · show (c.frequent.AddWithExpire key v d now).1.entries.head? = _
    rw [hent]
    rfl
  · intro hlive
    have hlive' : (c.frequent.AddWithExpire key v d now).1.Contains key later = true := hlive
    unfold Add
    rw [AddWithExpire_of_frequent _ key v' NoExpiration later hlive]
    refine ⟨rfl, rfl, ?_⟩
    show ((c.frequent.AddWithExpire key v d now).1.AddWithExpire key v' NoExpiration later).1.entries
      = _ :: (c.frequent.AddWithExpire key v d now).1.entries.tail
    rw [readd_front hfw' key v v' _ NoExpiration later _ hent, hent]
    rfl
  · intro hd
    show (c.frequent.AddWithExpire key v d now).1.Contains key later = true
    have hmem : (⟨key, v, deadline c.frequent d now⟩ : entry V) ∈
        (c.frequent.AddWithExpire key v d now).1.entries := by
      rw [hent]
      exact List.mem_cons_self _ _
    obtain ⟨p, hlk, hheap⟩ := hfw'.lookup_of_mem hmem
    have hlk' : (c.frequent.AddWithExpire key v d now).1.items.lookup key = some p := hlk
    unfold BASELRU.Contains
    rw [hlk']
    simp only [hheap, entry.Expired, deadline, if_neg (not_lt.2 hd)]
    rfl
  · intro hd
    show (c.frequent.AddWithExpire key v d now).1.Contains key later = true
    have hmem : (⟨key, v, deadline c.frequent d now⟩ : entry V) ∈
        (c.frequent.AddWithExpire key v d now).1.entries := by
      rw [hent]
      exact List.mem_cons_self _ _
    obtain ⟨p, hlk, hheap⟩ := hfw'.lookup_of_mem hmem
    have hlk' : (c.frequent.AddWithExpire key v d now).1.items.lookup key = some p := hlk
    unfold BASELRU.Contains
    rw [hlk']
    simp only [hheap, entry.Expired]
    by_cases hz : deadline c.frequent d now = 0
    · rw [if_pos hz]
      rfl
    · rw [if_neg hz, decide_eq_false (not_lt.2 hd)]
      rfl

theorem Add_promotes_from_recent_witness :
    ((sample.run sampleRecentOps).AddWithExpire "a" 2 NoExpiration 5).recent =
      ((sample.run sampleRecentOps).recent.Remove "a").1 ∧
    ((sample.run sampleRecentOps).AddWithExpire "a" 2 NoExpiration 5).recent.Len + 1 =
      (sample.run sampleRecentOps).recent.Len ∧
    ((sample.run sampleRecentOps).AddWithExpire "a" 2 NoExpiration 5).recent.items.lookup "a" =
      none ∧
    ((sample.run sampleRecentOps).AddWithExpire "a" 2 NoExpiration 5).recentEvict =
      (sample.run sampleRecentOps).recentEvict ∧
    ((sample.run sampleRecentOps).AddWithExpire "a" 2 NoExpiration 5).frequent =
      ((sample.run sampleRecentOps).frequent.AddWithExpire "a" 2 NoExpiration 5).1 ∧
    ((sample.run sampleRecentOps).AddWithExpire "a" 2 NoExpiration 5).frequent.entries.head? =
      some ⟨"a", 2, deadline (sample.run sampleRecentOps).frequent NoExpiration 5⟩ ∧
    (((sample.run sampleRecentOps).AddWithExpire "a" 2 NoExpiration 5).frequent.Contains "a" 99
        = true →
      (((sample.run sampleRecentOps).AddWithExpire "a" 2 NoExpiration 5).Add "a" 3 99).recent =
        ((sample.run sampleRecentOps).AddWithExpire "a" 2 NoExpiration 5).recent ∧
      (((sample.run sampleRecentOps).AddWithExpire "a" 2 NoExpiration 5).Add "a" 3 99).recentEvict
        = ((sample.run sampleRecentOps).AddWithExpire "a" 2 NoExpiration 5).recentEvict ∧
      (((sample.run sampleRecentOps).AddWithExpire "a" 2 NoExpiration 5).Add "a" 3
          99).frequent.entries =
        ⟨"a", 3, deadline (sample.run sampleRecentOps).frequent NoExpiration 5⟩ ::
          ((sample.run sampleRecentOps).AddWithExpire "a" 2 NoExpiration 5).frequent.entries.tail) ∧
    ((sample.run sampleRecentOps).frequent.effectiveDuration NoExpiration ≤ 0 →
      ((sample.run sampleRecentOps).AddWithExpire "a" 2 NoExpiration 5).frequent.Contains "a" 99
        = true) ∧
    (99 ≤ deadline (sample.run sampleRecentOps).frequent NoExpiration 5 →
      ((sample.run sampleRecentOps).AddWithExpire "a" 2 NoExpiration 5).frequent.Contains "a" 99
        = true) :=
  Add_promotes_from_recent 2 Default2QRecentRatio Default2QGhostEntries NoExpiration sample
    sampleRecentOps "a" 2 3 NoExpiration 5 99 New2Q_sample (by decide) (by decide)

theorem lookup_none_of_subset {b b' : BASELRU V} (hl : b.Linked) (hl' : b'.Linked)
    (hsub : ∀ x ∈ b'.entries, x ∈ b.entries) {key : String}
    (h : b.items.lookup key = none) : b'.items.lookup key = none := by
  rw [hl'.lookup_eq_none]
  rw [hl.lookup_eq_none] at h
  intro hm
  rcases List.mem_map.1 hm with ⟨x, hx, hxk⟩
  exact h (List.mem_map.2 ⟨x, hsub x hx, hxk⟩)

/-- C23: ghost promotion. In a state reached from a cache `New2QParams`
returned, for a key that neither `recent` nor `frequent` holds and that is in
`recentEvict`: after `AddWithExpire` the front entry of `frequent` is the key
with value `v`, `recent` does not hold the key and `recentEvict` no longer
holds it. On the cache `New2Q(4, NoExpiration)` returns, adding the keys 1 to
5 gives lengths 4, 1, 0 for `recent`, `recentEvict`, `frequent`; adding 1
again gives 3, 1, 1; adding 6 gives 3, 2, 1. -/
theorem ghost_promotion [Inhabited V] (size : Int) (recentRatio ghostRatio : ℚ)
    (d₀ : Int) (c₀ : TwoQueueCache V) (ops : List (Int × Op V)) (key : String) (v : V)
    (d now : Int) (g : Nat)
    (hnew : New2QParams size recentRatio ghostRatio d₀ = .ok c₀)
    (hrec : (c₀.run ops).recent.items.lookup key = none)
    (hfreq : (c₀.run ops).frequent.items.lookup key = none)
    (hghost : (c₀.run ops).recentEvict.items.lookup key = some g) :
    (((c₀.run ops).AddWithExpire key v d now).frequent.entries.head?.map
      (fun x => (x.key, x.value)) = some (key, v) ∧
    ((c₀.run ops).AddWithExpire key v d now).frequent.Peek key = (v, true) ∧
    ((c₀.run ops).AddWithExpire key v d now).recent.items.lookup key = none ∧
    ((c₀.run ops).AddWithExpire key v d now).recentEvict.items.lookup key = none) ∧
    (∃ c : TwoQueueCache Nat, New2Q 4 NoExpiration = .ok c ∧
      ((c.run fiveAdds).recent.Len, (c.run fiveAdds).recentEvict.Len,
        (c.run fiveAdds).frequent.Len) = (4, 1, 0) ∧
      (((c.run fiveAdds).Add "1" 1 0).recent.Len, ((c.run fiveAdds).Add "1" 1 0).recentEvict.Len,
        ((c.run fiveAdds).Add "1" 1 0).frequent.Len) = (3, 1, 1) ∧
      ((((c.run fiveAdds).Add "1" 1 0).Add "6" 6 0).recent.Len,
        (((c.run fiveAdds).Add "1" 1 0).Add "6" 6 0).recentEvict.Len,
        (((c.run fiveAdds).Add "1" 1 0).Add "6" 6 0).frequent.Len) = (3, 2, 1)) := by
  refine ⟨?_, sampleFour, New2Q_sampleFour, by decide, by decide, by decide⟩
  obtain ⟨hinv, hgn, _⟩ := reachable_facts hnew ops
  generalize c₀.run ops = c at hrec hfreq hghost hinv hgn
  have hfc : c.frequent.Contains key now = false := BASELRU.Contains_absent _ key now hfreq
  have hrc : c.recent.Contains key now = false := BASELRU.Contains_absent _ key now hrec
  have hgc : c.recentEvict.Contains key now = true :=
    (BASELRU.Contains_iff_of_noDeadline hinv.ghost_wf hgn key now).2
      ((BASELRU.mem_keyList_iff hinv.ghost_wf.toLinked key).2 ⟨g, hghost⟩)
  rw [AddWithExpire_of_ghost c key v d now hfc hrc hgc]
  obtain ⟨hinv₁, _, _, _, _⟩ := ensureSpace_effect hinv true now
  obtain ⟨hsr, hsf, _, _⟩ := ensureSpace_contents hinv true now
  have hf₁ : (c.ensureSpace true now).frequent.items.lookup key = none :=
    lookup_none_of_subset hinv.frequent_wf.toLinked hinv₁.frequent_wf.toLinked hsf hfreq
  have hr₁ : (c.ensureSpace true now).recent.items.lookup key = none :=
    lookup_none_of_subset hinv.recent_wf.toLinked hinv₁.recent_wf.toLinked hsr hrec
  have hfpos : 0 < (c.ensureSpace true now).frequent.size := by
    rw [hinv₁.frequent_size]; exact hinv₁.size_pos
  have hent := BASELRU.entries_AddWithTimeout_absent hinv₁.frequent_wf hfpos key v
    (deadline (c.ensureSpace true now).frequent d now) hf₁
  have hfw' := BASELRU.wellFormed_AddWithExpire hinv₁.frequent_wf key v d now
  refine ⟨?_, ?_, hr₁, (BASELRU.Remove_effect hinv₁.ghost_wf key).2.1⟩
  · show ((c.ensureSpace true now).frequent.AddWithExpire key v d now).1.entries.head?.map _ = _
    rw [BASELRU.AddWithExpire_eq]
    unfold deadline at hent
    rw [hent]
    rfl
  · show ((c.ensureSpace true now).frequent.AddWithExpire key v d now).1.Peek key = _
    have hmem : (⟨key, v, deadline (c.ensureSpace true now).frequent d now⟩ : entry V) ∈
        ((c.ensureSpace true now).frequent.AddWithExpire key v d now).1.entries := by
      rw [BASELRU.AddWithExpire_eq]
      unfold deadline at hent ⊢
      rw [hent]
      exact List.mem_cons_self _ _
    obtain ⟨p, hlk, hheap⟩ := hfw'.lookup_of_mem hmem
    have hlk' : ((c.ensureSpace true now).frequent.AddWithExpire key v d now).1.items.lookup key
        = some p := hlk
    unfold BASELRU.Peek
    rw [hlk']
    show ((((c.ensureSpace true now).frequent.AddWithExpire key v d now).1.heap p).value, true) = _
    rw [hheap]

theorem ghost_promotion_witness :
    ((((sampleFour.run fiveAdds).AddWithExpire "1" 7 NoExpiration 0).frequent.entries.head?.map
      (fun x => (x.key, x.value)) = some ("1", 7) ∧
    ((sampleFour.run fiveAdds).AddWithExpire "1" 7 NoExpiration 0).frequent.Peek "1" = (7, true) ∧
    ((sampleFour.run fiveAdds).AddWithExpire "1" 7 NoExpiration 0).recent.items.lookup "1"
      = none ∧
    ((sampleFour.run fiveAdds).AddWithExpire "1" 7 NoExpiration 0).recentEvict.items.lookup "1"
      = none) ∧
    (∃ c : TwoQueueCache Nat, New2Q 4 NoExpiration = .ok c ∧
      ((c.run fiveAdds).recent.Len, (c.run fiveAdds).recentEvict.Len,
        (c.run fiveAdds).frequent.Len) = (4, 1, 0) ∧
      (((c.run fiveAdds).Add "1" 1 0).recent.Len, ((c.run fiveAdds).Add "1" 1 0).recentEvict.Len,
        ((c.run fiveAdds).Add "1" 1 0).frequent.Len) = (3, 1, 1) ∧
      ((((c.run fiveAdds).Add "1" 1 0).Add "6" 6 0).recent.Len,
        (((c.run fiveAdds).Add "1" 1 0).Add "6" 6 0).recentEvict.Len,
        (((c.run fiveAdds).Add "1" 1 0).Add "6" 6 0).frequent.Len) = (3, 2, 1))) :=
  ghost_promotion 4 Default2QRecentRatio Default2QGhostEntries NoExpiration sampleFour
    fiveAdds "1" 7 NoExpiration 0 1 New2Q_sampleFour (by decide) (by decide) (by decide)

theorem run_concat [Inhabited V] (c : TwoQueueCache V) (l : List (Int × Op V)) (now : Int)
    (op : Op V) : c.run (l ++ [(now, op)]) = (c.run l).step now op := by
  induction l generalizing c with
  | nil => rfl
  | cons x rest ih =>
    obtain ⟨n, o⟩ := x
    exact ih (c.step n o)

theorem entries_RemoveOldest [Inhabited V] {c : BASELRU V} (hl : c.Linked) :
    c.RemoveOldest.1.entries = c.entries.dropLast := by
  unfold BASELRU.RemoveOldest
  cases hg : c.evictList.getLast? with
  | none =>
    have : c.evictList = [] := List.getLast?_eq_none_iff.1 hg
    simp [BASELRU.entries, this]
  | some e =>
    show (c.removeElement e).entries = _
    rw [← BASELRU.removeOldest_eq c e hg]
    exact BASELRU.entries_removeOldest hl

theorem run_addOps_state [Inhabited V] {size d : Int} {c₀ : TwoQueueCache V}
    (hnew : New2Q size d = .ok c₀) (adds : List (Int × String × V))
    (hkeys : (adds.map (fun a => a.2.1)).Nodup) :
    (c₀.run (addOps adds)).frequent.entries = [] ∧
    (c₀.run (addOps adds)).recent.entries =
      (adds.reverse.take size.toNat).map BASELRU.addedEntry ∧
    (∀ k ∈ (c₀.run (addOps adds)).recentEvict.keyList, k ∈ adds.map (fun a => a.2.1)) := by
  obtain ⟨hpos, _, _, _, _, hgpos, hc₀⟩ := New2QParams_ok hnew
  have hinv₀ : c₀.Inv := by rw [hc₀]; exact inv_allocated _ _ _ _ hpos hgpos
  induction adds using List.reverseRecOn with
  | nil =>
    rw [hc₀]
    simp [addOps, run, BASELRU.fresh, BASELRU.entries, BASELRU.keyList]
  | append_singleton adds a ih =>
    have hnd : (adds.map (fun a => a.2.1)).Nodup ∧ a.2.1 ∉ adds.map (fun a => a.2.1) := by
      rw [List.map_append, List.nodup_append] at hkeys
      refine ⟨hkeys.1, fun hm => hkeys.2.2 hm (by simp)⟩
    obtain ⟨hfe, hre, hge⟩ := ih hnd.1
    have hk := run_keeps hinv₀ (addOps adds)
    have hrun : c₀.run (addOps (adds ++ [a])) = (c₀.run (addOps adds)).Add a.2.1 a.2.2 a.1 := by
      unfold addOps
      rw [List.map_append]
      exact run_concat _ _ _ _
    rw [hrun]
    have hsz : (c₀.run (addOps adds)).size = size := by rw [hk.size, hc₀]
    have hrs : (c₀.run (addOps adds)).recentSize < size := by
      rw [hk.recentSize, hc₀]; exact toInt_quarter_lt size hpos
    generalize c₀.run (addOps adds) = c at hfe hre hge hk hsz hrs
    have hinv := hk.inv
    have hfl : c.frequent.items.lookup a.2.1 = none := by
      rw [hinv.frequent_wf.toLinked.lookup_eq_none]
      simp [BASELRU.keyList, hfe]
    have hrl : c.recent.items.lookup a.2.1 = none := by
      rw [hinv.recent_wf.toLinked.lookup_eq_none]
      intro hm
      apply hnd.2
      unfold BASELRU.keyList at hm
      rw [hre, List.map_map] at hm
      rcases List.mem_map.1 hm with ⟨x, hx, hxk⟩
      exact List.mem_map.2 ⟨x, List.mem_reverse.1 (List.mem_of_mem_take hx), hxk⟩
    have hgl : c.recentEvict.items.lookup a.2.1 = none := by
      rw [hinv.ghost_wf.toLinked.lookup_eq_none]
      exact fun hm => hnd.2 (hge _ hm)
    unfold Add
    rw [AddWithExpire_of_fresh c _ _ _ _ (BASELRU.Contains_absent _ _ _ hfl)
      (BASELRU.Contains_absent _ _ _ hrl) (BASELRU.Contains_absent _ _ _ hgl)]
    have hflen : c.frequent.Len = 0 := by
      rw [BASELRU.len_eq_length_entries, hfe]; rfl
    have hlen : c.Len = c.recent.Len := by rw [len_eq, hflen]; rfl
    have hrlen : c.recent.Len = min size.toNat adds.length := by
      rw [BASELRU.len_eq_length_entries, hre]
      simp
    have hsn : ((size.toNat : Nat) : Int) = size := Int.toNat_of_nonneg hpos.le
    have hrev : (adds ++ [a]).reverse = a :: adds.reverse := by simp
    rcases ensureSpace_cases c false a.1 with ⟨hlt, hes⟩ | ⟨hge', hrpos, _, hes⟩ | ⟨hge', hno, _⟩
    · rw [hes]
      refine ⟨hfe, ?_, ?_⟩
      · show (c.recent.AddWithExpire a.2.1 a.2.2 NoExpiration a.1).1.entries = _
        rw [BASELRU.Add_eq_AddWithExpire,
          BASELRU.entries_AddWithTimeout_absent hinv.recent_wf
            (by rw [hinv.recent_size]; exact hinv.size_pos) _ _ _ hrl]
        have hne : ¬ ((c.recent.Len : Int) = c.recent.size) := by
          rw [hinv.recent_size]; rw [hlen] at hlt; omega
        rw [if_neg hne, hre, hrev]
        rw [hlen, hsz, hrlen] at hlt
        have h1 : adds.reverse.take size.toNat = adds.reverse :=
          List.take_of_length_le (by rw [List.length_reverse]; omega)
        have h2 : (a :: adds.reverse).take size.toNat = a :: adds.reverse :=
          List.take_of_length_le (by rw [List.length_cons, List.length_reverse]; omega)
        rw [h1, h2]
        rfl
      · intro k hk'
        rw [List.map_append]
        exact List.mem_append_left _ (hge k hk')
    · rw [hes]
      have hfull : c.recent.Len = size.toNat := by
        have := hinv.recent_wf.len_le
        rw [hinv.recent_size, hsz] at this
        rw [hlen, hsz] at hge'
        omega
      refine ⟨hfe, ?_, ?_⟩
      · show (c.recent.RemoveOldest.1.AddWithExpire a.2.1 a.2.2 NoExpiration a.1).1.entries = _
        have hw' := BASELRU.wellFormed_RemoveOldest hinv.recent_wf
        have hent' : c.recent.RemoveOldest.1.entries = c.recent.entries.dropLast :=
          entries_RemoveOldest hinv.recent_wf.toLinked
        have hrl' : c.recent.RemoveOldest.1.items.lookup a.2.1 = none := by
          rw [hw'.toLinked.lookup_eq_none]
          rw [hinv.recent_wf.toLinked.lookup_eq_none] at hrl
          intro hm
          apply hrl
          unfold BASELRU.keyList at hm ⊢
          rw [hent'] at hm
          rcases List.mem_map.1 hm with ⟨x, hx, hxk⟩
          exact List.mem_map.2 ⟨x, List.mem_of_mem_dropLast hx, hxk⟩
        have hsz' : c.recent.RemoveOldest.1.size = size := by
          rw [BASELRU.size_RemoveOldest, hinv.recent_size, hsz]
        rw [BASELRU.Add_eq_AddWithExpire,
          BASELRU.entries_AddWithTimeout_absent hw' (by rw [hsz']; exact hpos) _ _ _ hrl']
        have hne : ¬ ((c.recent.RemoveOldest.1.Len : Int) = c.recent.RemoveOldest.1.size) := by
          rw [hsz', BASELRU.len_eq_length_entries, hent', List.length_dropLast,
            ← BASELRU.len_eq_length_entries]
          omega
        rw [if_neg hne, hent', hre, hrev]
        have hl : (adds.reverse.take size.toNat).length = size.toNat := by
          have := congrArg List.length hre
          rw [← BASELRU.len_eq_length_entries, hfull, List.length_map] at this
          exact this.symm
        have h2 : ((adds.reverse.take size.toNat).map BASELRU.addedEntry).dropLast =
            (adds.reverse.take (size.toNat - 1)).map BASELRU.addedEntry := by
          rw [List.dropLast_eq_take, List.length_map, hl, ← List.map_take, List.take_take,
            min_eq_left (Nat.sub_le _ _)]
        rw [h2]
        cases hn : size.toNat with
        | zero => omega
        | succ m => rfl
      · intro k hk'
        rw [List.map_append]
        have hk'' : k ∈ (c.recentEvict.AddWithTimeout c.recent.RemoveOldest.2.1 default 0).1.keyList := by
          rw [← BASELRU.Add_eq]; exact hk'
        rcases BASELRU.mem_keyList_AddWithTimeout hinv.ghost_wf _ _ _ hk'' with h | h
        · have ho := (BASELRU.RemoveOldest_effect hinv.recent_wf hrpos).1
          rw [h]
          unfold BASELRU.keyList at ho
          rw [hre, List.map_map] at ho
          rcases List.mem_map.1 ho with ⟨x, hx, hxk⟩
          exact List.mem_append_left _
            (List.mem_map.2 ⟨x, List.mem_reverse.1 (List.mem_of_mem_take hx), hxk⟩)
        · exact List.mem_append_left _ (hge k h)
    · exfalso
      apply hno
      rw [hlen, hsz] at hge'
      omega

/-- C24: one-touch inserts make the two-queue cache an LRU. On a cache
`New2Q(size, d)` returned, after `Add` of pairwise distinct keys in order (each
at its own clock reading) and nothing else: `frequent` is empty and `recent`
holds the entries of the last `min(n, size)` additions, newest first; `Len()`
is `min(n, size)`; `Keys()` is the keys of the last `min(n, size)` additions in
insertion order; `Get` of each of the first `n - size` keys misses and `Get` of
each later key returns its value. -/
theorem one_touch_is_lru [Inhabited V] (size d : Int) (c₀ : TwoQueueCache V)
    (adds : List (Int × String × V)) (hnew : New2Q size d = .ok c₀)
    (hkeys : (adds.map (fun a => a.2.1)).Nodup) :
    (c₀.run (addOps adds)).frequent.entries = [] ∧
    (c₀.run (addOps adds)).recent.entries =
      (adds.reverse.take size.toNat).map BASELRU.addedEntry ∧
    ((c₀.run (addOps adds)).Len : Int) = min (adds.length : Int) size ∧
    (c₀.run (addOps adds)).Keys =
      some ((adds.drop (adds.length - size.toNat)).map (fun a => a.2.1)) ∧
    (∀ now, ∀ a ∈ adds.take (adds.length - size.toNat),
      ((c₀.run (addOps adds)).Get a.2.1 now).2 = (default, false)) ∧
    (∀ now, ∀ a ∈ adds.drop (adds.length - size.toNat),
      ((c₀.run (addOps adds)).Get a.2.1 now).2 = (a.2.2, true)) := by
  obtain ⟨hfe, hre, _⟩ := run_addOps_state hnew adds hkeys
  obtain ⟨hinv, _, _⟩ := reachable_facts hnew (addOps adds)
  obtain ⟨hpos, _⟩ := New2QParams_ok hnew
  generalize c₀.run (addOps adds) = c at hfe hre hinv
  have hsn : ((size.toNat : Nat) : Int) = size := Int.toNat_of_nonneg hpos.le
  have hfl : ∀ k, c.frequent.items.lookup k = none := by
    intro k
    rw [hinv.frequent_wf.toLinked.lookup_eq_none]
    simp [BASELRU.keyList, hfe]
  have hrk : c.recent.keyList.reverse =
      (adds.drop (adds.length - size.toNat)).map (fun a => a.2.1) := by
    unfold BASELRU.keyList
    rw [hre, List.map_map, ← List.map_reverse, List.take_reverse, List.reverse_reverse]
    rfl
  refine ⟨hfe, hre, ?_, ?_, ?_, ?_⟩
  · rw [len_eq, BASELRU.len_eq_length_entries, BASELRU.len_eq_length_entries, hfe, hre]
    simp only [List.length_map, List.length_take, List.length_reverse, List.length_nil]
    omega
  · unfold Keys
    rw [hinv.frequent_wf.toLinked.Keys_eq, hinv.recent_wf.toLinked.Keys_eq, hrk]
    simp [BASELRU.keyList, hfe]
  · intro now a ha
    have hrl : c.recent.items.lookup a.2.1 = none := by
      rw [hinv.recent_wf.toLinked.lookup_eq_none]
      intro hm
      have hm' : a.2.1 ∈ c.recent.keyList.reverse := List.mem_reverse.2 hm
      rw [hrk] at hm'
      have hd : (adds.map (fun a => a.2.1)).Nodup := hkeys
      rw [← List.take_append_drop (adds.length - size.toNat) adds, List.map_append] at hd
      exact List.disjoint_of_nodup_append hd (List.mem_map_of_mem _ ha) hm'
    rw [Get_of_recent_absent c _ now hrl, BASELRU.Get_absent _ _ _ (hfl _)]
  · intro now a ha
    have hm : BASELRU.addedEntry a ∈ c.recent.entries := by
      rw [hre, List.take_reverse]
      exact List.mem_map_of_mem _ (List.mem_reverse.2 ha)
    obtain ⟨e, hlk, hheap⟩ := hinv.recent_wf.toLinked.lookup_of_mem hm
    have hpk := BASELRU.PeekWithExpire_of_lookup c.recent a.2.1 e hlk
    rw [hheap] at hpk
    rw [Get_promote c a.2.1 now a.2.2 0 (hfl _) hpk]

theorem one_touch_is_lru_witness :
    (threeAdds.map (fun a => a.2.1)).Nodup ∧
    (sample.run (addOps threeAdds)).frequent.entries = [] ∧
    (sample.run (addOps threeAdds)).recent.entries =
      (threeAdds.reverse.take (2 : Int).toNat).map BASELRU.addedEntry ∧
    ((sample.run (addOps threeAdds)).Len : Int) = min (threeAdds.length : Int) 2 ∧
    (sample.run (addOps threeAdds)).Keys =
      some ((threeAdds.drop (threeAdds.length - (2 : Int).toNat)).map (fun a => a.2.1)) ∧
    (∀ now, ∀ a ∈ threeAdds.take (threeAdds.length - (2 : Int).toNat),
      ((sample.run (addOps threeAdds)).Get a.2.1 now).2 = (default, false)) ∧
    (∀ now, ∀ a ∈ threeAdds.drop (threeAdds.length - (2 : Int).toNat),
      ((sample.run (addOps threeAdds)).Get a.2.1 now).2 = (a.2.2, true)) :=
  ⟨by decide, one_touch_is_lru 2 NoExpiration sample threeAdds New2Q_sample (by decide)⟩

theorem keyList_subset_of_entries {b b' : BASELRU V}
    (h : ∀ x ∈ b'.entries, x ∈ b.entries) : ∀ k ∈ b'.keyList, k ∈ b.keyList := by
  intro k hk
  rcases List.mem_map.1 hk with ⟨x, hx, hxk⟩
  exact List.mem_map.2 ⟨x, h x hx, hxk⟩

theorem noDeadline_of_entries {b b' : BASELRU V}
    (h : ∀ x ∈ b'.entries, x ∈ b.entries) (hn : b.NoDeadline) : b'.NoDeadline :=
  fun x hx => hn x (h x hx)

theorem ensureSpace_separated [Inhabited V] {c : TwoQueueCache V} (h : c.Inv)
    (hs : c.Separated) (ghost : Bool) (now : Int) :
    (c.ensureSpace ghost now).Separated := by
  obtain ⟨hr, hf, hg, hgn⟩ := ensureSpace_contents h ghost now
  have hrk := keyList_subset_of_entries hr
  have hfk := keyList_subset_of_entries hf
  refine ⟨noDeadline_of_entries hr hs.recent_nd, noDeadline_of_entries hf hs.frequent_nd,
    hgn hs.ghost_nd, ?_, ?_, ?_⟩
  · exact fun k h1 h2 => hs.recent_frequent (hrk k h1) (hfk k h2)
  · intro k h1 h2
    rcases hg k h2 with h3 | h3
    · exact hs.recent_ghost (hrk k h1) h3
    · exact h3.2 h1
  · intro k h1 h2
    rcases hg k h2 with h3 | h3
    · exact hs.frequent_ghost (hfk k h1) h3
    · exact hs.recent_frequent h3.1 (hfk k h1)

theorem Add_separated [Inhabited V] {c : TwoQueueCache V} (h : c.Inv) (hs : c.Separated)
    (key : String) (value : V) (now : Int) :
    (c.AddWithExpire key value NoExpiration now).Separated := by
  have hcf := BASELRU.Contains_iff_of_noDeadline h.frequent_wf hs.frequent_nd key now
  have hcr := BASELRU.Contains_iff_of_noDeadline h.recent_wf hs.recent_nd key now
  have hcg := BASELRU.Contains_iff_of_noDeadline h.ghost_wf hs.ghost_nd key now
  by_cases hf : c.frequent.Contains key now = true
  · rw [AddWithExpire_of_frequent c key value _ now hf]
    have hkf := hcf.1 hf
    have hsub : ∀ k ∈ (c.frequent.AddWithExpire key value NoExpiration now).1.keyList,
        k ∈ c.frequent.keyList := by
      intro k hk
      rw [BASELRU.Add_eq_AddWithExpire] at hk
      rcases BASELRU.mem_keyList_AddWithTimeout h.frequent_wf _ _ _ hk with h1 | h1
      · rw [h1]; exact hkf
      · exact h1
    refine ⟨hs.recent_nd, ?_, hs.ghost_nd, ?_, hs.recent_ghost, ?_⟩
    · show (c.frequent.AddWithExpire key value NoExpiration now).1.NoDeadline
      rw [BASELRU.Add_eq_AddWithExpire]
      exact BASELRU.noDeadline_AddWithTimeout h.frequent_wf hs.frequent_nd _ _
    · exact fun k h1 h2 => hs.recent_frequent h1 (hsub k h2)
    · exact fun k h1 h2 => hs.frequent_ghost (hsub k h1) h2
  · have hf' : c.frequent.Contains key now = false := by simpa using hf
    by_cases hr : c.recent.Contains key now = true
    · rw [AddWithExpire_of_recent c key value _ now hf' hr]
      have hkr := hcr.1 hr
      refine ⟨BASELRU.noDeadline_Remove h.recent_wf hs.recent_nd key, ?_, hs.ghost_nd,
        ?_, ?_, ?_⟩
      · show (c.frequent.AddWithExpire key value NoExpiration now).1.NoDeadline
        rw [BASELRU.Add_eq_AddWithExpire]
        exact BASELRU.noDeadline_AddWithTimeout h.frequent_wf hs.frequent_nd _ _
      · intro k h1 h2
        have h1' := BASELRU.mem_keyList_Remove h.recent_wf key h1
        have h2' : k ∈ (c.frequent.AddWithExpire key value NoExpiration now).1.keyList := h2
        rw [BASELRU.Add_eq_AddWithExpire] at h2'
        rcases BASELRU.mem_keyList_AddWithTimeout h.frequent_wf _ _ _ h2' with h3 | h3
        · exact h1'.2 h3
        · exact hs.recent_frequent h1'.1 h3
      · exact fun k h1 h2 =>
          hs.recent_ghost (BASELRU.mem_keyList_Remove h.recent_wf key h1).1 h2
      · intro k h1 h2
        have h1' : k ∈ (c.frequent.AddWithExpire key value NoExpiration now).1.keyList := h1
        rw [BASELRU.Add_eq_AddWithExpire] at h1'
        rcases BASELRU.mem_keyList_AddWithTimeout h.frequent_wf _ _ _ h1' with h3 | h3
        · rw [h3] at h2; exact hs.recent_ghost hkr h2
        · exact hs.frequent_ghost h3 h2
    · have hr' : c.recent.Contains key now = false := by simpa using hr
      have hnf : key ∉ c.frequent.keyList := fun hm => hf (hcf.2 hm)
      have hnr : key ∉ c.recent.keyList := fun hm => hr (hcr.2 hm)
      by_cases hg : c.recentEvict.Contains key now = true
      · rw [AddWithExpire_of_ghost c key value _ now hf' hr' hg]
        have hs₁ := ensureSpace_separated h hs true now
        obtain ⟨hi₁, _⟩ := ensureSpace_effect h true now
        obtain ⟨her, hef, _, _⟩ := ensureSpace_contents h true now
        have hrk := keyList_subset_of_entries her
        have hfk := keyList_subset_of_entries hef
        refine ⟨hs₁.recent_nd, ?_, BASELRU.noDeadline_Remove hi₁.ghost_wf hs₁.ghost_nd key,
          ?_, ?_, ?_⟩
        · show ((c.ensureSpace true now).frequent.AddWithExpire key value NoExpiration
            now).1.NoDeadline
          rw [BASELRU.Add_eq_AddWithExpire]
          exact BASELRU.noDeadline_AddWithTimeout hi₁.frequent_wf hs₁.frequent_nd _ _
        · intro k h1 h2
          have h2' : k ∈ ((c.ensureSpace true now).frequent.AddWithExpire key value
            NoExpiration now).1.keyList := h2
          rw [BASELRU.Add_eq_AddWithExpire] at h2'
          rcases BASELRU.mem_keyList_AddWithTimeout hi₁.frequent_wf _ _ _ h2' with h3 | h3
          · rw [h3] at h1; exact hnr (hrk key h1)
          · exact hs₁.recent_frequent h1 h3
        · exact fun k h1 h2 =>
            hs₁.recent_ghost h1 (BASELRU.mem_keyList_Remove hi₁.ghost_wf key h2).1
        · intro k h1 h2
          have h2' := BASELRU.mem_keyList_Remove hi₁.ghost_wf key h2
          have h1' : k ∈ ((c.ensureSpace true now).frequent.AddWithExpire key value
            NoExpiration now).1.keyList := h1
          rw [BASELRU.Add_eq_AddWithExpire] at h1'
          rcases BASELRU.mem_keyList_AddWithTimeout hi₁.frequent_wf _ _ _ h1' with h3 | h3
          · exact h2'.2 h3
          · exact hs₁.frequent_ghost h3 h2'.1
      · have hg' : c.recentEvict.Contains key now = false := by simpa using hg
        have hng : key ∉ c.recentEvict.keyList := fun hm => hg (hcg.2 hm)
        rw [AddWithExpire_of_fresh c key value _ now hf' hr' hg']
        have hs₁ := ensureSpace_separated h hs false now
        obtain ⟨hi₁, _⟩ := ensureSpace_effect h false now
        obtain ⟨her, hef, heg, _⟩ := ensureSpace_contents h false now
        have hrk := keyList_subset_of_entries her
        have hfk := keyList_subset_of_entries hef
        refine ⟨?_, hs₁.frequent_nd, hs₁.ghost_nd, ?_, ?_, hs₁.frequent_ghost⟩
        · show ((c.ensureSpace false now).recent.AddWithExpire key value NoExpiration
            now).1.NoDeadline
          rw [BASELRU.Add_eq_AddWithExpire]
          exact BASELRU.noDeadline_AddWithTimeout hi₁.recent_wf hs₁.recent_nd _ _
        · intro k h1 h2
          have h1' : k ∈ ((c.ensureSpace false now).recent.AddWithExpire key value
            NoExpiration now).1.keyList := h1
          rw [BASELRU.Add_eq_AddWithExpire] at h1'
          rcases BASELRU.mem_keyList_AddWithTimeout hi₁.recent_wf _ _ _ h1' with h3 | h3
          · rw [h3] at h2; exact hnf (hfk key h2)
          · exact hs₁.recent_frequent h3 h2
        · intro k h1 h2
          have h1' : k ∈ ((c.ensureSpace false now).recent.AddWithExpire key value
            NoExpiration now).1.keyList := h1
          rw [BASELRU.Add_eq_AddWithExpire] at h1'
          rcases BASELRU.mem_keyList_AddWithTimeout hi₁.recent_wf _ _ _ h1' with h3 | h3
          · rw [h3] at h2
            rcases heg key h2 with h4 | h4
            · exact hng h4
            · exact hnr h4.1
          · exact hs₁.recent_ghost h3 h2

theorem Get_separated [Inhabited V] {c : TwoQueueCache V} (h : c.Inv) (hs : c.Separated)
    (key : String) (now : Int) : (c.Get key now).1.Separated := by
  unfold Get
  simp only
  split
  · have hp := BASELRU.keyList_perm_Get c.frequent key now
    refine ⟨hs.recent_nd, BASELRU.noDeadline_Get hs.frequent_nd key now, hs.ghost_nd, ?_,
      hs.recent_ghost, ?_⟩
    · exact fun k h1 h2 => hs.recent_frequent h1 (hp.subset h2)
    · exact fun k h1 h2 => hs.frequent_ghost (hp.subset h1) h2
  · rename_i hmiss
    have hsame : (c.frequent.Get key now).1 = c.frequent :=
      BASELRU.state_of_Get_miss c.frequent key now (by simpa using hmiss)
    rw [hsame]
    split
    · rename_i hp
      obtain ⟨e, he⟩ := BASELRU.lookup_of_PeekWithExpire hp
      have hkr : key ∈ c.recent.keyList :=
        (BASELRU.mem_keyList_iff h.recent_wf.toLinked key).2 ⟨e, he⟩
      have hz := BASELRU.PeekWithExpire_of_noDeadline h.recent_wf hs.recent_nd key
      refine ⟨BASELRU.noDeadline_Remove h.recent_wf hs.recent_nd key, ?_, hs.ghost_nd,
        ?_, ?_, ?_⟩
      · show (c.frequent.AddWithTimeout key (c.recent.PeekWithExpire key).1
          (c.recent.PeekWithExpire key).2.2).1.NoDeadline
        rw [hz]
        exact BASELRU.noDeadline_AddWithTimeout h.frequent_wf hs.frequent_nd _ _
      · intro k h1 h2
        have h1' := BASELRU.mem_keyList_Remove h.recent_wf key h1
        rcases BASELRU.mem_keyList_AddWithTimeout h.frequent_wf _ _ _ h2 with h3 | h3
        · exact h1'.2 h3
        · exact hs.recent_frequent h1'.1 h3
      · exact fun k h1 h2 =>
          hs.recent_ghost (BASELRU.mem_keyList_Remove h.recent_wf key h1).1 h2
      · intro k h1 h2
        rcases BASELRU.mem_keyList_AddWithTimeout h.frequent_wf _ _ _ h1 with h3 | h3
        · rw [h3] at h2; exact hs.recent_ghost hkr h2
        · exact hs.frequent_ghost h3 h2
    · exact hs

theorem Remove_separated [Inhabited V] {c : TwoQueueCache V} (h : c.Inv) (hs : c.Separated)
    (key : String) : (c.Remove key).Separated := by
  have hf : ∀ k ∈ (c.frequent.Remove key).1.keyList, k ∈ c.frequent.keyList :=
    fun k hk => (BASELRU.mem_keyList_Remove h.frequent_wf key hk).1
  have hr : ∀ k ∈ (c.recent.Remove key).1.keyList, k ∈ c.recent.keyList :=
    fun k hk => (BASELRU.mem_keyList_Remove h.recent_wf key hk).1
  have hg : ∀ k ∈ (c.recentEvict.Remove key).1.keyList, k ∈ c.recentEvict.keyList :=
    fun k hk => (BASELRU.mem_keyList_Remove h.ghost_wf key hk).1
  have hnf := BASELRU.noDeadline_Remove h.frequent_wf hs.frequent_nd key
  have hnr := BASELRU.noDeadline_Remove h.recent_wf hs.recent_nd key
  have hng := BASELRU.noDeadline_Remove h.ghost_wf hs.ghost_nd key
  unfold Remove
  simp only
  split
  · exact ⟨hs.recent_nd, hnf, hs.ghost_nd, fun k h1 h2 => hs.recent_frequent h1 (hf k h2),
      hs.recent_ghost, fun k h1 h2 => hs.frequent_ghost (hf k h1) h2⟩
  · split
    · exact ⟨hnr, hnf, hs.ghost_nd, fun k h1 h2 => hs.recent_frequent (hr k h1) (hf k h2),
        fun k h1 h2 => hs.recent_ghost (hr k h1) h2,
        fun k h1 h2 => hs.frequent_ghost (hf k h1) h2⟩
    · exact ⟨hnr, hnf, hng, fun k h1 h2 => hs.recent_frequent (hr k h1) (hf k h2),
        fun k h1 h2 => hs.recent_ghost (hr k h1) (hg k h2),
        fun k h1 h2 => hs.frequent_ghost (hf k h1) (hg k h2)⟩

theorem Purge_separated [Inhabited V] (c : TwoQueueCache V) : c.Purge.Separated := by
  have he : ∀ b : BASELRU V, ∀ k, k ∉ b.Purge.keyList := fun b k hk => by cases hk
  exact ⟨BASELRU.noDeadline_Purge _, BASELRU.noDeadline_Purge _, BASELRU.noDeadline_Purge _,
    fun k h1 _ => he c.recent k h1, fun k h1 _ => he c.recent k h1,
    fun k h1 _ => he c.frequent k h1⟩

theorem step_separated [Inhabited V] {c : TwoQueueCache V} (h : c.Inv) (hs : c.Separated)
    (now : Int) (op : Op V) (hop : op.noDeadline = true) : (c.step now op).Separated := by
  cases op with
  | Add key value => exact Add_separated h hs key value now
  | AddWithExpire key value d =>
    have hd : d = NoExpiration := by simpa [Op.noDeadline] using hop
    rw [hd]
    exact Add_separated h hs key value now
  | Get key => exact Get_separated h hs key now
  | Remove key => exact Remove_separated h hs key
  | Purge => exact Purge_separated c
  | Peek key => exact hs
  | Contains key => exact hs
  | Len => exact hs
  | Keys => exact hs

theorem run_separated [Inhabited V] {c : TwoQueueCache V} (h : c.Inv) (hs : c.Separated)
    (ops : List (Int × Op V)) (hops : ∀ x ∈ ops, x.2.noDeadline = true) :
    (c.run ops).Separated := by
  induction ops generalizing c with
  | nil => exact hs
  | cons a rest ih =>
    obtain ⟨now, op⟩ := a
    exact ih (step_keeps h now op).inv
      (step_separated h hs now op (hops _ (List.mem_cons_self _ _)))
      (fun x hx => hops x (List.mem_cons_of_mem _ hx))

/-- C30: without deadlines the three lists are pairwise disjoint by key. For a
cache `New2QParams` returned and every sequence of operations in which each
`AddWithExpire` has the duration `NoExpiration` (`Add`, `Get`, `Remove`,
`Purge` and the reading operations are unrestricted), in the state reached
every stored `Expiration` is 0 and no key is in two of `recent`, `frequent`,
`recentEvict`. -/
theorem lists_disjoint_without_deadlines [Inhabited V] (size : Int)
    (recentRatio ghostRatio : ℚ) (d₀ : Int) (c₀ : TwoQueueCache V) (ops : List (Int × Op V))
    (hnew : New2QParams size recentRatio ghostRatio d₀ = .ok c₀)
    (hops : ∀ x ∈ ops, x.2.noDeadline = true) :
    ((c₀.run ops).recent.NoDeadline ∧ (c₀.run ops).frequent.NoDeadline ∧
      (c₀.run ops).recentEvict.NoDeadline) ∧
    (c₀.run ops).recent.keyList.Disjoint (c₀.run ops).frequent.keyList ∧
    (c₀.run ops).recent.keyList.Disjoint (c₀.run ops).recentEvict.keyList ∧
    (c₀.run ops).frequent.keyList.Disjoint (c₀.run ops).recentEvict.keyList := by
  obtain ⟨hs, _, _, _, _, he, hc⟩ := New2QParams_ok hnew
  have hinv₀ : c₀.Inv := by
    rw [hc]
    exact inv_allocated size _ _ d₀ hs he
  have hnil : ∀ (n d : Int) (k : String), k ∉ (BASELRU.fresh n false d : BASELRU V).keyList :=
    fun n d k hk => by cases hk
  have hs₀ : c₀.Separated := by
    rw [hc]
    exact ⟨BASELRU.noDeadline_fresh _ _ _, BASELRU.noDeadline_fresh _ _ _,
      BASELRU.noDeadline_fresh _ _ _, fun k h1 _ => hnil _ _ k h1,
      fun k h1 _ => hnil _ _ k h1, fun k h1 _ => hnil _ _ k h1⟩
  have hr := run_separated hinv₀ hs₀ ops hops
  exact ⟨⟨hr.recent_nd, hr.frequent_nd, hr.ghost_nd⟩, hr.recent_frequent, hr.recent_ghost,
    hr.frequent_ghost⟩

theorem lists_disjoint_without_deadlines_witness :
    (∀ x ∈ sampleMixedOps, x.2.noDeadline = true) ∧
    ((sample.run sampleMixedOps).recent.NoDeadline ∧
      (sample.run sampleMixedOps).frequent.NoDeadline ∧
      (sample.run sampleMixedOps).recentEvict.NoDeadline) ∧
    (sample.run sampleMixedOps).recent.keyList.Disjoint
      (sample.run sampleMixedOps).frequent.keyList ∧
    (sample.run sampleMixedOps).recent.keyList.Disjoint
      (sample.run sampleMixedOps).recentEvict.keyList ∧
    (sample.run sampleMixedOps).frequent.keyList.Disjoint
      (sample.run sampleMixedOps).recentEvict.keyList :=
  ⟨by decide, lists_disjoint_without_deadlines 2 Default2QRecentRatio Default2QGhostEntries
    NoExpiration sample sampleMixedOps New2Q_sample (by decide)⟩

end TwoQueueCache

namespace ARCCache

variable {V : Type}

theorem NewARC_of_pos [Inhabited V] (size d : Int) (hs : 0 < size) :
    (NewARC size d : Except String (ARCCache V)) =
      .ok { size := size
            p := 0
            t1 := BASELRU.fresh size false d
            t2 := BASELRU.fresh size false d
            b1 := BASELRU.fresh size false d
            b2 := BASELRU.fresh size false d } := by
  unfold NewARC
  rw [BASELRU.NewBaseLRU_of_pos size false d hs]

theorem NewARC_ok [Inhabited V] {size d : Int} {c : ARCCache V}
    (h : NewARC size d = .ok c) :
    0 < size ∧ c = { size := size
                     p := 0
                     t1 := BASELRU.fresh size false d
                     t2 := BASELRU.fresh size false d
                     b1 := BASELRU.fresh size false d
                     b2 := BASELRU.fresh size false d } := by
  by_cases hs : 0 < size
  · rw [NewARC_of_pos size d hs] at h
    injection h with h
    exact ⟨hs, h.symm⟩
  · unfold NewARC BASELRU.NewBaseLRU at h
    rw [if_pos (by omega)] at h
    cases h

/-- C28: the adaptive scenario of `TestARC_Adaptive` on the cache
`NewARC(4, NoExpiration)` builds. After `Add` of 0, 1, 2, 3, `Get(0)`, `Get(1)`,
`Add(4)` the lists are `t1 = [4,3]`, `t2 = [1,0]`, `b1 = [2]`, `b2 = []`;
`Add(2)` hits the ghost in `b1`, sets `p = 1` and gives `t2 = [2,1,0]`,
`b1 = [3]`; `Add(4)` gives `t1 = []`, `t2 = [4,2,1,0]`; `Add(5)` gives
`t1 = [5]`, `t2 = [4,2,1]`, `b2 = [0]`; `Add(0)` hits the ghost in `b2`, sets
`p = 0` and gives `t1 = []`, `t2 = [0,4,2,1]`, `b1 = [5,3]`, `b2 = []`. -/
theorem adaptive_scenario :
    (NewARC 4 NoExpiration : Except String (ARCCache Nat)) = .ok (start 4) ∧
    (((start 4).run adaptiveOps).t1.keyList = ["4", "3"] ∧
      ((start 4).run adaptiveOps).t2.keyList = ["1", "0"] ∧
      ((start 4).run adaptiveOps).b1.keyList = ["2"] ∧
      ((start 4).run adaptiveOps).b2.keyList = [] ∧
      ((start 4).run adaptiveOps).p = 0) ∧
    ((((start 4).run adaptiveOps).t2.Contains "2" 0 = false ∧
      ((start 4).run adaptiveOps).t1.Contains "2" 0 = false ∧
      ((start 4).run adaptiveOps).b1.Contains "2" 0 = true) ∧
      ((start 4).run (adaptiveOps ++ adaptiveTail.take 1)).p = 1 ∧
      ((start 4).run (adaptiveOps ++ adaptiveTail.take 1)).t1.keyList = ["4"] ∧
      ((start 4).run (adaptiveOps ++ adaptiveTail.take 1)).t2.keyList = ["2", "1", "0"] ∧
      ((start 4).run (adaptiveOps ++ adaptiveTail.take 1)).b1.keyList = ["3"] ∧
      ((start 4).run (adaptiveOps ++ adaptiveTail.take 1)).b2.keyList = []) ∧
    (((start 4).run (adaptiveOps ++ adaptiveTail.take 2)).t1.keyList = [] ∧
      ((start 4).run (adaptiveOps ++ adaptiveTail.take 2)).t2.keyList = ["4", "2", "1", "0"] ∧
      ((start 4).run (adaptiveOps ++ adaptiveTail.take 2)).b1.keyList = ["3"] ∧
      ((start 4).run (adaptiveOps ++ adaptiveTail.take 2)).b2.keyList = []) ∧
    (((start 4).run (adaptiveOps ++ adaptiveTail.take 3)).t1.keyList = ["5"] ∧
      ((start 4).run (adaptiveOps ++ adaptiveTail.take 3)).t2.keyList = ["4", "2", "1"] ∧
      ((start 4).run (adaptiveOps ++ adaptiveTail.take 3)).b1.keyList = ["3"] ∧
      ((start 4).run (adaptiveOps ++ adaptiveTail.take 3)).b2.keyList = ["0"]) ∧
    ((((start 4).run (adaptiveOps ++ adaptiveTail.take 3)).t2.Contains "0" 0 = false ∧
      ((start 4).run (adaptiveOps ++ adaptiveTail.take 3)).t1.Contains "0" 0 = false ∧
      ((start 4).run (adaptiveOps ++ adaptiveTail.take 3)).b1.Contains "0" 0 = false ∧
      ((start 4).run (adaptiveOps ++ adaptiveTail.take 3)).b2.Contains "0" 0 = true) ∧
      ((start 4).run (adaptiveOps ++ adaptiveTail)).p = 0 ∧
      ((start 4).run (adaptiveOps ++ adaptiveTail)).t1.keyList = [] ∧
      ((start 4).run (adaptiveOps ++ adaptiveTail)).t2.keyList = ["0", "4", "2", "1"] ∧
      ((start 4).run (adaptiveOps ++ adaptiveTail)).b1.keyList = ["5", "3"] ∧
      ((start 4).run (adaptiveOps ++ adaptiveTail)).b2.keyList = []) := by
  refine ⟨NewARC_of_pos 4 NoExpiration (by decide), by decide, by decide, by decide, by decide,
    by decide⟩

/-- C26, the defect: the live lists outgrow the cache. On the cache
`NewARC(1, NoExpiration)` builds, `Add(a)`, `Add(b)`, `Add(a)` end with
`t1 = [b]`, `t2 = [a]`, so `t1.Len() + t2.Len() = 2 > 1`: the second `Add(a)`
hits the ghost in `b1`, raises `p` to 1, and `replace` then turns to the empty
`t2`. On `NewARC(2, NoExpiration)`, `Add` of `a`, `b`, `c`, `a`, `d`, `b` ends
with three live entries. -/
theorem live_lists_outgrow_size :
    (NewARC 1 NoExpiration : Except String (ARCCache Nat)) = .ok (start 1) ∧
    ((start 1).run overfullOps).t1.keyList = ["b"] ∧
    ((start 1).run overfullOps).t2.keyList = ["a"] ∧
    ((start 1).run overfullOps).p = 1 ∧
    ¬ (((start 1).run overfullOps).t1.Len + ((start 1).run overfullOps).t2.Len ≤ 1) ∧
    (NewARC 2 NoExpiration : Except String (ARCCache Nat)) = .ok (start 2) ∧
    ((start 2).run overfullOpsTwo).Len = 3 :=
  ⟨NewARC_of_pos 1 NoExpiration (by decide), by decide, by decide, by decide, by decide,
    NewARC_of_pos 2 NoExpiration (by decide), by decide⟩

theorem len_Add_Remove_le [Inhabited V] {b : BASELRU V} (hw : b.WellFormed)
    (hpos : 0 < b.size) (k key : String) (v : V) (ts : Int) (e : Nat)
    (hkey : b.items.lookup key = some e) :
    ((b.AddWithTimeout k v ts).1.Remove key).1.Len ≤ b.Len := by
  have hw' := BASELRU.wellFormed_AddWithTimeout hw k v ts
  have hle := BASELRU.len_Remove_le hw' key
  cases hk : b.items.lookup k with
  | some e' =>
    rw [BASELRU.len_AddWithTimeout_present b k v ts e' hk] at hle
    exact hle
  | none =>
    have hent := BASELRU.entries_AddWithTimeout_absent hw hpos k v ts hk
    by_cases hfull : (b.Len : Int) = b.size
    · rw [if_pos hfull] at hent
      have hlen : (b.AddWithTimeout k v ts).1.Len = b.Len := by
        rw [BASELRU.len_eq_length_entries, hent, List.length_cons, List.length_dropLast,
          ← BASELRU.len_eq_length_entries]
        omega
      rw [hlen] at hle
      exact hle
    · rw [if_neg hfull] at hent
      have hlen : (b.AddWithTimeout k v ts).1.Len = b.Len + 1 := by
        rw [BASELRU.len_eq_length_entries, hent, List.length_cons,
          ← BASELRU.len_eq_length_entries]
      have hmem : key ∈ (b.AddWithTimeout k v ts).1.keyList := by
        unfold BASELRU.keyList
        rw [hent, List.map_cons]
        exact List.mem_cons_of_mem _ ((BASELRU.mem_keyList_iff hw.toLinked key).2 ⟨e, hkey⟩)
      obtain ⟨e', he'⟩ := (BASELRU.mem_keyList_iff hw'.toLinked key).1 hmem
      have := BASELRU.len_Remove_present hw' key e' he'
      omega

theorem inv_t1 [Inhabited V] {c : ARCCache V} (h : c.Inv) {l : BASELRU V} (hw : l.WellFormed)
    (hs : l.size = c.size) : ({ c with t1 := l } : ARCCache V).Inv :=
  ⟨hw, h.t2_wf, h.b1_wf, h.b2_wf, hs, h.t2_size, h.b1_size, h.b2_size, h.size_pos⟩

theorem inv_t2 [Inhabited V] {c : ARCCache V} (h : c.Inv) {l : BASELRU V} (hw : l.WellFormed)
    (hs : l.size = c.size) : ({ c with t2 := l } : ARCCache V).Inv :=
  ⟨h.t1_wf, hw, h.b1_wf, h.b2_wf, h.t1_size, hs, h.b1_size, h.b2_size, h.size_pos⟩

theorem inv_b1 [Inhabited V] {c : ARCCache V} (h : c.Inv) {l : BASELRU V} (hw : l.WellFormed)
    (hs : l.size = c.size) : ({ c with b1 := l } : ARCCache V).Inv :=
  ⟨h.t1_wf, h.t2_wf, hw, h.b2_wf, h.t1_size, h.t2_size, hs, h.b2_size, h.size_pos⟩

theorem inv_b2 [Inhabited V] {c : ARCCache V} (h : c.Inv) {l : BASELRU V} (hw : l.WellFormed)
    (hs : l.size = c.size) : ({ c with b2 := l } : ARCCache V).Inv :=
  ⟨h.t1_wf, h.t2_wf, h.b1_wf, hw, h.t1_size, h.t2_size, h.b1_size, hs, h.size_pos⟩

theorem inv_p [Inhabited V] {c : ARCCache V} (h : c.Inv) (x : Int) :
    ({ c with p := x } : ARCCache V).Inv :=
  ⟨h.t1_wf, h.t2_wf, h.b1_wf, h.b2_wf, h.t1_size, h.t2_size, h.b1_size, h.b2_size, h.size_pos⟩

/-- What `replace` does to the ghost lists: nothing, or one `Add` into `b1`, or
one `Add` into `b2`; the structure, `size` and `p` stay. -/
theorem replace_effect [Inhabited V] {c : ARCCache V} (h : c.Inv) (inB2 : Bool) (now : Int) :
    (c.replace inB2 now).Inv ∧ (c.replace inB2 now).size = c.size ∧
    (c.replace inB2 now).p = c.p ∧
    (((c.replace inB2 now).b1 = c.b1 ∧ (c.replace inB2 now).b2 = c.b2) ∨
     (∃ k, (c.replace inB2 now).b1 = (c.b1.AddWithTimeout k default 0).1 ∧
       (c.replace inB2 now).b2 = c.b2) ∨
     (∃ k, (c.replace inB2 now).b1 = c.b1 ∧
       (c.replace inB2 now).b2 = (c.b2.AddWithTimeout k default 0).1)) := by
  unfold replace
  simp only
  split
  · split
    · refine ⟨?_, rfl, rfl, Or.inr (Or.inl ⟨c.t1.RemoveOldest.2.1, ?_, rfl⟩)⟩
      · exact ⟨BASELRU.wellFormed_RemoveOldest h.t1_wf, h.t2_wf,
          BASELRU.wellFormed_AddWithExpire h.b1_wf _ _ _ _, h.b2_wf,
          (BASELRU.size_RemoveOldest _).trans h.t1_size, h.t2_size,
          (BASELRU.size_AddWithExpire _ _ _ _ _).trans h.b1_size, h.b2_size, h.size_pos⟩
      · exact congrArg Prod.fst (BASELRU.Add_eq _ _ _ _)
    · exact ⟨h, rfl, rfl, Or.inl ⟨rfl, rfl⟩⟩
  · split
    · refine ⟨?_, rfl, rfl, Or.inr (Or.inr ⟨c.t2.RemoveOldest.2.1, rfl, ?_⟩)⟩
      · exact ⟨h.t1_wf, BASELRU.wellFormed_RemoveOldest h.t2_wf, h.b1_wf,
          BASELRU.wellFormed_AddWithExpire h.b2_wf _ _ _ _,
          h.t1_size, (BASELRU.size_RemoveOldest _).trans h.t2_size, h.b1_size,
          (BASELRU.size_AddWithExpire _ _ _ _ _).trans h.b2_size, h.size_pos⟩
      · exact congrArg Prod.fst (BASELRU.Add_eq _ _ _ _)
    · exact ⟨h, rfl, rfl, Or.inl ⟨rfl, rfl⟩⟩

theorem makeRoom_effect [Inhabited V] {c : ARCCache V} (h : c.Inv) (inB2 : Bool) (now : Int) :
    (c.makeRoom inB2 now).Inv ∧ (c.makeRoom inB2 now).size = c.size ∧
    (c.makeRoom inB2 now).p = c.p ∧
    (((c.makeRoom inB2 now).b1 = c.b1 ∧ (c.makeRoom inB2 now).b2 = c.b2) ∨
     (∃ k, (c.makeRoom inB2 now).b1 = (c.b1.AddWithTimeout k default 0).1 ∧
       (c.makeRoom inB2 now).b2 = c.b2) ∨
     (∃ k, (c.makeRoom inB2 now).b1 = c.b1 ∧
       (c.makeRoom inB2 now).b2 = (c.b2.AddWithTimeout k default 0).1)) := by
  unfold makeRoom
  split
  · exact replace_effect h inB2 now
  · exact ⟨h, rfl, rfl, Or.inl ⟨rfl, rfl⟩⟩

theorem makeRoom_ghosts_le [Inhabited V] {c : ARCCache V} (h : c.Inv) (inB2 : Bool)
    (now : Int) :
    (c.makeRoom inB2 now).b1.Len + (c.makeRoom inB2 now).b2.Len ≤ c.b1.Len + c.b2.Len + 1 := by
  obtain ⟨_, _, _, ⟨h1, h2⟩ | ⟨k, h1, h2⟩ | ⟨k, h1, h2⟩⟩ := makeRoom_effect h inB2 now
  · rw [h1, h2]; omega
  · rw [h1, h2]
    have := BASELRU.len_AddWithTimeout_le c.b1 k default 0
    omega
  · rw [h1, h2]
    have := BASELRU.len_AddWithTimeout_le c.b2 k default 0
    omega

theorem pruneGhosts_effect [Inhabited V] {c : ARCCache V} (h : c.Inv) (hp0 : 0 ≤ c.p)
    (hp1 : c.p ≤ c.size) (hg : (c.b1.Len : Int) + c.b2.Len ≤ c.size + 1) :
    c.pruneGhosts.Inv ∧ c.pruneGhosts.size = c.size ∧ c.pruneGhosts.p = c.p ∧
    (c.pruneGhosts.b1.Len : Int) + c.pruneGhosts.b2.Len ≤ c.size := by
  have h1 := BASELRU.len_RemoveOldest_le c.b1
  have h2 := BASELRU.len_RemoveOldest_le c.b2
  have hi1 := inv_b1 h (BASELRU.wellFormed_RemoveOldest h.b1_wf)
    ((BASELRU.size_RemoveOldest _).trans h.b1_size)
  unfold pruneGhosts
  simp only
  by_cases hb1 : (c.b1.Len : Int) > c.size - c.p
  · have h1' := BASELRU.len_RemoveOldest_of_pos c.b1 (by omega)
    rw [if_pos hb1]
    by_cases hb2 : (c.b2.Len : Int) > c.p
    · have h2' := BASELRU.len_RemoveOldest_of_pos c.b2 (by omega)
      rw [if_pos hb2]
      refine ⟨inv_b2 hi1 (BASELRU.wellFormed_RemoveOldest h.b2_wf)
        ((BASELRU.size_RemoveOldest _).trans h.b2_size), rfl, rfl, ?_⟩
      show (c.b1.RemoveOldest.1.Len : Int) + c.b2.RemoveOldest.1.Len ≤ c.size
      omega
    · rw [if_neg hb2]
      refine ⟨hi1, rfl, rfl, ?_⟩
      show (c.b1.RemoveOldest.1.Len : Int) + c.b2.Len ≤ c.size
      omega
  · rw [if_neg hb1]
    by_cases hb2 : (c.b2.Len : Int) > c.p
    · have h2' := BASELRU.len_RemoveOldest_of_pos c.b2 (by omega)
      rw [if_pos hb2]
      refine ⟨inv_b2 h (BASELRU.wellFormed_RemoveOldest h.b2_wf)
        ((BASELRU.size_RemoveOldest _).trans h.b2_size), rfl, rfl, ?_⟩
      show (c.b1.Len : Int) + c.b2.RemoveOldest.1.Len ≤ c.size
      omega
    · rw [if_neg hb2]
      refine ⟨h, rfl, rfl, ?_⟩
      omega

theorem ghost_hit_b1 [Inhabited V] {c : ARCCache V} (h : c.Inv) (hb : c.Bounded)
    (key : String) (value : V) (d now : Int) (e : Nat)
    (hkey : c.b1.items.lookup key = some e) :
    ({ c.makeRoom false now with
        b1 := ((c.makeRoom false now).b1.Remove key).1
        t2 := ((c.makeRoom false now).t2.AddWithExpire key value d now).1 } : ARCCache V).Inv ∧
    ({ c.makeRoom false now with
        b1 := ((c.makeRoom false now).b1.Remove key).1
        t2 := ((c.makeRoom false now).t2.AddWithExpire key value d now).1 }
        : ARCCache V).Bounded := by
  obtain ⟨hi, hsz, hp, hcases⟩ := makeRoom_effect h false now
  refine ⟨⟨hi.t1_wf, BASELRU.wellFormed_AddWithExpire hi.t2_wf _ _ _ _,
    BASELRU.wellFormed_Remove hi.b1_wf _, hi.b2_wf, hi.t1_size,
    (BASELRU.size_AddWithExpire _ _ _ _ _).trans hi.t2_size,
    (BASELRU.size_Remove _ _).trans hi.b1_size, hi.b2_size, hi.size_pos⟩, ?_, ?_, ?_⟩
  · show (((c.makeRoom false now).b1.Remove key).1.Len : Int) + (c.makeRoom false now).b2.Len ≤
      (c.makeRoom false now).size
    have hg := hb.ghosts
    rw [hsz]
    rcases hcases with ⟨h1, h2⟩ | ⟨k, h1, h2⟩ | ⟨k, h1, h2⟩
    · rw [h1, h2]
      have := BASELRU.len_Remove_le h.b1_wf key
      omega
    · rw [h1, h2]
      have := len_Add_Remove_le h.b1_wf (by rw [h.b1_size]; exact h.size_pos) k key
        default 0 e hkey
      omega
    · rw [h1, h2]
      have := BASELRU.len_Remove_present h.b1_wf key e hkey
      have := BASELRU.len_AddWithTimeout_le c.b2 k default 0
      omega
  · show 0 ≤ (c.makeRoom false now).p
    rw [hp]; exact hb.p_nonneg
  · show (c.makeRoom false now).p ≤ (c.makeRoom false now).size
    rw [hp, hsz]; exact hb.p_le

theorem ghost_hit_b2 [Inhabited V] {c : ARCCache V} (h : c.Inv) (hb : c.Bounded)
    (key : String) (value : V) (d now : Int) (e : Nat)
    (hkey : c.b2.items.lookup key = some e) :
    ({ c.makeRoom true now with
        b2 := ((c.makeRoom true now).b2.Remove key).1
        t2 := ((c.makeRoom true now).t2.AddWithExpire key value d now).1 } : ARCCache V).Inv ∧
    ({ c.makeRoom true now with
        b2 := ((c.makeRoom true now).b2.Remove key).1
        t2 := ((c.makeRoom true now).t2.AddWithExpire key value d now).1 }
        : ARCCache V).Bounded := by
  obtain ⟨hi, hsz, hp, hcases⟩ := makeRoom_effect h true now
  refine ⟨⟨hi.t1_wf, BASELRU.wellFormed_AddWithExpire hi.t2_wf _ _ _ _, hi.b1_wf,
    BASELRU.wellFormed_Remove hi.b2_wf _, hi.t1_size,
    (BASELRU.size_AddWithExpire _ _ _ _ _).trans hi.t2_size, hi.b1_size,
    (BASELRU.size_Remove _ _).trans hi.b2_size, hi.size_pos⟩, ?_, ?_, ?_⟩
  · show ((c.makeRoom true now).b1.Len : Int) + ((c.makeRoom true now).b2.Remove key).1.Len ≤
      (c.makeRoom true now).size
    have hg := hb.ghosts
    rw [hsz]
    rcases hcases with ⟨h1, h2⟩ | ⟨k, h1, h2⟩ | ⟨k, h1, h2⟩
    · rw [h1, h2]
      have := BASELRU.len_Remove_le h.b2_wf key
      omega
    · rw [h1, h2]
      have := BASELRU.len_Remove_present h.b2_wf key e hkey
      have := BASELRU.len_AddWithTimeout_le c.b1 k default 0
      omega
    · rw [h1, h2]
      have := len_Add_Remove_le h.b2_wf (by rw [h.b2_size]; exact h.size_pos) k key
        default 0 e hkey
      omega
  · show 0 ≤ (c.makeRoom true now).p
    rw [hp]; exact hb.p_nonneg
  · show (c.makeRoom true now).p ≤ (c.makeRoom true now).size
    rw [hp, hsz]; exact hb.p_le

theorem AddWithExpire_bounded [Inhabited V] {c : ARCCache V} (h : c.Inv) (hb : c.Bounded)
    (key : String) (value : V) (d now : Int) :
    (c.AddWithExpire key value d now).Inv ∧ (c.AddWithExpire key value d now).Bounded := by
  unfold AddWithExpire
  simp only
  split
  · exact ⟨inv_t2 h (BASELRU.wellFormed_AddWithExpire h.t2_wf _ _ _ _)
      ((BASELRU.size_AddWithExpire _ _ _ _ _).trans h.t2_size), hb.ghosts, hb.p_nonneg, hb.p_le⟩
  · split
    · exact ⟨⟨BASELRU.wellFormed_Remove h.t1_wf _,
        BASELRU.wellFormed_AddWithExpire h.t2_wf _ _ _ _, h.b1_wf, h.b2_wf,
        (BASELRU.size_Remove _ _).trans h.t1_size,
        (BASELRU.size_AddWithExpire _ _ _ _ _).trans h.t2_size, h.b1_size, h.b2_size,
        h.size_pos⟩, hb.ghosts, hb.p_nonneg, hb.p_le⟩
    · split
      · rename_i hc
        obtain ⟨e, he⟩ := BASELRU.lookup_of_Contains hc
        have hpos := h.size_pos
        have hp0 := hb.p_nonneg
        have hp1 := hb.p_le
        exact ghost_hit_b1 (inv_p h (min c.size (c.p + max 1 ((c.b2.Len : Int) / c.b1.Len))))
          ⟨hb.ghosts, le_min hpos.le (by have := le_max_left 1 ((c.b2.Len : Int) / c.b1.Len); show 0 ≤ c.p + _; omega),
            min_le_left _ _⟩ key value d now e he
      · split
        · rename_i hc
          obtain ⟨e, he⟩ := BASELRU.lookup_of_Contains hc
          have hp0 := hb.p_nonneg
          have hp1 := hb.p_le
          exact ghost_hit_b2 (inv_p h (max 0 (c.p - max 1 ((c.b1.Len : Int) / c.b2.Len))))
            ⟨hb.ghosts, le_max_left _ _,
              max_le h.size_pos.le (by have := le_max_left 1 ((c.b1.Len : Int) / c.b2.Len); show c.p - _ ≤ c.size; omega)⟩
            key value d now e he
        · obtain ⟨hi, hsz, hp, _⟩ := makeRoom_effect h false now
          have hgl := makeRoom_ghosts_le h false now
          have hg := hb.ghosts
          obtain ⟨hi', hsz', hp', hg'⟩ := pruneGhosts_effect hi (by rw [hp]; exact hb.p_nonneg)
            (by rw [hp, hsz]; exact hb.p_le) (by rw [hsz]; omega)
          refine ⟨inv_t1 hi' (BASELRU.wellFormed_AddWithExpire hi'.t1_wf _ _ _ _)
            ((BASELRU.size_AddWithExpire _ _ _ _ _).trans hi'.t1_size), ?_, ?_, ?_⟩
          · show ((c.makeRoom false now).pruneGhosts.b1.Len : Int) +
              (c.makeRoom false now).pruneGhosts.b2.Len ≤ (c.makeRoom false now).pruneGhosts.size
            rw [hsz']; exact hg'
          · show 0 ≤ (c.makeRoom false now).pruneGhosts.p
            rw [hp', hp]; exact hb.p_nonneg
          · show (c.makeRoom false now).pruneGhosts.p ≤ (c.makeRoom false now).pruneGhosts.size
            rw [hp', hp, hsz', hsz]; exact hb.p_le

theorem Get_bounded [Inhabited V] {c : ARCCache V} (h : c.Inv) (hb : c.Bounded)
    (key : String) (now : Int) : (c.Get key now).1.Inv ∧ (c.Get key now).1.Bounded := by
  unfold Get
  simp only
  split
  · exact ⟨inv_t2 h (BASELRU.wellFormed_Get h.t2_wf _ _) ((BASELRU.size_Get _ _ _).trans h.t2_size),
      hb.ghosts, hb.p_nonneg, hb.p_le⟩
  · have hw := BASELRU.wellFormed_Get h.t2_wf key now
    have hs := (BASELRU.size_Get c.t2 key now).trans h.t2_size
    split
    · exact ⟨⟨BASELRU.wellFormed_Remove h.t1_wf _,
        BASELRU.wellFormed_AddWithTimeout hw _ _ _, h.b1_wf, h.b2_wf,
        (BASELRU.size_Remove _ _).trans h.t1_size,
        (BASELRU.size_AddWithTimeout _ _ _ _).trans hs, h.b1_size, h.b2_size,
        h.size_pos⟩, hb.ghosts, hb.p_nonneg, hb.p_le⟩
    · exact ⟨inv_t2 h hw hs, hb.ghosts, hb.p_nonneg, hb.p_le⟩

theorem Remove_bounded [Inhabited V] {c : ARCCache V} (h : c.Inv) (hb : c.Bounded)
    (key : String) : (c.Remove key).Inv ∧ (c.Remove key).Bounded := by
  have h1 := BASELRU.len_Remove_le h.b1_wf key
  have h2 := BASELRU.len_Remove_le h.b2_wf key
  have hg := hb.ghosts
  unfold Remove
  simp only
  split
  · exact ⟨inv_t1 h (BASELRU.wellFormed_Remove h.t1_wf _)
      ((BASELRU.size_Remove _ _).trans h.t1_size), hb.ghosts, hb.p_nonneg, hb.p_le⟩
  · split
    · exact ⟨inv_t2 h (BASELRU.wellFormed_Remove h.t2_wf _)
        ((BASELRU.size_Remove _ _).trans h.t2_size), hb.ghosts, hb.p_nonneg, hb.p_le⟩
    · split
      · refine ⟨inv_b1 h (BASELRU.wellFormed_Remove h.b1_wf _)
          ((BASELRU.size_Remove _ _).trans h.b1_size), ?_, hb.p_nonneg, hb.p_le⟩
        show (((c.b1.Remove key).1.Len : Nat) : Int) + c.b2.Len ≤ c.size
        omega
      · refine ⟨inv_b2 h (BASELRU.wellFormed_Remove h.b2_wf _)
          ((BASELRU.size_Remove _ _).trans h.b2_size), ?_, hb.p_nonneg, hb.p_le⟩
        show ((c.b1.Len : Nat) : Int) + (c.b2.Remove key).1.Len ≤ c.size
        omega

theorem Purge_bounded [Inhabited V] {c : ARCCache V} (h : c.Inv) :
    c.Purge.Inv ∧ c.Purge.Bounded := by
  have hpos := h.size_pos
  refine ⟨⟨BASELRU.wellFormed_Purge (by rw [h.t1_size]; omega),
    BASELRU.wellFormed_Purge (by rw [h.t2_size]; omega),
    BASELRU.wellFormed_Purge (by rw [h.b1_size]; omega),
    BASELRU.wellFormed_Purge (by rw [h.b2_size]; omega),
    h.t1_size, h.t2_size, h.b1_size, h.b2_size, h.size_pos⟩, ?_, le_refl _, hpos.le⟩
  show (((c.b1.Purge.Len : Nat) : Int)) + c.b2.Purge.Len ≤ c.size
  have e1 : c.b1.Purge.Len = 0 := rfl
  have e2 : c.b2.Purge.Len = 0 := rfl
  rw [e1, e2]
  omega

theorem step_bounded [Inhabited V] {c : ARCCache V} (h : c.Inv) (hb : c.Bounded)
    (now : Int) (op : Op V) : (c.step now op).Inv ∧ (c.step now op).Bounded := by
  cases op with
  | Add key value => exact AddWithExpire_bounded h hb key value _ now
  | AddWithExpire key value d => exact AddWithExpire_bounded h hb key value d now
  | Get key => exact Get_bounded h hb key now
  | Remove key => exact Remove_bounded h hb key
  | Purge => exact Purge_bounded h

theorem size_replace [Inhabited V] (c : ARCCache V) (inB2 : Bool) (now : Int) :
    (c.replace inB2 now).size = c.size := by
  unfold replace
  simp only
  split <;> split <;> rfl

theorem size_makeRoom [Inhabited V] (c : ARCCache V) (inB2 : Bool) (now : Int) :
    (c.makeRoom inB2 now).size = c.size := by
  unfold makeRoom
  split
  · exact size_replace c inB2 now
  · rfl

theorem size_pruneGhosts [Inhabited V] (c : ARCCache V) : c.pruneGhosts.size = c.size := by
  unfold pruneGhosts
  simp only
  split <;> split <;> rfl

theorem size_step_arc [Inhabited V] (c : ARCCache V) (now : Int) (op : Op V) :
    (c.step now op).size = c.size := by
  have hadd : ∀ key value d, (c.AddWithExpire key value d now).size = c.size := by
    intro key value d
    unfold AddWithExpire
    simp only
    split
    · rfl
    · split
      · rfl
      · split
        · exact size_makeRoom _ false now
        · split
          · exact size_makeRoom _ true now
          · exact (size_pruneGhosts _).trans (size_makeRoom _ false now)
  cases op with
  | Add key value => exact hadd key value _
  | AddWithExpire key value d => exact hadd key value d
  | Get key =>
    show (c.Get key now).1.size = c.size
    unfold Get
    simp only
    split
    · rfl
    · split <;> rfl
  | Remove key =>
    show (c.Remove key).size = c.size
    unfold Remove
    simp only
    split
    · rfl
    · split
      · rfl
      · split <;> rfl
  | Purge => rfl

theorem run_bounded [Inhabited V] {c : ARCCache V} (h : c.Inv) (hb : c.Bounded)
    (ops : List (Int × Op V)) : (c.run ops).Inv ∧ (c.run ops).Bounded ∧
      (c.run ops).size = c.size := by
  induction ops generalizing c with
  | nil => exact ⟨h, hb, rfl⟩
  | cons a rest ih =>
    obtain ⟨now, op⟩ := a
    obtain ⟨h', hb'⟩ := step_bounded h hb now op
    obtain ⟨h1, h2, h3⟩ := ih h' hb'
    exact ⟨h1, h2, h3.trans (size_step_arc c now op)⟩

/-- C27: the ghost lists and the target stay in bounds. On a cache `NewARC(size,
d)` returned (which is the case exactly for `size > 0`), after every sequence
of `Add`, `AddWithExpire`, `Get`, `Remove` and `Purge`, each at its clock
reading: `b1.Len() + b2.Len() ≤ size` and `0 ≤ p ≤ size`. -/
theorem ghost_and_target_bounds [Inhabited V] (size d : Int) (c₀ : ARCCache V)
    (ops : List (Int × Op V)) (hnew : NewARC size d = .ok c₀) :
    ((c₀.run ops).b1.Len : Int) + (c₀.run ops).b2.Len ≤ size ∧
    0 ≤ (c₀.run ops).p ∧ (c₀.run ops).p ≤ size := by
  obtain ⟨hs, hc⟩ := NewARC_ok hnew
  have hw := BASELRU.wellFormed_fresh (V := V) size false d hs.le
  have hinv : c₀.Inv := by
    rw [hc]
    exact ⟨hw, hw, hw, hw, rfl, rfl, rfl, rfl, hs⟩
  have hb : c₀.Bounded := by
    rw [hc]
    exact ⟨hs.le, le_refl _, hs.le⟩
  have hsz : c₀.size = size := by rw [hc]
  obtain ⟨_, hb', hsz'⟩ := run_bounded hinv hb ops
  have h1 := hb'.ghosts
  have h2 := hb'.p_le
  rw [hsz', hsz] at h1 h2
  exact ⟨h1, hb'.p_nonneg, h2⟩

theorem ghost_and_target_bounds_witness :
    (((start 2).run ghostOps).b1.Len : Int) + ((start 2).run ghostOps).b2.Len ≤ 2 ∧
    0 ≤ ((start 2).run ghostOps).p ∧ ((start 2).run ghostOps).p ≤ 2 :=
  ghost_and_target_bounds 2 NoExpiration (start 2) ghostOps
    (NewARC_of_pos 2 NoExpiration (by decide))

end ARCCache

namespace Cache

variable {V : Type}

theorem wellFormed_lru_sample : sample.lru.WellFormed :=
  BASELRU.wellFormed_run (BASELRU.wellFormed_fresh 2 false NoExpiration (by decide)) _

/-- C29: `ContainsOrAdd` of the LRU policy. In a well-formed cache of positive
capacity: if the key is in the list, `ContainsOrAdd(key, value)` returns
`(true, false)` and leaves the cache (contents and recency order) as it is; if
the key is not in the list, it performs `Add(key, value)` (the new entry is in
front, without deadline, the oldest entry leaving when the list was full) and
returns `(false, evicted)` with the result of that `Add`, after which
`Contains(key)` is true at every clock reading. -/
theorem ContainsOrAdd_spec [Inhabited V] (c : Cache V) (key : String) (value : V)
    (now : Int) (hw : c.lru.WellFormed) (hpos : 0 < c.lru.size) :
    (key ∈ c.lru.keyList → c.ContainsOrAdd key value now = (c, (true, false))) ∧
    (key ∉ c.lru.keyList →
      c.ContainsOrAdd key value now =
        ((c.Add key value now).1, (false, (c.Add key value now).2)) ∧
      (c.ContainsOrAdd key value now).2.2 = decide ((c.lru.Len : Int) = c.lru.size) ∧
      (c.ContainsOrAdd key value now).1.lru.entries =
        ⟨key, value, 0⟩ ::
          (if (c.lru.Len : Int) = c.lru.size then c.lru.entries.dropLast else c.lru.entries) ∧
      ∀ later, (c.ContainsOrAdd key value now).1.Contains key later = true) := by
  constructor
  · intro hk
    obtain ⟨e, he⟩ := (BASELRU.mem_keyList_iff hw.toLinked key).1 hk
    unfold ContainsOrAdd BASELRU.Peek
    rw [he]
    rfl
  · intro hk
    have hnone : c.lru.items.lookup key = none := (hw.toLinked.lookup_eq_none key).2 hk
    have heq : c.ContainsOrAdd key value now =
        ((c.Add key value now).1, (false, (c.Add key value now).2)) := by
      unfold ContainsOrAdd
      rw [BASELRU.Peek_absent c.lru key hnone]
      rfl
    have hent := BASELRU.entries_AddWithTimeout_absent hw hpos key value 0 hnone
    have hflag := BASELRU.flag_AddWithTimeout_absent hw key value 0 hnone
    rw [← BASELRU.Add_eq c.lru key value now] at hent hflag
    refine ⟨heq, ?_, ?_, ?_⟩
    · rw [heq]; exact hflag
    · rw [heq]; exact hent
    · intro later
      rw [heq]
      show (c.lru.Add key value now).1.Contains key later = true
      have hw' : (c.lru.Add key value now).1.WellFormed := by
        rw [BASELRU.Add_eq]; exact BASELRU.wellFormed_AddWithTimeout hw _ _ _
      have hmem : (⟨key, value, 0⟩ : entry V) ∈ (c.lru.Add key value now).1.entries := by
        rw [hent]; exact List.mem_cons_self _ _
      obtain ⟨e, hlk, hheap⟩ := hw'.toLinked.lookup_of_mem hmem
      have hlk' : (c.lru.Add key value now).1.items.lookup key = some e := hlk
      unfold BASELRU.Contains
      rw [hlk']
      show (if ((c.lru.Add key value now).1.heap e).Expired later then false else true) = true
      rw [hheap]
      rfl

theorem ContainsOrAdd_spec_witness :
    sample.lru.WellFormed ∧ 0 < sample.lru.size ∧
    ("3" ∈ sample.lru.keyList → sample.ContainsOrAdd "3" 3 5 = (sample, (true, false))) ∧
    ("3" ∉ sample.lru.keyList →
      sample.ContainsOrAdd "3" 3 5 =
        ((sample.Add "3" 3 5).1, (false, (sample.Add "3" 3 5).2)) ∧
      (sample.ContainsOrAdd "3" 3 5).2.2 = decide ((sample.lru.Len : Int) = sample.lru.size) ∧
      (sample.ContainsOrAdd "3" 3 5).1.lru.entries =
        ⟨"3", 3, 0⟩ ::
          (if (sample.lru.Len : Int) = sample.lru.size then sample.lru.entries.dropLast
            else sample.lru.entries) ∧
      ∀ later, (sample.ContainsOrAdd "3" 3 5).1.Contains "3" later = true) :=
  ⟨wellFormed_lru_sample, by decide,
    ContainsOrAdd_spec sample "3" 3 5 wellFormed_lru_sample (by decide)⟩

end Cache

namespace TwoQueueCache

variable {V : Type}

/-- C22 (failing input): a further `Add` that does not leave `recent` unchanged.
On the cache `New2Q(2, NoExpiration)` returns, `"a"` is added with a lifetime of
10 at clock 0; at clock 5 it is in `recent`, not expired, and `frequent` does
not hold it. `AddWithExpire("a", 2, 10)` at clock 5 promotes it: `recent` is
empty and `frequent` holds `("a", 2, 15)`. The further `Add("a", 3)` at clock 99
finds `frequent.Contains("a")` false, the entry being expired though resident,
and inserts `"a"` into `recent`: the key is in both lists, the entry of
`frequent` keeps the value 2, and `Keys()` is `["a", "a"]`. -/
theorem further_Add_after_deadline_reinserts :
    ∃ c : TwoQueueCache Nat, New2Q 2 NoExpiration = .ok c ∧
      ((c.run (lateReaddOps.take 1)).recent.Contains "a" 5 = true ∧
        (c.run (lateReaddOps.take 1)).frequent.items.lookup "a" = none) ∧
      ((c.run (lateReaddOps.take 2)).recent.entries = [] ∧
        (c.run (lateReaddOps.take 2)).frequent.entries = [⟨"a", 2, 15⟩]) ∧
      (c.run (lateReaddOps.take 2)).frequent.Contains "a" 99 = false ∧
      (c.run lateReaddOps).recent.entries = [⟨"a", 3, 0⟩] ∧
      (c.run lateReaddOps).frequent.entries = [⟨"a", 2, 15⟩] ∧
      (c.run lateReaddOps).recent ≠ (c.run (lateReaddOps.take 2)).recent ∧
      (c.run lateReaddOps).Keys = some ["a", "a"] :=
  ⟨sample, New2Q_sample, by decide, by decide, by decide, by decide, by decide,
    fun h => absurd (congrArg BASELRU.entries h) (by decide), by decide⟩

end TwoQueueCache

end GoLru
